import Mathlib

/-!
# Raytracer (`raycast.c`): a verification development

The C program works on `double`s.  They are modelled by `Dbl K`: the finite values are
the elements of an arbitrary linearly ordered field `K` (exact arithmetic, so rounding
and overflow are not modelled, and there is a single unsigned zero), together with the
three IEEE-754 special values `+inf`, `-inf` and `NaN`, which the code really produces
(the literal `INFINITY`, a division by zero, the normalisation of a zero vector).
Comparisons are the C comparisons: every ordered comparison with a `NaN` is false.

The functions of `math.h` are not part of the repository; they are parameters (`Libm`).

An `Object** object_array` with its `object_counter` (the index of the last object) is a
`List (Object K)`: the list carries its own length, `object_counter + 1`.
-/

namespace Raycast

/-- A C `double`: a finite value, or one of the IEEE special values. -/
inductive Dbl (K : Type) : Type where
  | fin (v : K) : Dbl K
  | pinf : Dbl K
  | ninf : Dbl K
  | nan : Dbl K
  deriving DecidableEq

namespace Dbl

variable {K : Type} [LinearOrderedField K]

/-- Unary minus. -/
def neg : Dbl K → Dbl K
  | fin a => fin (-a)
  | pinf => ninf
  | ninf => pinf
  | nan => nan

/-- Addition: `inf + -inf` is `NaN`. -/
def add : Dbl K → Dbl K → Dbl K
  | fin a, fin b => fin (a + b)
  | fin _, pinf => pinf
  | fin _, ninf => ninf
  | fin _, nan => nan
  | pinf, fin _ => pinf
  | pinf, pinf => pinf
  | pinf, ninf => nan
  | pinf, nan => nan
  | ninf, fin _ => ninf
  | ninf, pinf => nan
  | ninf, ninf => ninf
  | ninf, nan => nan
  | nan, _ => nan

/-- Subtraction. -/
def sub (a b : Dbl K) : Dbl K := add a (neg b)

/-- Multiplication: `0 * inf` is `NaN`. -/
def mul : Dbl K → Dbl K → Dbl K
  | fin a, fin b => fin (a * b)
  | fin a, pinf => if a = 0 then nan else if 0 < a then pinf else ninf
  | fin a, ninf => if a = 0 then nan else if 0 < a then ninf else pinf
  | fin _, nan => nan
  | pinf, fin b => if b = 0 then nan else if 0 < b then pinf else ninf
  | pinf, pinf => pinf
  | pinf, ninf => ninf
  | pinf, nan => nan
  | ninf, fin b => if b = 0 then nan else if 0 < b then ninf else pinf
  | ninf, pinf => ninf
  | ninf, ninf => pinf
  | ninf, nan => nan
  | nan, _ => nan

/-- Division: a non-zero finite value divided by zero is infinite, `0 / 0` is `NaN`. -/
def div : Dbl K → Dbl K → Dbl K
  | fin a, fin b =>
      if b = 0 then (if a = 0 then nan else if 0 < a then pinf else ninf) else fin (a / b)
  | fin _, pinf => fin 0
  | fin _, ninf => fin 0
  | fin _, nan => nan
  | pinf, fin b => if 0 ≤ b then pinf else ninf
  | pinf, pinf => nan
  | pinf, ninf => nan
  | pinf, nan => nan
  | ninf, fin b => if 0 ≤ b then ninf else pinf
  | ninf, pinf => nan
  | ninf, ninf => nan
  | ninf, nan => nan
  | nan, _ => nan

instance : Neg (Dbl K) := ⟨neg⟩
instance : Add (Dbl K) := ⟨add⟩
instance : Sub (Dbl K) := ⟨sub⟩
instance : Mul (Dbl K) := ⟨mul⟩
instance : Div (Dbl K) := ⟨div⟩

/-- The C comparison `a < b`. -/
def lt : Dbl K → Dbl K → Bool
  | fin a, fin b => decide (a < b)
  | fin _, pinf => true
  | ninf, fin _ => true
  | ninf, pinf => true
  | _, _ => false

/-- The C comparison `a > b`. -/
def gt (a b : Dbl K) : Bool := lt b a

/-- The C comparison `a <= b`. -/
def le : Dbl K → Dbl K → Bool
  | fin a, fin b => decide (a ≤ b)
  | fin _, pinf => true
  | ninf, fin _ => true
  | ninf, pinf => true
  | pinf, pinf => true
  | ninf, ninf => true
  | _, _ => false

/-- The C comparison `a == b` (false on `NaN`). -/
def eq : Dbl K → Dbl K → Bool
  | fin a, fin b => decide (a = b)
  | pinf, pinf => true
  | ninf, ninf => true
  | _, _ => false

/-- The C comparison `a != b` (true on `NaN`). -/
def ne (a b : Dbl K) : Bool := !(eq a b)

/-- The lifting of `sqrt` to the special values; `sq` is the function on finite values. -/
def sqrt (sq : K → K) : Dbl K → Dbl K
  | fin a => if a < 0 then nan else fin (sq a)
  | pinf => pinf
  | ninf => nan
  | nan => nan

/-- The lifting of `cos` to the special values; `cs` is the function on finite values. -/
def cos (cs : K → K) : Dbl K → Dbl K
  | fin a => fin (cs a)
  | pinf => nan
  | ninf => nan
  | nan => nan

/-- Conversion of a non-negative C `int` to `double`. -/
def ofNat (n : Nat) : Dbl K := fin (n : K)

end Dbl

open Dbl

/-- The functions of `math.h` that the program calls. -/
structure Libm (K : Type) where
  /-- The value of `sqrt` on finite non-negative arguments. -/
  sqrt : K → K
  /-- The value of `cos` on finite arguments. -/
  cos : K → K
  /-- The function `pow`. -/
  pow : Dbl K → Dbl K → Dbl K

/-- A `double[3]`. -/
structure Vec (K : Type) where
  c0 : Dbl K
  c1 : Dbl K
  c2 : Dbl K
  deriving DecidableEq

/-- The `Object` struct: `kind` selects the member of the union. -/
inductive Object (K : Type) : Type where
  | camera (width height : Dbl K) : Object K
  | sphere (diffuse_color specular_color position : Vec K) (radius : Dbl K) : Object K
  | plane (diffuse_color specular_color position normal : Vec K) : Object K
  | light (color position direction : Vec K)
      (radial_a2 radial_a1 radial_a0 angular_a0 theta : Dbl K) : Object K
  deriving DecidableEq

/-- The field `kind`: 0 = camera, 1 = sphere, 2 = plane, 3 = light. -/
def Object.kind {K : Type} : Object K → Nat
  | .camera _ _ => 0
  | .sphere _ _ _ _ => 1
  | .plane _ _ _ _ => 2
  | .light _ _ _ _ _ _ _ _ => 3

/-- How a run of a function can end other than by returning. -/
inductive Fault : Type where
  /-- The call `exit(1)`. -/
  | exit1 : Fault
  /-- Undefined behaviour: a read outside the object array or the pixel buffer, or of an
  uninitialised variable. -/
  | undefined : Fault
  deriving DecidableEq

section Source

variable {K : Type} [LinearOrderedField K]

/-- The function `sqr`. -/
def sqr (v : Dbl K) : Dbl K := v * v

/-- The function `normalize`: the vector divided by its length (in place in the source). -/
def normalize (m : Libm K) (v : Vec K) : Vec K :=
  let len := Dbl.sqrt m.sqrt (sqr v.c0 + sqr v.c1 + sqr v.c2)
  ⟨v.c0 / len, v.c1 / len, v.c2 / len⟩

/-- The function `clamp`. -/
def clamp (input : Dbl K) : Dbl K :=
  if Dbl.gt input (fin 1) then fin 1
  else if Dbl.lt input (fin 0) then fin 0
  else input

/-- The function `sphere_intersection`. -/
def sphere_intersection (m : Libm K) (Ro Rd C : Vec K) (radius : Dbl K) : Dbl K :=
  let a := sqr Rd.c0 + sqr Rd.c1 + sqr Rd.c2
  let b := (fin 2 * Rd.c0 * Ro.c0 - fin 2 * Rd.c0 * C.c0)
    + (fin 2 * Rd.c1 * Ro.c1 - fin 2 * Rd.c1 * C.c1)
    + (fin 2 * Rd.c2 * Ro.c2 - fin 2 * Rd.c2 * C.c2)
  let c := (sqr Ro.c0 - fin 2 * Ro.c0 * C.c0 + sqr C.c0)
    + (sqr Ro.c1 - fin 2 * Ro.c1 * C.c1 + sqr C.c1)
    + (sqr Ro.c2 - fin 2 * Ro.c2 * C.c2 + sqr C.c2) - sqr radius
  let det := sqr b - fin 4 * a * c
  if Dbl.lt det (fin 0) then fin 0
  else
    let t0 := (-b - Dbl.sqrt m.sqrt det) / (fin 2 * a)
    let t1 := (-b + Dbl.sqrt m.sqrt det) / (fin 2 * a)
    if Dbl.le t0 (fin 0) && Dbl.le t1 (fin 0) then fin 0
    else if Dbl.le t0 (fin 0) && Dbl.gt t1 (fin 0) then t1
    else if Dbl.le t1 (fin 0) && Dbl.gt t0 (fin 0) then t0
    else if Dbl.gt t0 t1 then t1
    else if Dbl.gt t1 t0 then t0
    else t0

/-- The function `plane_intersection`. -/
def plane_intersection (Ro Rd C N : Vec K) : Dbl K :=
  let t := ((N.c0 * C.c0 - N.c0 * Ro.c0) + (N.c1 * C.c1 - N.c1 * Ro.c1)
      + (N.c2 * C.c2 - N.c2 * Ro.c2))
    / (Rd.c0 * N.c0 + Rd.c1 * N.c1 + Rd.c2 * N.c2)
  if Dbl.gt t (fin 0) then t else fin 0

/-- The function `fang`: the angular attenuation. -/
def fang (m : Libm K) (a0 theta : Dbl K) (vO vL : Vec K) : Dbl K :=
  if Dbl.eq theta (fin 0) || Dbl.eq a0 (fin 0) then fin 1
  else if Dbl.lt (vO.c0 * vL.c0 + vO.c1 * vL.c1 + vO.c2 * vL.c2) (Dbl.cos m.cos theta) then fin 0
  else m.pow (vO.c0 * vL.c0 + vO.c1 * vL.c1 + vO.c2 * vL.c2) a0

/-- The function `frad`: the radial attenuation. -/
def frad (a0 a1 a2 distance : Dbl K) : Dbl K :=
  if Dbl.eq distance (fin 0) then fin 1
  else
    let denominator := a0 + a1 * distance + a2 * sqr distance
    if Dbl.eq denominator (fin 0) then fin 1
    else fin 1 / denominator

/-- One channel of `diffuse` and of `specular` after its `if (c < 0) c = 0;`. -/
def floor0 (c : Dbl K) : Dbl K := if Dbl.lt c (fin 0) then fin 0 else c

/-- The function `diffuse`. -/
def diffuse (L N Cd Ci : Vec K) : Vec K :=
  ⟨floor0 ((L.c0 * N.c0 + L.c1 * N.c1 + L.c2 * N.c2) * Cd.c0 * Ci.c0),
   floor0 ((L.c0 * N.c0 + L.c1 * N.c1 + L.c2 * N.c2) * Cd.c1 * Ci.c1),
   floor0 ((L.c0 * N.c0 + L.c1 * N.c1 + L.c2 * N.c2) * Cd.c2 * Ci.c2)⟩

/-- The function `specular`, with the exponent 20 of the source. -/
def specular (m : Libm K) (R V Cs Ci N L : Vec K) : Vec K :=
  if Dbl.le (N.c0 * L.c0 + N.c1 * L.c1 + N.c2 * L.c2) (fin 0)
      || Dbl.le (R.c0 * V.c0 + R.c1 * V.c1 + R.c2 * V.c2) (fin 0) then
    ⟨fin 0, fin 0, fin 0⟩
  else
    ⟨floor0 (m.pow (R.c0 * V.c0 + R.c1 * V.c1 + R.c2 * V.c2) (fin 20) * Cs.c0 * Ci.c0),
     floor0 (m.pow (R.c0 * V.c0 + R.c1 * V.c1 + R.c2 * V.c2) (fin 20) * Cs.c1 * Ci.c1),
     floor0 (m.pow (R.c0 * V.c0 + R.c1 * V.c1 + R.c2 * V.c2) (fin 20) * Cs.c2 * Ci.c2)⟩

/-- The function `calculate_distance`. -/
def calculate_distance (m : Libm K) (input_vector : Vec K) : Dbl K :=
  Dbl.sqrt m.sqrt (sqr input_vector.c0 + sqr input_vector.c1 + sqr input_vector.c2)

/-- The function `reflect`. -/
def reflect (L N : Vec K) : Vec K :=
  ⟨L.c0 - fin 2 * ((L.c0 * N.c0) + (L.c1 * N.c1) + (L.c2 * N.c2)) * N.c0,
   L.c1 - fin 2 * ((L.c0 * N.c0) + (L.c1 * N.c1) + (L.c2 * N.c2)) * N.c1,
   L.c2 - fin 2 * ((L.c0 * N.c0) + (L.c1 * N.c1) + (L.c2 * N.c2)) * N.c2⟩

/-- The distance `t` that both object loops (the nearest-hit loop of `raycast_scene` and
the shadow loop of `render_light`) compute for an object: `sphere_intersection` for a sphere
(`kind == 1`), `plane_intersection` for a plane (`kind == 2`); any other object is skipped. -/
def object_t (m : Libm K) (Ro Rd : Vec K) : Object K → Option (Dbl K)
  | .sphere _ _ position radius => some (sphere_intersection m Ro Rd position radius)
  | .plane _ _ position normal => some (plane_intersection Ro Rd position normal)
  | _ => none

/-- The shadow loop of `render_light` (`while(parse_count1 < object_counter + 1)`), run
over the objects from index `parse_count1` on; `t` is the variable `t` of the source, which
keeps its value when an object is skipped.  The result is the value of `t` after the loop. -/
def shadow_loop (m : Libm K) (Ron Rdn : Vec K) (distance_from_light : Dbl K)
    (best_index : Nat) : List (Object K) → Nat → Dbl K → Dbl K
  | [], _, t => t
  | o :: rest, parse_count1, t =>
    if parse_count1 = best_index then
      shadow_loop m Ron Rdn distance_from_light best_index rest (parse_count1 + 1) t
    else
      match object_t m Ron Rdn o with
      | some t1 =>
        if Dbl.gt t1 (fin 0) && Dbl.lt t1 distance_from_light then t1
        else if Dbl.gt t1 (fin 0) && Dbl.gt t1 distance_from_light then
          shadow_loop m Ron Rdn distance_from_light best_index rest (parse_count1 + 1) (fin 0)
        else shadow_loop m Ron Rdn distance_from_light best_index rest (parse_count1 + 1) t1
      | none => shadow_loop m Ron Rdn distance_from_light best_index rest (parse_count1 + 1) t

/-- The three statements `color[i] += frad(...) * fang(...) * (diffused_color[i] +
speculared_color[i])` of `render_light`; `Rdn` is already reversed. -/
def add_light (m : Libm K) (color diffused_color speculared_color Rdn direction : Vec K)
    (radial_a0 radial_a1 radial_a2 angular_a0 theta best_t : Dbl K) : Vec K :=
  ⟨color.c0 + frad radial_a0 radial_a1 radial_a2 best_t
      * fang m angular_a0 theta Rdn direction * (diffused_color.c0 + speculared_color.c0),
   color.c1 + frad radial_a0 radial_a1 radial_a2 best_t
      * fang m angular_a0 theta Rdn direction * (diffused_color.c1 + speculared_color.c1),
   color.c2 + frad radial_a0 radial_a1 radial_a2 best_t
      * fang m angular_a0 theta Rdn direction * (diffused_color.c2 + speculared_color.c2)⟩

/-- The body of the outer loop of `render_light` for the object `o` at `parse_count`: what
it does to `color`.  An object that is not a light leaves it alone. -/
def render_light_body (m : Libm K) (object_array : List (Object K)) (best_t : Dbl K)
    (best_index : Nat) (Rd Ron : Vec K) (color : Vec K) (o : Object K) :
    Except Fault (Vec K) :=
  match o with
  | .light lcolor lposition ldirection radial_a2 radial_a1 radial_a0 angular_a0 theta =>
    let Rdn0 : Vec K := ⟨lposition.c0 - Ron.c0, lposition.c1 - Ron.c1, lposition.c2 - Ron.c2⟩
    let distance_from_light := calculate_distance m Rdn0
    let Rdn := normalize m Rdn0
    let t := shadow_loop m Ron Rdn distance_from_light best_index object_array.tail 1 (fin 0)
    let L := Rdn
    let V := Rd
    if Dbl.le t (fin 0) then
      match object_array[best_index]? with
      | some (.sphere diffuse_color specular_color position _) =>
        let N := normalize m
          ⟨Ron.c0 - position.c0, Ron.c1 - position.c1, Ron.c2 - position.c2⟩
        let R := reflect L N
        let diffused_color := diffuse L N diffuse_color lcolor
        let speculared_color := specular m R V specular_color lcolor N L
        .ok (add_light m color diffused_color speculared_color ⟨-Rdn.c0, -Rdn.c1, -Rdn.c2⟩
          ldirection radial_a0 radial_a1 radial_a2 angular_a0 theta best_t)
      | some (.plane diffuse_color specular_color _ normal) =>
        let N := normal
        let R := reflect L N
        let diffused_color := diffuse L N diffuse_color lcolor
        let speculared_color := specular m R V specular_color lcolor N L
        .ok (add_light m color diffused_color speculared_color ⟨-Rdn.c0, -Rdn.c1, -Rdn.c2⟩
          ldirection radial_a0 radial_a1 radial_a2 angular_a0 theta best_t)
      | some _ => .error Fault.exit1
      | none => .error Fault.undefined
    else .ok color
  | _ => .ok color

/-- The outer loop of `render_light` over the objects `os` (indices 1 to `object_counter`
in the source), stopping at the first `exit(1)`. -/
def render_light_loop (m : Libm K) (object_array : List (Object K)) (best_t : Dbl K)
    (best_index : Nat) (Rd Ron : Vec K) : List (Object K) → Vec K → Except Fault (Vec K)
  | [], color => .ok color
  | o :: os, color =>
    match render_light_body m object_array best_t best_index Rd Ron color o with
    | .ok color1 => render_light_loop m object_array best_t best_index Rd Ron os color1
    | .error f => .error f

/-- The function `render_light`: the colour of the hit at distance `best_t` on the object
at `best_index`. -/
def render_light (m : Libm K) (object_array : List (Object K)) (best_t : Dbl K)
    (best_index : Nat) (Ro Rd : Vec K) : Except Fault (Vec K) :=
  let Ron : Vec K := ⟨best_t * Rd.c0 + Ro.c0, best_t * Rd.c1 + Ro.c1, best_t * Rd.c2 + Ro.c2⟩
  match render_light_loop m object_array best_t best_index Rd Ron object_array.tail
      ⟨fin 0, fin 0, fin 0⟩ with
  | .ok color => .ok ⟨clamp color.c0, clamp color.c1, clamp color.c2⟩
  | .error f => .error f

/-- The nearest-hit loop of `raycast_scene` (`while(parse_count < object_counter + 1)`), run
over the objects from index `parse_count` on.  The state is `(best_t, best_index)`;
`best_index` is `none` as long as the variable is uninitialised. -/
def nearest_loop (m : Libm K) (Ro Rd : Vec K) :
    List (Object K) → Nat → Dbl K × Option Nat → Dbl K × Option Nat
  | [], _, s => s
  | o :: rest, parse_count, s =>
    match object_t m Ro Rd o with
    | some t =>
      if Dbl.lt t s.1 && Dbl.gt t (fin 0) then
        nearest_loop m Ro Rd rest (parse_count + 1) (t, some parse_count)
      else nearest_loop m Ro Rd rest (parse_count + 1) s
    | none => nearest_loop m Ro Rd rest (parse_count + 1) s

/-- The index `(int)((N*M) - (floor(pixel_count/N) + 1)*N) + pixel_count%N` of the pixel
buffer.  The division `pixel_count/N` is the division of two non-negative `int`s, so that
`floor` is applied to an integer.  The value is computed in the integers: every intermediate
value lies between 0 and `N*M`, which `main` already needs to be an `int`. -/
def buffer_index (N M pixel_count : Nat) : Int :=
  (((N * M : Nat) : Int) - (((pixel_count / N : Nat) : Int) + 1) * (N : Int))
    + ((pixel_count % N : Nat) : Int)

/-- The variables of `raycast_scene` that live across pixels. -/
structure RenderState (K : Type) where
  /-- The pixel buffer, as the map from an index to the triple stored there. -/
  pixel_buffer : Nat → Vec K
  /-- The number of pixels processed. -/
  pixel_count : Nat
  /-- The variable `best_index`: `none` while uninitialised. -/
  best_index : Option Nat

/-- An abnormal end of `raycast_scene`, with the pixel buffer as it is at that moment. -/
structure Abort (K : Type) where
  /-- What happened. -/
  fault : Fault
  /-- The pixel buffer at that moment. -/
  pixel_buffer : Nat → Vec K

/-- The direction of the ray of pixel `(x, y)`: `Rd` after `normalize(Rd)`. -/
def pixel_ray (m : Libm K) (w h : Dbl K) (N M x y : Nat) : Vec K :=
  let cx : Dbl K := fin 0
  let cy : Dbl K := fin 0
  let pixwidth := w / Dbl.ofNat N
  let pixheight := h / Dbl.ofNat M
  normalize m ⟨cx - (w / fin 2) + pixwidth * (Dbl.ofNat x + fin (1 / 2)),
    cy - (h / fin 2) + pixheight * (Dbl.ofNat y + fin (1 / 2)), fin 1⟩

/-- The body of the two `for` loops of `raycast_scene` for the pixel `(x, y)`. -/
def raycast_pixel (m : Libm K) (object_array : List (Object K)) (w h : Dbl K) (N M : Nat)
    (s : RenderState K) (y x : Nat) : Except (Abort K) (RenderState K) :=
  let Ro : Vec K := ⟨fin 0, fin 0, fin 0⟩
  let Rd := pixel_ray m w h N M x y
  let r := nearest_loop m Ro Rd object_array.tail 1 (pinf, s.best_index)
  if Dbl.gt r.1 (fin 0) && Dbl.ne r.1 pinf then
    match r.2 with
    | none => .error ⟨Fault.undefined, s.pixel_buffer⟩
    | some best_index =>
      match render_light m object_array r.1 best_index Ro Rd with
      | .error f => .error ⟨f, s.pixel_buffer⟩
      | .ok color =>
        let i := buffer_index N M s.pixel_count
        if 0 ≤ i ∧ i < ((N * M : Nat) : Int) then
          .ok ⟨Function.update s.pixel_buffer i.toNat color, s.pixel_count + 1, r.2⟩
        else .error ⟨Fault.undefined, s.pixel_buffer⟩
  else .ok ⟨s.pixel_buffer, s.pixel_count + 1, r.2⟩

/-- The inner `for` loop of `raycast_scene`, over the columns `xs` of the row `y`. -/
def raycast_row (m : Libm K) (object_array : List (Object K)) (w h : Dbl K) (N M : Nat)
    (y : Nat) : List Nat → RenderState K → Except (Abort K) (RenderState K)
  | [], s => .ok s
  | x :: xs, s =>
    match raycast_pixel m object_array w h N M s y x with
    | .ok s1 => raycast_row m object_array w h N M y xs s1
    | .error e => .error e

/-- The outer `for` loop of `raycast_scene`, over the rows `ys`. -/
def raycast_rows (m : Libm K) (object_array : List (Object K)) (w h : Dbl K) (N M : Nat) :
    List Nat → RenderState K → Except (Abort K) (RenderState K)
  | [], s => .ok s
  | y :: ys, s =>
    match raycast_row m object_array w h N M y (List.range N) s with
    | .ok s1 => raycast_rows m object_array w h N M ys s1
    | .error e => .error e

/-- The function `raycast_scene`: the pixel buffer it leaves.  The images are `N` wide and
`M` high. -/
def raycast_scene (m : Libm K) (object_array : List (Object K)) (pixel_buffer : Nat → Vec K)
    (N M : Nat) : Except (Abort K) (Nat → Vec K) :=
  match object_array with
  | [] => .error ⟨Fault.undefined, pixel_buffer⟩
  | .camera w h :: _ =>
    match raycast_rows m object_array w h N M (List.range M) ⟨pixel_buffer, 0, none⟩ with
    | .ok s => .ok s.pixel_buffer
    | .error e => .error e
  | _ :: _ => .error ⟨Fault.exit1, pixel_buffer⟩

/-- The loop of `move_camera_to_front` over the indices `counter`, with the array and
`num_cameras` as state. -/
def move_camera_loop :
    List Nat → List (Object K) × Nat → Except Fault (List (Object K) × Nat)
  | [], s => .ok s
  | counter :: cs, s =>
    match s.1[counter]?, s.1[0]? with
    | some o, some first =>
      if o.kind = 0 ∧ counter = 0 then move_camera_loop cs (s.1, s.2 + 1)
      else if o.kind = 0 then
        if s.2 + 1 > 1 then .error Fault.exit1
        else move_camera_loop cs ((s.1.set 0 o).set counter first, s.2 + 1)
      else move_camera_loop cs s
    | _, _ => .error Fault.undefined

/-- The function `move_camera_to_front`: the array it leaves. -/
def move_camera_to_front (object_array : List (Object K)) : Except Fault (List (Object K)) :=
  match move_camera_loop (List.range object_array.length) (object_array, 0) with
  | .ok s => .ok s.1
  | .error f => .error f

/-- The calls `move_camera_to_front(...); raycast_scene(...);` of `main`. -/
def main_render (m : Libm K) (object_array : List (Object K)) (pixel_buffer : Nat → Vec K)
    (N M : Nat) : Except (Abort K) (Nat → Vec K) :=
  match move_camera_to_front object_array with
  | .ok object_array1 => raycast_scene m object_array1 pixel_buffer N M
  | .error f => .error ⟨f, pixel_buffer⟩

/-- The range checks of `store_value` before a diffuse or specular colour is stored:
`exit(1)` when a channel is above 1 or below 0, otherwise the vector that is copied. -/
def checked_color (input_vector : Vec K) : Except Fault (Vec K) :=
  if Dbl.gt input_vector.c0 (fin 1) || Dbl.gt input_vector.c1 (fin 1)
      || Dbl.gt input_vector.c2 (fin 1) then .error Fault.exit1
  else if Dbl.lt input_vector.c0 (fin 0) || Dbl.lt input_vector.c1 (fin 0)
      || Dbl.lt input_vector.c2 (fin 0) then .error Fault.exit1
  else .ok input_vector

/-- The function `store_value`: the object after the field `type_of_field` has been stored.
The fields are numbered as in the source (0 width, 1 height, 2 radius, 3 diffuse_color,
4 specular_color, 5 position, 6 normal, 7 radial_a0, 8 radial_a1, 9 radial_a2,
10 angular_a0, 11 color, 12 direction, 13 theta); `input_vector` is `none` for the `NULL`
that the callers pass with a number, and reading it then is undefined. -/
def store_value (m : Libm K) (input_object : Object K) (type_of_field : Nat)
    (input_value : Dbl K) (input_vector : Option (Vec K)) : Except Fault (Object K) :=
  match input_object with
  | .camera width height =>
    if type_of_field = 0 then
      if Dbl.le input_value (fin 0) then .error Fault.exit1
      else .ok (.camera input_value height)
    else if type_of_field = 1 then
      if Dbl.le input_value (fin 0) then .error Fault.exit1
      else .ok (.camera width input_value)
    else .error Fault.exit1
  | .sphere diffuse_color specular_color position radius =>
    if type_of_field = 2 then .ok (.sphere diffuse_color specular_color position input_value)
    else if type_of_field = 3 then
      match input_vector with
      | none => .error Fault.undefined
      | some v =>
        match checked_color v with
        | .ok c => .ok (.sphere c specular_color position radius)
        | .error f => .error f
    else if type_of_field = 4 then
      match input_vector with
      | none => .error Fault.undefined
      | some v =>
        match checked_color v with
        | .ok c => .ok (.sphere diffuse_color c position radius)
        | .error f => .error f
    else if type_of_field = 5 then
      match input_vector with
      | none => .error Fault.undefined
      | some v => .ok (.sphere diffuse_color specular_color v radius)
    else .error Fault.exit1
  | .plane diffuse_color specular_color position normal =>
    if type_of_field = 3 then
      match input_vector with
      | none => .error Fault.undefined
      | some v =>
        match checked_color v with
        | .ok c => .ok (.plane c specular_color position normal)
        | .error f => .error f
    else if type_of_field = 4 then
      match input_vector with
      | none => .error Fault.undefined
      | some v =>
        match checked_color v with
        | .ok c => .ok (.plane diffuse_color c position normal)
        | .error f => .error f
    else if type_of_field = 5 then
      match input_vector with
      | none => .error Fault.undefined
      | some v => .ok (.plane diffuse_color specular_color v normal)
    else if type_of_field = 6 then
      match input_vector with
      | none => .error Fault.undefined
      | some v =>
        if Dbl.gt v.c2 (fin 0) then
          .ok (.plane diffuse_color specular_color position
            (normalize m ⟨-v.c0, -v.c1, -v.c2⟩))
        else
          .ok (.plane diffuse_color specular_color position (normalize m ⟨v.c0, v.c1, v.c2⟩))
    else .error Fault.exit1
  | .light color position direction radial_a2 radial_a1 radial_a0 angular_a0 theta =>
    if type_of_field = 5 then
      match input_vector with
      | none => .error Fault.undefined
      | some v =>
        .ok (.light color v direction radial_a2 radial_a1 radial_a0 angular_a0 theta)
    else if type_of_field = 11 then
      match input_vector with
      | none => .error Fault.undefined
      | some v =>
        .ok (.light v position direction radial_a2 radial_a1 radial_a0 angular_a0 theta)
    else if type_of_field = 12 then
      match input_vector with
      | none => .error Fault.undefined
      | some v =>
        .ok (.light color position (normalize m ⟨v.c0, v.c1, v.c2⟩) radial_a2 radial_a1
          radial_a0 angular_a0 theta)
    else if type_of_field = 7 then
      .ok (.light color position direction radial_a2 radial_a1 input_value angular_a0 theta)
    else if type_of_field = 8 then
      .ok (.light color position direction radial_a2 input_value radial_a0 angular_a0 theta)
    else if type_of_field = 9 then
      .ok (.light color position direction input_value radial_a1 radial_a0 angular_a0 theta)
    else if type_of_field = 10 then
      .ok (.light color position direction radial_a2 radial_a1 radial_a0 input_value theta)
    else if type_of_field = 13 then
      .ok (.light color position direction radial_a2 radial_a1 radial_a0 angular_a0
        input_value)
    else .error Fault.exit1

/-- The conversion `(int)d` of a `double`: the value is truncated toward zero; the
conversion of a `NaN`, of an infinite value or of a value outside the range of `int` is
undefined (`none`). -/
def double_to_int [FloorRing K] : Dbl K → Option Int
  | fin q =>
    if (-2147483648 : Int) ≤ (if 0 ≤ q then ⌊q⌋ else ⌈q⌉)
        ∧ (if 0 ≤ q then ⌊q⌋ else ⌈q⌉) ≤ (2147483647 : Int) then
      some (if 0 ≤ q then ⌊q⌋ else ⌈q⌉)
    else none
  | _ => none

/-- The byte that the assignment `buffer[...] = (int)(255*c)` puts in the `char` buffer, as
a number from 0 to 255: the `int` modulo 256. -/
def channel_byte [FloorRing K] (c : Dbl K) : Option Nat :=
  match double_to_int (fin 255 * c) with
  | some i => some (i % 256).toNat
  | none => none

/-- The loop of `create_image` over the values `counter`: the bytes of the payload. -/
def create_image_loop [FloorRing K] (pixel_buffer : Nat → Vec K) : List Nat → Option (List Nat)
  | [] => some []
  | counter :: cs =>
    match channel_byte (pixel_buffer counter).c0, channel_byte (pixel_buffer counter).c1,
      channel_byte (pixel_buffer counter).c2, create_image_loop pixel_buffer cs with
    | some b0, some b1, some b2, some rest => some (b0 :: b1 :: b2 :: rest)
    | _, _, _, _ => none

/-- The function `create_image`: the payload of `width*height*3` bytes that follows the
header `P6`, width, height, 255 in the file. -/
def create_image [FloorRing K] (pixel_buffer : Nat → Vec K) (width height : Nat) :
    Option (List Nat) :=
  create_image_loop pixel_buffer (List.range (width * height))

end Source

/-! ## The formula of the illumination -/

section Formula

variable {K : Type} [LinearOrderedField K]

/-- Follows the words of C12: the normal `N` at the hit point `P` on the object that owns
it, with the diffuse and the specular colour of that object.  `N` is `normalize(P - centre)`
for a sphere and the stored normal for a plane; other objects own no hit point. -/
def spec_surface (m : Libm K) (P : Vec K) : Object K → Option (Vec K × Vec K × Vec K)
  | .sphere diffuse_color specular_color centre _ =>
    some (normalize m ⟨P.c0 - centre.c0, P.c1 - centre.c1, P.c2 - centre.c2⟩,
      diffuse_color, specular_color)
  | .plane diffuse_color specular_color _ normal => some (normal, diffuse_color, specular_color)
  | _ => none

/-- Follows the words of the specification (4.4, nearest-hit resolver): the comparison of
a distance with the running best is strict-less-than; without a running best (`none`, no
hit so far) every distance improves on it. -/
def spec_improves (t : Dbl K) : Option (Dbl K) → Bool
  | some best => Dbl.lt t best
  | none => true

/-- Follows the words of the specification (4.4, nearest-hit resolver): the scan of the
object list in list order with an optional index to exclude; cameras and lights have no
intersection; the intersection with the smallest value strictly greater than 0 is
retained, the comparison with the running best being strict.  The running best is `none`
as long as there is no hit, and the result `none` is "no hit". -/
def spec_nearest_hit (m : Libm K) (Ro Rd : Vec K) (exclude : Option Nat) :
    List (Object K) → Nat → Option (Dbl K) → Option (Dbl K)
  | [], _, best => best
  | o :: rest, index, best =>
    if some index = exclude then spec_nearest_hit m Ro Rd exclude rest (index + 1) best
    else
      match object_t m Ro Rd o with
      | some t =>
        if Dbl.gt t (fin 0) && spec_improves t best then
          spec_nearest_hit m Ro Rd exclude rest (index + 1) (some t)
        else spec_nearest_hit m Ro Rd exclude rest (index + 1) best
      | none => spec_nearest_hit m Ro Rd exclude rest (index + 1) best

/-- Follows the words of the specification (4.5, shadow tester): the point `P` is in
shadow with respect to a light when the nearest hit of the probe ray from `P` toward the
light, the object that owns `P` excluded, has a distance strictly less than the distance
from `P` to the light; a hit at or beyond the light and no hit do not shadow. -/
def spec_shadowed (m : Libm K) (object_array : List (Object K)) (owner : Nat)
    (P toward : Vec K) (distance : Dbl K) : Bool :=
  match spec_nearest_hit m P toward (some owner) object_array 0 none with
  | some t => Dbl.lt t distance
  | none => false

/-- Follows the words of C12: the term of one object in the sum.  A light that is not
shadowed in the sense of the specification (`spec_shadowed`) gives, per channel,
`frad(a0,a1,a2, best_t) * fang(angular_a0, theta, -L, direction) * (diffuse + specular)`
with `L = normalize(position - P)`, `R = reflect(L,N)` and `V` the direction of the camera
ray; a shadowed light and an object that is not a light give no term. -/
def spec_light_term (m : Libm K) (object_array : List (Object K)) (best_t : Dbl K)
    (best_index : Nat) (V P N Cd Cs : Vec K) : Object K → Option (Vec K)
  | .light color position direction radial_a2 radial_a1 radial_a0 angular_a0 theta =>
    let D : Vec K := ⟨position.c0 - P.c0, position.c1 - P.c1, position.c2 - P.c2⟩
    let L := normalize m D
    let R := reflect L N
    let k := frad radial_a0 radial_a1 radial_a2 best_t
      * fang m angular_a0 theta ⟨-L.c0, -L.c1, -L.c2⟩ direction
    if spec_shadowed m object_array best_index P L (calculate_distance m D) then none
    else
      some ⟨k * ((diffuse L N Cd color).c0 + (specular m R V Cs color N L).c0),
        k * ((diffuse L N Cd color).c1 + (specular m R V Cs color N L).c1),
        k * ((diffuse L N Cd color).c2 + (specular m R V Cs color N L).c2)⟩
  | _ => none

/-- Follows the words of C12: the sum of the terms, channel by channel, in list order,
from (0,0,0). -/
def spec_sum (terms : List (Vec K)) : Vec K :=
  terms.foldl (fun acc t => ⟨acc.c0 + t.c0, acc.c1 + t.c1, acc.c2 + t.c2⟩)
    ⟨fin 0, fin 0, fin 0⟩

/-- Follows the words of C12: the colour of the hit at distance `best_t` on the object at
`best_index`: with `P = Ro + best_t*Rd`, the sum over the lights of the scene that are not
shadowed, in list order, clamped once, channel by channel. -/
def spec_render_light (m : Libm K) (object_array : List (Object K)) (best_t : Dbl K)
    (best_index : Nat) (Ro Rd : Vec K) : Option (Vec K) :=
  let P : Vec K := ⟨Ro.c0 + best_t * Rd.c0, Ro.c1 + best_t * Rd.c1, Ro.c2 + best_t * Rd.c2⟩
  match object_array[best_index]? with
  | some o =>
    match spec_surface m P o with
    | some (N, Cd, Cs) =>
      let sum := spec_sum (object_array.filterMap
        (spec_light_term m object_array best_t best_index Rd P N Cd Cs))
      some ⟨clamp sum.c0, clamp sum.c1, clamp sum.c2⟩
    | none => none
  | none => none

end Formula

/-! ## A pixel rendered alone -/

section PixelAlone

variable {K : Type} [LinearOrderedField K]

/-- Follows the words of C24: the colour of the pixel `(x, y)` of the `N`×`M` image of a
scene, rendered alone: the ray of the pixel from the camera at index 0, the nearest hit
over the object list found from scratch, then `render_light` at that hit.  The value is
`none` when the ray has no hit (no colour is stored) or the scene has no camera in front. -/
def spec_pixel (m : Libm K) (object_array : List (Object K)) (N M x y : Nat) :
    Option (Vec K) :=
  match object_array with
  | .camera w h :: _ =>
    let hit := nearest_loop m ⟨fin 0, fin 0, fin 0⟩ (pixel_ray m w h N M x y)
      object_array.tail 1 (pinf, none)
    if Dbl.gt hit.1 (fin 0) && Dbl.ne hit.1 pinf then
      match hit.2 with
      | some best_index =>
        match render_light m object_array hit.1 best_index ⟨fin 0, fin 0, fin 0⟩
            (pixel_ray m w h N M x y) with
        | .ok color => some color
        | .error _ => none
      | none => none
    else none
  | _ => none

end PixelAlone

/-! ## Concrete scenes -/

/-- A `math.h` over the rationals, for evaluating the program on concrete scenes: `sqrt`
is exact on the squares 0, 1, 4, 9, ... of natural numbers, `pow` is exact for a finite base
with a natural number as exponent and gives `NaN` for a `NaN` base with a non-zero exponent,
`cos` is exact at 0.  The concrete scenes below evaluate these functions at no other
argument. -/
def exactLibm : Libm ℚ where
  sqrt := fun q => ((Nat.sqrt q.num.toNat : Nat) : ℚ)
  cos := fun _ => 1
  pow := fun x y =>
    match x, y with
    | fin a, fin b => if b.den = 1 ∧ 0 ≤ b.num then fin (a ^ b.num.toNat) else nan
    | _, fin b => if b = 0 then fin 1 else nan
    | _, _ => nan

/-- The colour (1,1,1). -/
def white : Vec ℚ := ⟨fin 1, fin 1, fin 1⟩

/-- The camera of the scenarios: width 2, height 2. -/
def camera2 : Object ℚ := .camera (fin 2) (fin 2)

/-- The sphere of the scenarios: centre (0,0,5), radius 1. -/
def sphere5 : Object ℚ := .sphere white white ⟨fin 0, fin 0, fin 5⟩ (fin 1)

/-- The ray origin (0,0,0). -/
def origin : Vec ℚ := ⟨fin 0, fin 0, fin 0⟩

/-- The ray direction (0,0,1). -/
def zAxis : Vec ℚ := ⟨fin 0, fin 0, fin 1⟩

/-- A sphere with centre (0,5,4) and radius 1: it lies between the point (0,0,4) of
`sphere5` and `light10`, and the ray along the z axis misses it. -/
def occluder : Object ℚ := .sphere white white ⟨fin 0, fin 5, fin 4⟩ (fin 1)

/-- A white light at (0,10,4) with the default attenuation (1, 0, 0; no spot). -/
def light10 : Object ℚ :=
  .light white ⟨fin 0, fin 10, fin 4⟩ ⟨fin 0, fin (-1), fin 0⟩ (fin 0) (fin 0) (fin 1) (fin 0)
    (fin 0)

/-- A white plane through (0,0,5) with the stored normal (0,0,-1). -/
def plane5 : Object ℚ := .plane white white ⟨fin 0, fin 0, fin 5⟩ ⟨fin 0, fin 0, fin (-1)⟩

/-- A white light at (0,0,5), a point of `plane5`, with the default attenuation. -/
def lightOnPlane : Object ℚ :=
  .light white ⟨fin 0, fin 0, fin 5⟩ ⟨fin 0, fin 0, fin (-1)⟩ (fin 0) (fin 0) (fin 1) (fin 0)
    (fin 0)

/-- The pixel buffer as `main` allocates it: all channels 0. -/
def blackBuffer : Nat → Vec ℚ := fun _ => ⟨fin 0, fin 0, fin 0⟩

/-- The Taylor polynomial `1 - x^2/2 + x^4/24` of the cosine: a rational stand-in for
`cos`, exact at 0 and within 1/720 of the cosine on [0,1] (`taylorCos 1 = 13/24`, while
`cos 1 = 0.5403...`). -/
def taylorCos (x : ℚ) : ℚ := 1 - x * x / 2 + x * x * x * x / 24

/-- The `math.h` of `exactLibm` with `taylorCos` for `cos`, for spotlights. -/
def spotLibm : Libm ℚ where
  sqrt := exactLibm.sqrt
  cos := taylorCos
  pow := exactLibm.pow

/-- A sphere with centre (0,0,-6) and radius 1: seen from the point (0,0,5) of `plane5`
in the direction (0,0,-1), its surface is at the distance 10. -/
def sphereAtLight : Object ℚ := .sphere white white ⟨fin 0, fin 0, fin (-6)⟩ (fin 1)

/-- A white light at (0,0,-5), at the distance 10 from the point (0,0,5) of `plane5`, with
the default attenuation. -/
def lightBehind : Object ℚ :=
  .light white ⟨fin 0, fin 0, fin (-5)⟩ ⟨fin 0, fin 0, fin 1⟩ (fin 0) (fin 0) (fin 1) (fin 0)
    (fin 0)

/-- A pixel buffer in which every pixel has the channels 1/2, 1 and 0. -/
def halfBuffer : Nat → Vec ℚ := fun _ => ⟨fin (1 / 2), fin 1, fin 0⟩

/-- A sphere of radius 0 with the centre (0,0,5), a point of the ray along the z axis. -/
def pointSphere : Object ℚ := .sphere white white ⟨fin 0, fin 0, fin 5⟩ (fin 0)

/-! ## Arithmetic of finite values -/

section Basic

variable {K : Type} [LinearOrderedField K]

@[simp] theorem fin_add (a b : K) : (fin a + fin b : Dbl K) = fin (a + b) := rfl

@[simp] theorem fin_sub (a b : K) : (fin a - fin b : Dbl K) = fin (a - b) := by
  show Dbl.add (fin a) (Dbl.neg (fin b)) = fin (a - b)
  simp [Dbl.add, Dbl.neg, sub_eq_add_neg]

@[simp] theorem fin_mul (a b : K) : (fin a * fin b : Dbl K) = fin (a * b) := rfl

@[simp] theorem fin_neg (a : K) : (-(fin a) : Dbl K) = fin (-a) := rfl

theorem fin_div (a b : K) : (fin a / fin b : Dbl K)
    = if b = 0 then (if a = 0 then nan else if 0 < a then pinf else ninf) else fin (a / b) := rfl

@[simp] theorem fin_div_of_ne (a b : K) (h : b ≠ 0) : (fin a / fin b : Dbl K) = fin (a / b) := by
  rw [fin_div, if_neg h]

@[simp] theorem lt_fin (a b : K) : Dbl.lt (fin a) (fin b) = decide (a < b) := rfl

@[simp] theorem gt_fin (a b : K) : Dbl.gt (fin a) (fin b) = decide (b < a) := rfl

@[simp] theorem le_fin (a b : K) : Dbl.le (fin a) (fin b) = decide (a ≤ b) := rfl

@[simp] theorem eq_fin (a b : K) : Dbl.eq (fin a) (fin b) = decide (a = b) := rfl

@[simp] theorem sqr_fin (a : K) : sqr (fin a) = fin (a * a) := rfl

theorem sqrt_fin (sq : K → K) (a : K) :
    Dbl.sqrt sq (fin a) = if a < 0 then nan else fin (sq a) := rfl

@[simp] theorem sqrt_fin_of_nonneg (sq : K → K) (a : K) (h : 0 ≤ a) :
    Dbl.sqrt sq (fin a) = fin (sq a) := by
  rw [sqrt_fin, if_neg (not_lt.mpr h)]

@[simp] theorem nan_add (x : Dbl K) : (nan + x : Dbl K) = nan := rfl

@[simp] theorem add_nan (x : Dbl K) : (x + nan : Dbl K) = nan := by
  cases x <;> rfl

@[simp] theorem nan_mul (x : Dbl K) : (nan * x : Dbl K) = nan := rfl

@[simp] theorem mul_nan (x : Dbl K) : (x * nan : Dbl K) = nan := by
  cases x <;> rfl

@[simp] theorem neg_nan : (-(nan : Dbl K)) = nan := rfl

@[simp] theorem nan_sub (x : Dbl K) : (nan - x : Dbl K) = nan := rfl

@[simp] theorem sub_nan (x : Dbl K) : (x - nan : Dbl K) = nan := by
  cases x <;> rfl

@[simp] theorem nan_div (x : Dbl K) : (nan / x : Dbl K) = nan := rfl

@[simp] theorem lt_nan (x : Dbl K) : Dbl.lt x nan = false := by
  cases x <;> rfl

@[simp] theorem nan_lt (x : Dbl K) : Dbl.lt nan x = false := rfl

@[simp] theorem gt_nan (x : Dbl K) : Dbl.gt x nan = false := rfl

@[simp] theorem nan_gt (x : Dbl K) : Dbl.gt nan x = false := by
  cases x <;> rfl

@[simp] theorem nan_le (x : Dbl K) : Dbl.le nan x = false := rfl

@[simp] theorem le_nan (x : Dbl K) : Dbl.le x nan = false := by
  cases x <;> rfl

@[simp] theorem nan_eq (x : Dbl K) : Dbl.eq nan x = false := rfl

@[simp] theorem zero_div_zero : (fin 0 / fin 0 : Dbl K) = nan := by
  rw [fin_div, if_pos rfl, if_pos rfl]

end Basic

/-! ## The intersection functions -/

section Intersections

variable {K : Type} [LinearOrderedField K]

/-- The selection of `sphere_intersection` among two finite roots. -/
theorem sphere_select (t0 t1 : K) :
    (if (decide (t0 ≤ 0) && decide (t1 ≤ 0)) = true then (fin 0 : Dbl K)
      else if (decide (t0 ≤ 0) && decide (0 < t1)) = true then fin t1
      else if (decide (t1 ≤ 0) && decide (0 < t0)) = true then fin t0
      else if decide (t1 < t0) = true then fin t1
      else if decide (t0 < t1) = true then fin t0
      else fin t0)
    = if t0 ≤ 0 ∧ t1 ≤ 0 then fin 0
      else if t0 ≤ 0 then fin t1
      else if t1 ≤ 0 then fin t0
      else fin (min t0 t1) := by
  by_cases h0 : t0 ≤ 0 <;> by_cases h1 : t1 ≤ 0 <;>
    simp only [h0, h1, decide_True, decide_False, Bool.and_true, Bool.and_false, Bool.true_and,
      Bool.false_and, if_true, if_false, and_self, and_false, false_and, and_true, true_and,
      decide_eq_true_eq, Bool.false_eq_true, not_le.mp, not_false_eq_true]
  rcases lt_trichotomy t0 t1 with h | h | h
  · simp [h, not_lt.mpr h.le, min_eq_left h.le]
  · simp [h]
  · simp [h, not_lt.mpr h.le, min_eq_right h.le]

/-- The value of `sphere_intersection` on finite arguments with a unit direction. -/
theorem sphere_intersection_fin (m : Libm K) (ox oy oz dx dy dz cx cy cz r : K)
    (hunit : dx * dx + dy * dy + dz * dz = 1) :
    sphere_intersection m ⟨fin ox, fin oy, fin oz⟩ ⟨fin dx, fin dy, fin dz⟩
        ⟨fin cx, fin cy, fin cz⟩ (fin r)
      = (let b := (2 * dx * ox - 2 * dx * cx) + (2 * dy * oy - 2 * dy * cy)
            + (2 * dz * oz - 2 * dz * cz)
         let c := (ox * ox - 2 * ox * cx + cx * cx) + (oy * oy - 2 * oy * cy + cy * cy)
            + (oz * oz - 2 * oz * cz + cz * cz) - r * r
         let det := b * b - 4 * 1 * c
         let t0 := (-b - m.sqrt det) / (2 * 1)
         let t1 := (-b + m.sqrt det) / (2 * 1)
         if det < 0 then fin 0
         else if t0 ≤ 0 ∧ t1 ≤ 0 then fin 0
         else if t0 ≤ 0 then fin t1
         else if t1 ≤ 0 then fin t0
         else fin (min t0 t1)) := by
  simp only [sphere_intersection, sqr_fin, fin_mul, fin_sub, fin_add, hunit, lt_fin, fin_neg,
    decide_eq_true_eq]
  generalize (2 * dx * ox - 2 * dx * cx) + (2 * dy * oy - 2 * dy * cy)
    + (2 * dz * oz - 2 * dz * cz) = b
  generalize (ox * ox - 2 * ox * cx + cx * cx) + (oy * oy - 2 * oy * cy + cy * cy)
    + (oz * oz - 2 * oz * cz + cz * cz) - r * r = c
  by_cases hdet : b * b - 4 * 1 * c < 0
  · rw [if_pos hdet, if_pos hdet]
  · have h2 : (2 * 1 : K) ≠ 0 := by norm_num
    rw [if_neg hdet, if_neg hdet, sqrt_fin_of_nonneg _ _ (not_lt.mp hdet)]
    simp only [fin_sub, fin_add, fin_div_of_ne _ _ h2, le_fin, gt_fin]
    exact sphere_select _ _

/-- The value of `plane_intersection` on finite arguments. -/
theorem plane_intersection_fin (ox oy oz dx dy dz cx cy cz nx ny nz : K) :
    plane_intersection ⟨fin ox, fin oy, fin oz⟩ ⟨fin dx, fin dy, fin dz⟩
        ⟨fin cx, fin cy, fin cz⟩ ⟨fin nx, fin ny, fin nz⟩
      = (let num := (nx * cx - nx * ox) + (ny * cy - ny * oy) + (nz * cz - nz * oz)
         let den := dx * nx + dy * ny + dz * nz
         if den = 0 then (if 0 < num then pinf else fin 0)
         else if 0 < num / den then fin (num / den) else fin 0) := by
  simp only [plane_intersection, fin_mul, fin_sub, fin_add]
  generalize (nx * cx - nx * ox) + (ny * cy - ny * oy) + (nz * cz - nz * oz) = num
  generalize dx * nx + dy * ny + dz * nz = den
  by_cases hden : den = 0
  · subst hden
    rw [fin_div, if_pos rfl, if_pos rfl]
    by_cases h0 : num = 0
    · subst h0
      simp [Dbl.gt, Dbl.lt]
    · by_cases hp : 0 < num
      · simp [h0, hp, Dbl.gt, Dbl.lt]
      · simp [h0, hp, Dbl.gt, Dbl.lt]
  · rw [fin_div_of_ne _ _ hden, if_neg hden]
    simp

/-- C5: on finite arguments with a unit direction, `sphere_intersection` returns 0 exactly
when the discriminant `b^2 - 4ac` is negative or both roots `(-b ± sqrt D)/(2a)` are `<= 0`,
and otherwise it returns the smaller of the roots that are `> 0`. -/
theorem sphere_intersection_smallest_positive_root (m : Libm K)
    (ox oy oz dx dy dz cx cy cz r : K) (hunit : dx * dx + dy * dy + dz * dz = 1) :
    let a := dx * dx + dy * dy + dz * dz
    let b := (2 * dx * ox - 2 * dx * cx) + (2 * dy * oy - 2 * dy * cy)
      + (2 * dz * oz - 2 * dz * cz)
    let c := (ox * ox - 2 * ox * cx + cx * cx) + (oy * oy - 2 * oy * cy + cy * cy)
      + (oz * oz - 2 * oz * cz + cz * cz) - r * r
    let det := b * b - 4 * a * c
    let t0 := (-b - m.sqrt det) / (2 * a)
    let t1 := (-b + m.sqrt det) / (2 * a)
    let t := sphere_intersection m ⟨fin ox, fin oy, fin oz⟩ ⟨fin dx, fin dy, fin dz⟩
      ⟨fin cx, fin cy, fin cz⟩ (fin r)
    (t = fin 0 ↔ (det < 0 ∨ (t0 ≤ 0 ∧ t1 ≤ 0)))
      ∧ (¬ (det < 0 ∨ (t0 ≤ 0 ∧ t1 ≤ 0)) →
          ∃ q : K, t = fin q ∧ 0 < q ∧ (q = t0 ∨ q = t1)
            ∧ (0 < t0 → q ≤ t0) ∧ (0 < t1 → q ≤ t1)) := by
  intro a b c det t0 t1 t
  have ha : a = 1 := hunit
  have ht : t = (if det < 0 then fin 0
      else if t0 ≤ 0 ∧ t1 ≤ 0 then fin 0
      else if t0 ≤ 0 then fin t1
      else if t1 ≤ 0 then fin t0
      else fin (min t0 t1)) := by
    have h := sphere_intersection_fin m ox oy oz dx dy dz cx cy cz r hunit
    simp only [t, t0, t1, det, ha]
    exact h
  rw [ht]
  by_cases hdet : det < 0
  · simp [hdet]
  by_cases h0 : t0 ≤ 0
  · by_cases h1 : t1 ≤ 0
    · simp [hdet, h0, h1]
    · have h1' : 0 < t1 := not_le.mp h1
      simp only [hdet, h0, h1, and_false, if_false, if_true, false_or, and_true, and_self,
        not_false_eq_true, true_implies, Dbl.fin.injEq]
      refine ⟨⟨fun h => absurd h h1'.ne', fun h => absurd h id⟩, t1, rfl, h1', Or.inr rfl, ?_, ?_⟩
      · intro h; exact absurd h0 (not_le.mpr h)
      · intro _; exact le_refl _
  · have h0' : 0 < t0 := not_le.mp h0
    by_cases h1 : t1 ≤ 0
    · simp only [hdet, h0, h1, and_false, false_and, if_false, if_true, false_or,
        not_false_eq_true, true_implies, Dbl.fin.injEq]
      refine ⟨⟨fun h => absurd h h0'.ne', fun h => absurd h id⟩, t0, rfl, h0', Or.inl rfl, ?_, ?_⟩
      · intro _; exact le_refl _
      · intro h; exact absurd h1 (not_le.mpr h)
    · have h1' : 0 < t1 := not_le.mp h1
      simp only [hdet, h0, h1, and_false, false_and, if_false, false_or,
        not_false_eq_true, true_implies, Dbl.fin.injEq]
      refine ⟨⟨fun h => absurd h (lt_min h0' h1').ne', fun h => absurd h id⟩, min t0 t1, rfl,
        lt_min h0' h1', ?_, fun _ => min_le_left _ _, fun _ => min_le_right _ _⟩
      rcases le_total t0 t1 with h | h
      · exact Or.inl (min_eq_left h)
      · exact Or.inr (min_eq_right h)

theorem exactLibm_sqrt_four : exactLibm.sqrt 4 = 2 := by
  have h : ((4 : ℚ).num.toNat) = 2 * 2 := by
    norm_num
    rfl
  show ((Nat.sqrt (4 : ℚ).num.toNat : Nat) : ℚ) = 2
  rw [h, Nat.sqrt_eq]
  norm_num

/-- The scenario of C5: origin (0,0,0), direction (0,0,1), centre (0,0,5), radius 1
gives `t = 4`. -/
theorem sphere_intersection_smallest_positive_root_witness :
    ((0 : ℚ) * 0 + 0 * 0 + 1 * 1 = 1)
      ∧ sphere_intersection exactLibm ⟨fin 0, fin 0, fin 0⟩ ⟨fin 0, fin 0, fin 1⟩
          ⟨fin 0, fin 0, fin 5⟩ (fin 1) = fin 4 := by
  refine ⟨by norm_num, ?_⟩
  have h := (sphere_intersection_smallest_positive_root exactLibm
    0 0 0 0 0 1 0 0 5 1 (by norm_num)).2
  norm_num [exactLibm_sqrt_four] at h
  obtain ⟨q, hq, -, hor, h0, -⟩ := h
  rw [hq]
  rcases hor with h4 | h6
  · rw [h4]
  · rw [h6] at h0
    norm_num at h0

/-- C6: on finite arguments with `N·Rd != 0`, `plane_intersection` returns
`t = (N·(C - Ro)) / (N·Rd)` when that value is `> 0`, and 0 (no hit) otherwise. -/
theorem plane_intersection_quotient (ox oy oz dx dy dz cx cy cz nx ny nz : K)
    (hden : nx * dx + ny * dy + nz * dz ≠ 0) :
    plane_intersection ⟨fin ox, fin oy, fin oz⟩ ⟨fin dx, fin dy, fin dz⟩
        ⟨fin cx, fin cy, fin cz⟩ ⟨fin nx, fin ny, fin nz⟩
      = if 0 < (nx * (cx - ox) + ny * (cy - oy) + nz * (cz - oz))
            / (nx * dx + ny * dy + nz * dz)
        then fin ((nx * (cx - ox) + ny * (cy - oy) + nz * (cz - oz))
            / (nx * dx + ny * dy + nz * dz))
        else fin 0 := by
  have hnum : (nx * cx - nx * ox) + (ny * cy - ny * oy) + (nz * cz - nz * oz)
      = nx * (cx - ox) + ny * (cy - oy) + nz * (cz - oz) := by ring
  have hd : dx * nx + dy * ny + dz * nz = nx * dx + ny * dy + nz * dz := by ring
  rw [plane_intersection_fin]
  simp only [hnum, hd, if_neg hden]

/-- The scenario of C6: `Ro = (0,0,0)`, `Rd = (0,0,1)`, `C = (0,0,5)`, `N = (0,0,-1)`
gives `t = 5`. -/
theorem plane_intersection_quotient_witness :
    ((0 : ℚ) * 0 + 0 * 0 + (-1) * 1 ≠ 0)
      ∧ plane_intersection (K := ℚ) ⟨fin 0, fin 0, fin 0⟩ ⟨fin 0, fin 0, fin 1⟩
          ⟨fin 0, fin 0, fin 5⟩ ⟨fin 0, fin 0, fin (-1)⟩ = fin 5 := by
  refine ⟨by norm_num, ?_⟩
  have h := plane_intersection_quotient (K := ℚ) 0 0 0 0 0 1 0 0 5 0 0 (-1) (by norm_num)
  norm_num at h
  exact h

/-- C7 fails as stated: the ray from the origin in direction (1,0,0) is parallel to the
plane through (0,0,-5) with normal (0,0,-1), the denominator is `1*0 + 0*0 + 0*(-1) = 0` and
the numerator is 5, so that `t = 5/0 = +inf`, which is `> 0` and is returned. -/
theorem parallel_plane_returns_inf :
    ((1 : ℚ) * 0 + 0 * 0 + 0 * (-1) = 0)
      ∧ plane_intersection (K := ℚ) ⟨fin 0, fin 0, fin 0⟩ ⟨fin 1, fin 0, fin 0⟩
          ⟨fin 0, fin 0, fin (-5)⟩ ⟨fin 0, fin 0, fin (-1)⟩ = pinf
      ∧ plane_intersection (K := ℚ) ⟨fin 0, fin 0, fin 0⟩ ⟨fin 1, fin 0, fin 0⟩
          ⟨fin 0, fin 0, fin (-5)⟩ ⟨fin 0, fin 0, fin (-1)⟩ ≠ fin 0 := by
  have h : plane_intersection (K := ℚ) ⟨fin 0, fin 0, fin 0⟩ ⟨fin 1, fin 0, fin 0⟩
      ⟨fin 0, fin 0, fin (-5)⟩ ⟨fin 0, fin 0, fin (-1)⟩ = pinf := by
    rw [plane_intersection_fin]
    norm_num
  refine ⟨by norm_num, h, ?_⟩
  rw [h]
  exact fun h => Dbl.noConfusion h

/-- C7, amended: for a ray parallel to the plane (`N·Rd = 0`, so that the quotient is
taken by a zero denominator), `plane_intersection` returns 0 or `+inf`, which of the two
depending, for `N·(C - Ro) ≠ 0`, on the signs of the numerator and of the zero; it returns
0 when `N·(C - Ro) = 0` (the quotient `0/0` is `NaN`); it never returns a finite positive
distance, and its result passes neither the test `t < best_t && t > 0` of the nearest-hit
loop nor the test `t > 0 && t < distance_from_light` of the shadow loop, whatever `best_t`
and `distance_from_light` are. -/
theorem plane_intersection_parallel (ox oy oz dx dy dz cx cy cz nx ny nz : K)
    (hden : nx * dx + ny * dy + nz * dz = 0) :
    ∃ t : Dbl K,
      plane_intersection ⟨fin ox, fin oy, fin oz⟩ ⟨fin dx, fin dy, fin dz⟩
          ⟨fin cx, fin cy, fin cz⟩ ⟨fin nx, fin ny, fin nz⟩ = t
      ∧ (t = fin 0 ∨ t = pinf)
      ∧ (nx * (cx - ox) + ny * (cy - oy) + nz * (cz - oz) = 0 → t = fin 0)
      ∧ (∀ q : K, 0 < q → t ≠ fin q)
      ∧ (∀ best_t : Dbl K, (Dbl.lt t best_t && Dbl.gt t (fin 0)) = false)
      ∧ (∀ d : Dbl K, (Dbl.gt t (fin 0) && Dbl.lt t d) = false) := by
  have hnum : (nx * cx - nx * ox) + (ny * cy - ny * oy) + (nz * cz - nz * oz)
      = nx * (cx - ox) + ny * (cy - oy) + nz * (cz - oz) := by ring
  have hd : dx * nx + dy * ny + dz * nz = 0 := by rw [← hden]; ring
  refine ⟨_, rfl, ?_⟩
  have ht : plane_intersection ⟨fin ox, fin oy, fin oz⟩ ⟨fin dx, fin dy, fin dz⟩
      ⟨fin cx, fin cy, fin cz⟩ ⟨fin nx, fin ny, fin nz⟩
      = if 0 < nx * (cx - ox) + ny * (cy - oy) + nz * (cz - oz) then pinf else fin 0 := by
    rw [plane_intersection_fin]
    simp only [hnum, hd, if_true]
  by_cases hp : 0 < nx * (cx - ox) + ny * (cy - oy) + nz * (cz - oz)
  · rw [if_pos hp] at ht
    rw [ht]
    refine ⟨Or.inr rfl, fun h => absurd hp (by rw [h]; exact lt_irrefl 0),
      fun q _ h => Dbl.noConfusion h, fun best_t => ?_, fun d => ?_⟩
    · cases best_t <;> rfl
    · cases d <;> rfl
  · rw [if_neg hp] at ht
    rw [ht]
    refine ⟨Or.inl rfl, fun _ => rfl, fun q hq h => ?_, fun best_t => ?_, fun d => ?_⟩
    · injection h with h
      exact hq.ne h
    · simp [Dbl.gt]
    · simp [Dbl.gt]

/-- A parallel ray with a non-zero numerator: the result is 0 or `+inf`, not a finite
positive distance, and the nearest-hit loop does not accept it. -/
theorem plane_intersection_parallel_witness :
    ((0 : ℚ) * 1 + 0 * 0 + (-1) * 0 = 0)
      ∧ (plane_intersection (K := ℚ) ⟨fin 0, fin 0, fin 0⟩ ⟨fin 1, fin 0, fin 0⟩
            ⟨fin 0, fin 0, fin (-5)⟩ ⟨fin 0, fin 0, fin (-1)⟩ = fin 0
          ∨ plane_intersection (K := ℚ) ⟨fin 0, fin 0, fin 0⟩ ⟨fin 1, fin 0, fin 0⟩
            ⟨fin 0, fin 0, fin (-5)⟩ ⟨fin 0, fin 0, fin (-1)⟩ = pinf)
      ∧ (Dbl.lt (plane_intersection (K := ℚ) ⟨fin 0, fin 0, fin 0⟩ ⟨fin 1, fin 0, fin 0⟩
            ⟨fin 0, fin 0, fin (-5)⟩ ⟨fin 0, fin 0, fin (-1)⟩) pinf
          && Dbl.gt (plane_intersection (K := ℚ) ⟨fin 0, fin 0, fin 0⟩ ⟨fin 1, fin 0, fin 0⟩
            ⟨fin 0, fin 0, fin (-5)⟩ ⟨fin 0, fin 0, fin (-1)⟩) (fin 0)) = false := by
  refine ⟨by norm_num, ?_⟩
  obtain ⟨t, ht, hval, -, -, hnear, -⟩ :=
    plane_intersection_parallel (K := ℚ) 0 0 0 1 0 0 0 0 (-5) 0 0 (-1) (by norm_num)
  rw [ht]
  exact ⟨hval, hnear pinf⟩

end Intersections

/-! ## The nearest-hit loop -/

section Nearest

variable {K : Type} [LinearOrderedField K]

/-- A distance that passes the test `t < best_t && t > 0` is finite and positive. -/
theorem accepted_is_fin (t best_t : Dbl K)
    (h : (Dbl.lt t best_t && Dbl.gt t (fin 0)) = true) : ∃ q : K, t = fin q ∧ 0 < q := by
  cases t with
  | fin q =>
    refine ⟨q, rfl, ?_⟩
    simp only [Bool.and_eq_true, gt_fin, decide_eq_true_eq] at h
    exact h.2
  | pinf => cases best_t <;> simp [Dbl.lt, Dbl.gt] at h
  | ninf => cases best_t <;> simp [Dbl.lt, Dbl.gt] at h
  | nan => cases best_t <;> simp [Dbl.lt, Dbl.gt] at h

theorem lt_fin_trans (q q0 : K) (b : Dbl K) (h1 : q < q0) (h2 : Dbl.lt (fin q0) b = true) :
    Dbl.lt (fin q) b = true := by
  cases b with
  | fin v =>
    simp only [lt_fin, decide_eq_true_eq] at h2 ⊢
    exact lt_trans h1 h2
  | pinf => rfl
  | ninf => simp [Dbl.lt] at h2
  | nan => simp [Dbl.lt] at h2

theorem lt_of_lt_of_not_lt (q q1 : K) (b : Dbl K) (h1 : Dbl.lt (fin q) b = true)
    (h2 : Dbl.lt (fin q1) b = false) : q < q1 := by
  cases b with
  | fin v =>
    simp only [lt_fin, decide_eq_true_eq, decide_eq_false_iff_not, not_lt] at h1 h2
    exact lt_of_lt_of_le h1 h2
  | pinf => simp [Dbl.lt] at h2
  | ninf => simp [Dbl.lt] at h1
  | nan => simp [Dbl.lt] at h1

/-- The result of the nearest-hit loop run over `rest` from the index `k` in the state `s`:
either no object of `rest` has a finite positive distance below `s.1` and the state is
unchanged, or the state is the distance `q` and the index of the first object of `rest`
with the least finite positive distance. -/
theorem nearest_loop_spec (m : Libm K) (Ro Rd : Vec K) :
    ∀ (rest : List (Object K)) (k : Nat) (s : Dbl K × Option Nat),
      (nearest_loop m Ro Rd rest k s = s
        ∧ ∀ (i : Nat) (o : Object K) (q : K), rest[i]? = some o →
            object_t m Ro Rd o = some (fin q) → 0 < q → Dbl.lt (fin q) s.1 = false)
      ∨ (∃ (i : Nat) (o : Object K) (q : K), rest[i]? = some o
          ∧ object_t m Ro Rd o = some (fin q) ∧ 0 < q ∧ Dbl.lt (fin q) s.1 = true
          ∧ nearest_loop m Ro Rd rest k s = (fin q, some (k + i))
          ∧ ∀ (j : Nat) (o1 : Object K) (q1 : K), rest[j]? = some o1 →
              object_t m Ro Rd o1 = some (fin q1) → 0 < q1 → q ≤ q1 ∧ (q1 = q → i ≤ j)) := by
  intro rest
  induction rest with
  | nil =>
    intro k s
    left
    refine ⟨rfl, ?_⟩
    intro i o q h
    simp at h
  | cons o rest ih =>
    intro k s
    cases hobj : object_t m Ro Rd o with
    | none =>
      have hstep : nearest_loop m Ro Rd (o :: rest) k s
          = nearest_loop m Ro Rd rest (k + 1) s := by
        simp only [nearest_loop, hobj]
      rw [hstep]
      rcases ih (k + 1) s with ⟨heq, hno⟩ | ⟨i, oi, q, hget, ht, hq, hlt, heq, hmin⟩
      · left
        refine ⟨heq, ?_⟩
        intro j o1 q1 hj ht1 hq1
        cases j with
        | zero =>
          simp only [List.getElem?_cons_zero, Option.some.injEq] at hj
          subst hj
          rw [hobj] at ht1
          exact absurd ht1 (by simp)
        | succ j =>
          simp only [List.getElem?_cons_succ] at hj
          exact hno j o1 q1 hj ht1 hq1
      · right
        refine ⟨i + 1, oi, q, by simpa using hget, ht, hq, hlt, ?_, ?_⟩
        · rw [heq]
          simp only [Nat.add_assoc, Nat.add_comm 1 i]
        · intro j o1 q1 hj ht1 hq1
          cases j with
          | zero =>
            simp only [List.getElem?_cons_zero, Option.some.injEq] at hj
            subst hj
            rw [hobj] at ht1
            exact absurd ht1 (by simp)
          | succ j =>
            simp only [List.getElem?_cons_succ] at hj
            obtain ⟨h1, h2⟩ := hmin j o1 q1 hj ht1 hq1
            exact ⟨h1, fun h => Nat.succ_le_succ (h2 h)⟩
    | some t =>
      by_cases hacc : (Dbl.lt t s.1 && Dbl.gt t (fin 0)) = true
      · have hstep : nearest_loop m Ro Rd (o :: rest) k s
            = nearest_loop m Ro Rd rest (k + 1) (t, some k) := by
          simp only [nearest_loop, hobj, hacc, if_true]
        rw [hstep]
        obtain ⟨q0, rfl, hq0⟩ := accepted_is_fin t s.1 hacc
        have hlt0 : Dbl.lt (fin q0) s.1 = true := by
          simp only [Bool.and_eq_true] at hacc
          exact hacc.1
        right
        rcases ih (k + 1) (fin q0, some k) with
          ⟨heq, hno⟩ | ⟨i, oi, q, hget, ht, hq, hlt, heq, hmin⟩
        · refine ⟨0, o, q0, by simp, hobj, hq0, hlt0, by rw [heq]; rfl, ?_⟩
          intro j o1 q1 hj ht1 hq1
          cases j with
          | zero =>
            simp only [List.getElem?_cons_zero, Option.some.injEq] at hj
            subst hj
            rw [hobj] at ht1
            simp only [Option.some.injEq, Dbl.fin.injEq] at ht1
            subst ht1
            exact ⟨le_refl _, fun _ => le_refl _⟩
          | succ j =>
            simp only [List.getElem?_cons_succ] at hj
            have h := hno j o1 q1 hj ht1 hq1
            simp only [lt_fin, decide_eq_false_iff_not, not_lt] at h
            exact ⟨h, fun _ => Nat.zero_le _⟩
        · have hqq0 : q < q0 := by
            simpa only [lt_fin, decide_eq_true_eq] using hlt
          refine ⟨i + 1, oi, q, by simpa using hget, ht, hq, lt_fin_trans q q0 s.1 hqq0 hlt0,
            ?_, ?_⟩
          · rw [heq]
            simp only [Nat.add_assoc, Nat.add_comm 1 i]
          · intro j o1 q1 hj ht1 hq1
            cases j with
            | zero =>
              simp only [List.getElem?_cons_zero, Option.some.injEq] at hj
              subst hj
              rw [hobj] at ht1
              simp only [Option.some.injEq, Dbl.fin.injEq] at ht1
              subst ht1
              exact ⟨hqq0.le, fun h => absurd h hqq0.ne'⟩
            | succ j =>
              simp only [List.getElem?_cons_succ] at hj
              obtain ⟨h1, h2⟩ := hmin j o1 q1 hj ht1 hq1
              exact ⟨h1, fun h => Nat.succ_le_succ (h2 h)⟩
      · have hstep : nearest_loop m Ro Rd (o :: rest) k s
            = nearest_loop m Ro Rd rest (k + 1) s := by
          simp only [nearest_loop, hobj, hacc, Bool.false_eq_true, if_false]
        rw [hstep]
        have hrej : ∀ q1 : K, t = fin q1 → 0 < q1 → Dbl.lt (fin q1) s.1 = false := by
          intro q1 ht1 hq1
          subst ht1
          simp only [Bool.and_eq_true, gt_fin, decide_eq_true_eq, not_and] at hacc
          by_contra hc
          exact hacc (by simpa using hc) hq1
        rcases ih (k + 1) s with ⟨heq, hno⟩ | ⟨i, oi, q, hget, ht, hq, hlt, heq, hmin⟩
        · left
          refine ⟨heq, ?_⟩
          intro j o1 q1 hj ht1 hq1
          cases j with
          | zero =>
            simp only [List.getElem?_cons_zero, Option.some.injEq] at hj
            subst hj
            rw [hobj] at ht1
            simp only [Option.some.injEq] at ht1
            exact hrej q1 ht1 hq1
          | succ j =>
            simp only [List.getElem?_cons_succ] at hj
            exact hno j o1 q1 hj ht1 hq1
        · right
          refine ⟨i + 1, oi, q, by simpa using hget, ht, hq, hlt, ?_, ?_⟩
          · rw [heq]
            simp only [Nat.add_assoc, Nat.add_comm 1 i]
          · intro j o1 q1 hj ht1 hq1
            cases j with
            | zero =>
              simp only [List.getElem?_cons_zero, Option.some.injEq] at hj
              subst hj
              rw [hobj] at ht1
              simp only [Option.some.injEq] at ht1
              have hlt1 := lt_of_lt_of_not_lt q q1 s.1 hlt (hrej q1 ht1 hq1)
              exact ⟨hlt1.le, fun h => absurd h hlt1.ne'⟩
            | succ j =>
              simp only [List.getElem?_cons_succ] at hj
              obtain ⟨h1, h2⟩ := hmin j o1 q1 hj ht1 hq1
              exact ⟨h1, fun h => Nat.succ_le_succ (h2 h)⟩

theorem tail_getElem {α : Type} (l : List α) (i : Nat) : l.tail[i]? = l[i + 1]? := by
  cases l with
  | nil => simp
  | cons a l => simp

theorem object_t_kind (m : Libm K) (Ro Rd : Vec K) (o : Object K) (t : Dbl K)
    (h : object_t m Ro Rd o = some t) : o.kind = 1 ∨ o.kind = 2 := by
  cases o <;> simp [object_t, Object.kind] at h ⊢

/-- The nearest-hit loop as `raycast_scene` runs it for one pixel: over the objects after
index 0, from `best_t = INFINITY`. -/
theorem nearest_loop_pixel (m : Libm K) (Ro Rd : Vec K) (object_array : List (Object K))
    (bi0 : Option Nat) :
    (nearest_loop m Ro Rd object_array.tail 1 (pinf, bi0) = (pinf, bi0)
        ∧ ∀ (i : Nat) (o : Object K) (q : K), object_array[i + 1]? = some o →
            object_t m Ro Rd o = some (fin q) → ¬ 0 < q)
      ∨ (∃ (i : Nat) (o : Object K) (q : K), object_array[i + 1]? = some o
          ∧ object_t m Ro Rd o = some (fin q) ∧ 0 < q
          ∧ nearest_loop m Ro Rd object_array.tail 1 (pinf, bi0) = (fin q, some (i + 1))
          ∧ ∀ (j : Nat) (o1 : Object K) (q1 : K), object_array[j + 1]? = some o1 →
              object_t m Ro Rd o1 = some (fin q1) → 0 < q1 → q ≤ q1 ∧ (q1 = q → i ≤ j)) := by
  rcases nearest_loop_spec m Ro Rd object_array.tail 1 (pinf, bi0) with
    ⟨heq, hno⟩ | ⟨i, oi, q, hget, ht, hq, _, heq, hmin⟩
  · left
    refine ⟨heq, ?_⟩
    intro i o q hi ht hq
    have h := hno i o q (by rw [tail_getElem]; exact hi) ht hq
    simp [Dbl.lt] at h
  · right
    refine ⟨i, oi, q, by rw [← tail_getElem]; exact hget, ht, hq,
      by rw [heq, Nat.add_comm], ?_⟩
    intro j o1 q1 hj
    exact hmin j o1 q1 (by rw [tail_getElem]; exact hj)

/-- C8: the nearest-hit loop of `raycast_scene`, run for a ray over the objects at the
indices from 1 on with `best_t = INFINITY`, ends as follows.  If some sphere or plane has a
finite distance `> 0`, `best_t` is the least such distance and `best_index` is the index
(at least 1) of a sphere or plane that has this distance.  If none has, `best_t` is still
`INFINITY`, `best_index` is untouched and the test `best_t > 0 && best_t != INFINITY` fails
(no hit).  A camera or a light is never given a distance. -/
theorem nearest_loop_minimum (m : Libm K) (Ro Rd : Vec K) (object_array : List (Object K))
    (bi0 : Option Nat) :
    let r := nearest_loop m Ro Rd object_array.tail 1 (pinf, bi0)
    ((∃ (i : Nat) (o : Object K) (q : K), 1 ≤ i ∧ object_array[i]? = some o
          ∧ object_t m Ro Rd o = some (fin q) ∧ 0 < q) →
        ∃ (j : Nat) (oj : Object K) (b : K), r = (fin b, some j) ∧ 1 ≤ j
          ∧ object_array[j]? = some oj ∧ (oj.kind = 1 ∨ oj.kind = 2)
          ∧ object_t m Ro Rd oj = some (fin b) ∧ 0 < b
          ∧ ∀ (i : Nat) (o : Object K) (q : K), 1 ≤ i → object_array[i]? = some o →
              object_t m Ro Rd o = some (fin q) → 0 < q → b ≤ q)
      ∧ ((¬ ∃ (i : Nat) (o : Object K) (q : K), 1 ≤ i ∧ object_array[i]? = some o
          ∧ object_t m Ro Rd o = some (fin q) ∧ 0 < q) →
        r = (pinf, bi0) ∧ (Dbl.gt r.1 (fin 0) && Dbl.ne r.1 pinf) = false)
      ∧ (∀ o : Object K, o.kind = 0 ∨ o.kind = 3 → object_t m Ro Rd o = none) := by
  intro r
  refine ⟨?_, ?_, ?_⟩
  · rintro ⟨i, o, q, hi, hget, ht, hq⟩
    obtain ⟨i0, rfl⟩ : ∃ i0, i = i0 + 1 := ⟨i - 1, by omega⟩
    rcases nearest_loop_pixel m Ro Rd object_array bi0 with
      ⟨_, hno⟩ | ⟨j, oj, b, hgetj, htj, hb, heq, hmin⟩
    · exact absurd hq (hno i0 o q hget ht)
    · refine ⟨j + 1, oj, b, heq, by omega, hgetj, object_t_kind m Ro Rd oj _ htj, htj, hb, ?_⟩
      intro i1 o1 q1 hi1 hget1 ht1 hq1
      obtain ⟨i2, rfl⟩ : ∃ i2, i1 = i2 + 1 := ⟨i1 - 1, by omega⟩
      exact (hmin i2 o1 q1 hget1 ht1 hq1).1
  · intro hnone
    rcases nearest_loop_pixel m Ro Rd object_array bi0 with
      ⟨heq, _⟩ | ⟨j, oj, b, hgetj, htj, hb, _, _⟩
    · refine ⟨heq, ?_⟩
      show (Dbl.gt (nearest_loop m Ro Rd object_array.tail 1 (pinf, bi0)).1 (fin 0)
        && Dbl.ne (nearest_loop m Ro Rd object_array.tail 1 (pinf, bi0)).1 pinf) = false
      rw [heq]
      simp [Dbl.ne, Dbl.eq]
    · exact absurd ⟨j + 1, oj, b, by omega, hgetj, htj, hb⟩ hnone
  · intro o ho
    cases o <;> simp [Object.kind, object_t] at ho ⊢

/-- C9: if the least finite positive distance `b` is the distance of several spheres or
planes, the nearest-hit loop of `raycast_scene` leaves in `best_index` the smallest index
(from 1 on) of an object with the distance `b`. -/
theorem nearest_loop_first_wins (m : Libm K) (Ro Rd : Vec K) (object_array : List (Object K))
    (bi0 : Option Nat) (b : K) (hb : 0 < b)
    (hex : ∃ (i : Nat) (o : Object K), 1 ≤ i ∧ object_array[i]? = some o
      ∧ object_t m Ro Rd o = some (fin b))
    (hmin : ∀ (i : Nat) (o : Object K) (q : K), 1 ≤ i → object_array[i]? = some o →
      object_t m Ro Rd o = some (fin q) → 0 < q → b ≤ q) :
    ∃ (j : Nat) (oj : Object K),
      nearest_loop m Ro Rd object_array.tail 1 (pinf, bi0) = (fin b, some j) ∧ 1 ≤ j
        ∧ object_array[j]? = some oj ∧ object_t m Ro Rd oj = some (fin b)
        ∧ ∀ (i : Nat) (o : Object K), 1 ≤ i → object_array[i]? = some o →
            object_t m Ro Rd o = some (fin b) → j ≤ i := by
  obtain ⟨i, o, hi, hget, ht⟩ := hex
  obtain ⟨i0, rfl⟩ : ∃ i0, i = i0 + 1 := ⟨i - 1, by omega⟩
  rcases nearest_loop_pixel m Ro Rd object_array bi0 with
    ⟨_, hno⟩ | ⟨j, oj, q, hgetj, htj, hq, heq, hminj⟩
  · exact absurd hb (hno i0 o b hget ht)
  · have hqb : q = b :=
      le_antisymm (hminj i0 o b hget ht hb).1 (hmin (j + 1) oj q (by omega) hgetj htj hq)
    subst hqb
    refine ⟨j + 1, oj, heq, by omega, hgetj, htj, ?_⟩
    intro i1 o1 hi1 hget1 ht1
    obtain ⟨i2, rfl⟩ : ∃ i2, i1 = i2 + 1 := ⟨i1 - 1, by omega⟩
    have := (hminj i2 o1 q hget1 ht1 hq).2 rfl
    omega

/-- The sphere of the scenarios is hit at distance 4 by the ray along the z axis. -/
theorem object_t_sphere5 : object_t exactLibm origin zAxis sphere5 = some (fin 4) := by
  have h := sphere_intersection_fin exactLibm 0 0 0 0 0 1 0 0 5 1 (by norm_num)
  norm_num [exactLibm_sqrt_four] at h
  simp only [object_t, sphere5, origin, zAxis, h]

/-- The scenario of C5 in a scene: the loop ends with `best_t = 4` at index 1. -/
theorem nearest_loop_minimum_witness :
    (∃ (i : Nat) (o : Object ℚ) (q : ℚ), 1 ≤ i ∧ [camera2, sphere5][i]? = some o
        ∧ object_t exactLibm origin zAxis o = some (fin q) ∧ 0 < q)
      ∧ nearest_loop exactLibm origin zAxis [camera2, sphere5].tail 1 (pinf, none)
          = (fin 4, some 1) := by
  have hex : ∃ (i : Nat) (o : Object ℚ) (q : ℚ), 1 ≤ i ∧ [camera2, sphere5][i]? = some o
      ∧ object_t exactLibm origin zAxis o = some (fin q) ∧ 0 < q :=
    ⟨1, sphere5, 4, le_refl 1, rfl, object_t_sphere5, by norm_num⟩
  refine ⟨hex, ?_⟩
  obtain ⟨j, oj, b, hr, hj, hget, -, ht, -, -⟩ :=
    (nearest_loop_minimum exactLibm origin zAxis [camera2, sphere5] none).1 hex
  have hj1 : j = 1 := by
    rcases j with _ | _ | j
    · omega
    · rfl
    · simp at hget
  subst hj1
  simp only [List.getElem?_cons_succ, List.getElem?_cons_zero, Option.some.injEq] at hget
  subst hget
  rw [object_t_sphere5] at ht
  simp only [Option.some.injEq, Dbl.fin.injEq] at ht
  rw [hr, ← ht]

/-- Two equal spheres at the indices 1 and 2: the loop ends with `best_index = 1`. -/
theorem nearest_loop_first_wins_witness :
    nearest_loop exactLibm origin zAxis [camera2, sphere5, sphere5].tail 1 (pinf, none)
      = (fin 4, some 1) := by
  have hall : ∀ (i : Nat) (o : Object ℚ), 1 ≤ i → [camera2, sphere5, sphere5][i]? = some o →
      o = sphere5 := by
    intro i o hi hget
    rcases i with _ | _ | _ | i
    · omega
    · simpa using hget.symm
    · simpa using hget.symm
    · simp at hget
  obtain ⟨j, oj, hr, hj, -, -, hfirst⟩ :=
    nearest_loop_first_wins exactLibm origin zAxis [camera2, sphere5, sphere5] none 4
      (by norm_num) ⟨1, sphere5, le_refl 1, rfl, object_t_sphere5⟩
      (by
        intro i o q hi hget ht hq
        rw [hall i o hi hget, object_t_sphere5] at ht
        simp only [Option.some.injEq, Dbl.fin.injEq] at ht
        exact ht.le)
  have hj1 : j = 1 := le_antisymm (hfirst 1 sphere5 (le_refl 1) rfl object_t_sphere5) hj
  rw [hr, hj1]

end Nearest

/-! ## The shadow loop -/

section Shadow

variable {K : Type} [LinearOrderedField K]

/-- When an object of `rest` other than the one at `best_index` has a distance `t` with
`0 < t < distance_from_light`, the shadow loop ends with such a `t`. -/
theorem shadow_loop_occluded (m : Libm K) (Ron Rdn : Vec K) (dist : Dbl K) (best_index : Nat) :
    ∀ (rest : List (Object K)) (k : Nat) (t0 : Dbl K),
      (∃ (i : Nat) (o : Object K) (t : Dbl K), rest[i]? = some o ∧ k + i ≠ best_index
        ∧ object_t m Ron Rdn o = some t ∧ Dbl.gt t (fin 0) = true ∧ Dbl.lt t dist = true) →
      Dbl.gt (shadow_loop m Ron Rdn dist best_index rest k t0) (fin 0) = true
        ∧ Dbl.lt (shadow_loop m Ron Rdn dist best_index rest k t0) dist = true := by
  intro rest
  induction rest with
  | nil =>
    rintro k t0 ⟨i, o, t, hget, -⟩
    simp at hget
  | cons o rest ih =>
    rintro k t0 ⟨i, oi, t, hget, hne, ht, hpos, hlt⟩
    have hrest : ∀ t1 : Dbl K, i ≠ 0 →
        Dbl.gt (shadow_loop m Ron Rdn dist best_index rest (k + 1) t1) (fin 0) = true
          ∧ Dbl.lt (shadow_loop m Ron Rdn dist best_index rest (k + 1) t1) dist = true := by
      intro t1 hi
      obtain ⟨i0, rfl⟩ : ∃ i0, i = i0 + 1 := ⟨i - 1, by omega⟩
      simp only [List.getElem?_cons_succ] at hget
      exact ih (k + 1) t1 ⟨i0, oi, t, hget, by omega, ht, hpos, hlt⟩
    by_cases hk : k = best_index
    · have hstep : shadow_loop m Ron Rdn dist best_index (o :: rest) k t0
          = shadow_loop m Ron Rdn dist best_index rest (k + 1) t0 := by
        simp only [shadow_loop, hk, if_true]
      rw [hstep]
      exact hrest t0 (by rintro rfl; exact hne (by simpa using hk))
    · cases hobj : object_t m Ron Rdn o with
      | none =>
        have hstep : shadow_loop m Ron Rdn dist best_index (o :: rest) k t0
            = shadow_loop m Ron Rdn dist best_index rest (k + 1) t0 := by
          simp only [shadow_loop, hk, if_false, hobj]
        rw [hstep]
        refine hrest t0 ?_
        rintro rfl
        simp only [List.getElem?_cons_zero, Option.some.injEq] at hget
        subst hget
        rw [hobj] at ht
        exact absurd ht (by simp)
      | some t1 =>
        by_cases hbr : (Dbl.gt t1 (fin 0) && Dbl.lt t1 dist) = true
        · have hstep : shadow_loop m Ron Rdn dist best_index (o :: rest) k t0 = t1 := by
            simp only [shadow_loop, hk, if_false, hobj, hbr, if_true]
          rw [hstep]
          simpa only [Bool.and_eq_true] using hbr
        · have hi : i ≠ 0 := by
            rintro rfl
            simp only [List.getElem?_cons_zero, Option.some.injEq] at hget
            subst hget
            rw [hobj] at ht
            simp only [Option.some.injEq] at ht
            subst ht
            exact hbr (by simp only [hpos, hlt, Bool.and_self])
          by_cases hbehind : (Dbl.gt t1 (fin 0) && Dbl.gt t1 dist) = true
          · have hstep : shadow_loop m Ron Rdn dist best_index (o :: rest) k t0
                = shadow_loop m Ron Rdn dist best_index rest (k + 1) (fin 0) := by
              simp only [shadow_loop, hk, if_false, hobj, hbr, hbehind, if_true,
                Bool.false_eq_true]
            rw [hstep]
            exact hrest _ hi
          · have hstep : shadow_loop m Ron Rdn dist best_index (o :: rest) k t0
                = shadow_loop m Ron Rdn dist best_index rest (k + 1) t1 := by
              simp only [shadow_loop, hk, if_false, hobj, hbr, hbehind, Bool.false_eq_true]
            rw [hstep]
            exact hrest _ hi

theorem not_le_zero_of_gt (t : Dbl K) (h : Dbl.gt t (fin 0) = true) :
    Dbl.le t (fin 0) = false := by
  cases t with
  | fin q =>
    simp only [gt_fin, decide_eq_true_eq] at h
    simp only [le_fin, decide_eq_false_iff_not, not_le]
    exact h
  | pinf => rfl
  | ninf => simp [Dbl.gt, Dbl.lt] at h
  | nan => simp [Dbl.gt, Dbl.lt] at h

/-- C10: in `render_light`, for the hit point `Ron` on the object at `best_index` and a
light, if some sphere or plane at an index (from 1 on) other than `best_index` meets the
probe ray from `Ron` toward the light at a distance `t` with `0 < t` and
`t < distance_from_light`, the body of the loop for this light leaves `color` as it is:
the light contributes nothing. -/
theorem render_light_body_shadowed (m : Libm K) (object_array : List (Object K))
    (best_t : Dbl K) (best_index : Nat) (Rd Ron color lcolor lposition ldirection : Vec K)
    (radial_a2 radial_a1 radial_a0 angular_a0 theta : Dbl K)
    (hocc : ∃ (j : Nat) (o : Object K) (t : Dbl K), 1 ≤ j ∧ j ≠ best_index
      ∧ object_array[j]? = some o
      ∧ object_t m Ron (normalize m
          ⟨lposition.c0 - Ron.c0, lposition.c1 - Ron.c1, lposition.c2 - Ron.c2⟩) o = some t
      ∧ Dbl.gt t (fin 0) = true
      ∧ Dbl.lt t (calculate_distance m
          ⟨lposition.c0 - Ron.c0, lposition.c1 - Ron.c1, lposition.c2 - Ron.c2⟩) = true) :
    render_light_body m object_array best_t best_index Rd Ron color
        (.light lcolor lposition ldirection radial_a2 radial_a1 radial_a0 angular_a0 theta)
      = .ok color := by
  obtain ⟨j, o, t, hj, hne, hget, ht, hpos, hlt⟩ := hocc
  obtain ⟨j0, rfl⟩ : ∃ j0, j = j0 + 1 := ⟨j - 1, by omega⟩
  have h := shadow_loop_occluded m Ron
    (normalize m ⟨lposition.c0 - Ron.c0, lposition.c1 - Ron.c1, lposition.c2 - Ron.c2⟩)
    (calculate_distance m
      ⟨lposition.c0 - Ron.c0, lposition.c1 - Ron.c1, lposition.c2 - Ron.c2⟩)
    best_index object_array.tail 1 (fin 0)
    ⟨j0, o, t, by rw [tail_getElem]; exact hget, by omega, ht, hpos, hlt⟩
  have hle := not_le_zero_of_gt _ h.1
  simp only [render_light_body, hle, Bool.false_eq_true, if_false]

theorem exactLibm_sqrt_sq (n : Nat) : exactLibm.sqrt ((n : ℚ) * (n : ℚ)) = (n : ℚ) := by
  have h : ((n : ℚ) * (n : ℚ)) = ((n * n : Nat) : ℚ) := by push_cast; rfl
  show ((Nat.sqrt ((n : ℚ) * (n : ℚ)).num.toNat : Nat) : ℚ) = (n : ℚ)
  rw [h, Rat.num_natCast, Int.toNat_natCast, Nat.sqrt_eq]

theorem exactLibm_sqrt_hundred : exactLibm.sqrt 100 = 10 := by
  have h := exactLibm_sqrt_sq 10
  norm_num at h
  exact h

theorem light10_distance :
    calculate_distance exactLibm ⟨fin 0 - fin 0, fin 10 - fin 0, fin 4 - fin 4⟩ = fin 10 := by
  norm_num [calculate_distance, exactLibm_sqrt_hundred]

theorem light10_direction :
    normalize exactLibm ⟨fin 0 - fin 0, fin 10 - fin 0, fin 4 - fin 4⟩
      = ⟨fin 0, fin 1, fin 0⟩ := by
  norm_num [normalize, exactLibm_sqrt_hundred]

theorem object_t_occluder :
    object_t exactLibm ⟨fin 0, fin 0, fin 4⟩ ⟨fin 0, fin 1, fin 0⟩ occluder = some (fin 4) := by
  have h := sphere_intersection_fin exactLibm 0 0 4 0 1 0 0 5 4 1 (by norm_num)
  norm_num [exactLibm_sqrt_four] at h
  simp only [object_t, occluder, h]

/-- The scene camera, `sphere5`, `occluder`, `light10`: the point (0,0,4) of `sphere5` is
at distance 10 from the light, the occluder is met at distance 4 on the way, and the light
adds nothing to the colour. -/
theorem render_light_body_shadowed_witness :
    object_t exactLibm ⟨fin 0, fin 0, fin 4⟩
        (normalize exactLibm ⟨fin 0 - fin 0, fin 10 - fin 0, fin 4 - fin 4⟩) occluder
        = some (fin 4)
      ∧ calculate_distance exactLibm ⟨fin 0 - fin 0, fin 10 - fin 0, fin 4 - fin 4⟩ = fin 10
      ∧ render_light_body exactLibm [camera2, sphere5, occluder, light10] (fin 4) 1 zAxis
          ⟨fin 0, fin 0, fin 4⟩ ⟨fin 0, fin 0, fin 0⟩ light10 = .ok ⟨fin 0, fin 0, fin 0⟩ := by
  have h1 : object_t exactLibm ⟨fin 0, fin 0, fin 4⟩
      (normalize exactLibm ⟨fin 0 - fin 0, fin 10 - fin 0, fin 4 - fin 4⟩) occluder
      = some (fin 4) := by
    rw [light10_direction]
    exact object_t_occluder
  refine ⟨h1, light10_distance, ?_⟩
  exact render_light_body_shadowed exactLibm [camera2, sphere5, occluder, light10] (fin 4) 1
    zAxis ⟨fin 0, fin 0, fin 4⟩ ⟨fin 0, fin 0, fin 0⟩ white ⟨fin 0, fin 10, fin 4⟩
    ⟨fin 0, fin (-1), fin 0⟩ (fin 0) (fin 0) (fin 1) (fin 0) (fin 0)
    ⟨2, occluder, fin 4, by norm_num, by norm_num, rfl, h1, by simp,
      by rw [light10_distance]; norm_num⟩

end Shadow

/-! ## The colours that are stored -/

section Colours

variable {K : Type} [LinearOrderedField K]

/-- The function `clamp` maps `NaN` to `NaN` and every other value into [0,1]. -/
theorem clamp_cases (x : Dbl K) :
    (x = nan ∧ clamp x = nan) ∨ (x ≠ nan ∧ ∃ q : K, clamp x = fin q ∧ 0 ≤ q ∧ q ≤ 1) := by
  cases x with
  | fin v =>
    right
    refine ⟨fun h => Dbl.noConfusion h, ?_⟩
    by_cases h1 : 1 < v
    · exact ⟨1, by simp [clamp, h1], zero_le_one, le_refl 1⟩
    · by_cases h0 : v < 0
      · exact ⟨0, by simp [clamp, h1, h0], le_refl 0, zero_le_one⟩
      · exact ⟨v, by simp [clamp, h1, h0], not_lt.mp h0, not_lt.mp h1⟩
  | pinf =>
    right
    exact ⟨fun h => Dbl.noConfusion h, 1, by simp [clamp, Dbl.gt, Dbl.lt], zero_le_one,
      le_refl 1⟩
  | ninf =>
    right
    exact ⟨fun h => Dbl.noConfusion h, 0, by simp [clamp, Dbl.gt, Dbl.lt], le_refl 0,
      zero_le_one⟩
  | nan =>
    left
    exact ⟨rfl, by simp [clamp, Dbl.gt, Dbl.lt]⟩

theorem clamp_unit_or_nan (x : Dbl K) :
    clamp x = nan ∨ ∃ q : K, clamp x = fin q ∧ 0 ≤ q ∧ q ≤ 1 := by
  rcases clamp_cases x with ⟨-, h⟩ | ⟨-, h⟩
  · exact Or.inl h
  · exact Or.inr h

/-- Every channel of a colour that `render_light` returns is `NaN` or in [0,1]. -/
theorem render_light_unit_or_nan (m : Libm K) (object_array : List (Object K))
    (best_t : Dbl K) (best_index : Nat) (Ro Rd color : Vec K)
    (h : render_light m object_array best_t best_index Ro Rd = .ok color) (c : Dbl K)
    (hc : c = color.c0 ∨ c = color.c1 ∨ c = color.c2) :
    c = nan ∨ ∃ q : K, c = fin q ∧ 0 ≤ q ∧ q ≤ 1 := by
  unfold render_light at h
  simp only at h
  split at h
  · rename_i acc _
    injection h with h
    subst h
    rcases hc with rfl | rfl | rfl
    · exact clamp_unit_or_nan _
    · exact clamp_unit_or_nan _
    · exact clamp_unit_or_nan _
  · exact Except.noConfusion h

/-- What one pixel does to the state: the count goes up by one, and the buffer is left
alone or gets a colour returned by `render_light` at the index `buffer_index`, which is in
the buffer. -/
theorem raycast_pixel_ok_cases (m : Libm K) (object_array : List (Object K)) (w h : Dbl K)
    (N M : Nat) (s s1 : RenderState K) (y x : Nat)
    (hs : raycast_pixel m object_array w h N M s y x = .ok s1) :
    s1.pixel_count = s.pixel_count + 1
      ∧ (s1.pixel_buffer = s.pixel_buffer
        ∨ ∃ (color : Vec K) (best_t : Dbl K) (best_index : Nat),
            render_light m object_array best_t best_index ⟨fin 0, fin 0, fin 0⟩
                (pixel_ray m w h N M x y) = .ok color
              ∧ 0 ≤ buffer_index N M s.pixel_count
              ∧ buffer_index N M s.pixel_count < ((N * M : Nat) : Int)
              ∧ s1.pixel_buffer
                = Function.update s.pixel_buffer (buffer_index N M s.pixel_count).toNat
                    color) := by
  unfold raycast_pixel at hs
  simp only at hs
  split at hs
  · split at hs
    · exact Except.noConfusion hs
    · rename_i bi hbi
      split at hs
      · exact Except.noConfusion hs
      · rename_i color hcolor
        split at hs
        · rename_i hidx
          injection hs with hs
          subst hs
          exact ⟨rfl, Or.inr ⟨color, _, bi, hcolor, hidx.1, hidx.2, rfl⟩⟩
        · exact Except.noConfusion hs
  · injection hs with hs
    subst hs
    exact ⟨rfl, Or.inl rfl⟩

/-- A property of the state that every pixel preserves holds after a row. -/
theorem raycast_row_invariant (m : Libm K) (object_array : List (Object K)) (w h : Dbl K)
    (N M : Nat) (P : RenderState K → Prop)
    (hP : ∀ (s s1 : RenderState K) (y x : Nat), P s →
      raycast_pixel m object_array w h N M s y x = .ok s1 → P s1) (y : Nat) :
    ∀ (xs : List Nat) (s s1 : RenderState K), P s →
      raycast_row m object_array w h N M y xs s = .ok s1 → P s1 := by
  intro xs
  induction xs with
  | nil =>
    intro s s1 hs hrun
    simp only [raycast_row] at hrun
    injection hrun with hrun
    subst hrun
    exact hs
  | cons x xs ih =>
    intro s s1 hs hrun
    simp only [raycast_row] at hrun
    split at hrun
    · rename_i s2 h2
      exact ih s2 s1 (hP s s2 y x hs h2) hrun
    · exact Except.noConfusion hrun

/-- A property of the state that every pixel preserves holds after the rows. -/
theorem raycast_rows_invariant (m : Libm K) (object_array : List (Object K)) (w h : Dbl K)
    (N M : Nat) (P : RenderState K → Prop)
    (hP : ∀ (s s1 : RenderState K) (y x : Nat), P s →
      raycast_pixel m object_array w h N M s y x = .ok s1 → P s1) :
    ∀ (ys : List Nat) (s s1 : RenderState K), P s →
      raycast_rows m object_array w h N M ys s = .ok s1 → P s1 := by
  intro ys
  induction ys with
  | nil =>
    intro s s1 hs hrun
    simp only [raycast_rows] at hrun
    injection hrun with hrun
    subst hrun
    exact hs
  | cons y ys ih =>
    intro s s1 hs hrun
    simp only [raycast_rows] at hrun
    split at hrun
    · rename_i s2 h2
      exact ih s2 s1 (raycast_row_invariant m object_array w h N M P hP y _ s s2 hs h2) hrun
    · exact Except.noConfusion hrun

theorem exactLibm_sqrt_zero : exactLibm.sqrt 0 = 0 := by
  have h := exactLibm_sqrt_sq 0
  norm_num at h
  exact h

theorem exactLibm_sqrt_one : exactLibm.sqrt 1 = 1 := by
  have h := exactLibm_sqrt_sq 1
  norm_num at h
  exact h

/-- The ray of the only pixel of a 1×1 image with the camera 2×2 is the z axis. -/
theorem pixel_ray_one : pixel_ray exactLibm (fin 2) (fin 2) 1 1 0 0 = zAxis := by
  norm_num [pixel_ray, normalize, Dbl.ofNat, exactLibm_sqrt_one, zAxis]

theorem object_t_plane5 : object_t exactLibm origin zAxis plane5 = some (fin 5) := by
  have h := plane_intersection_fin (K := ℚ) 0 0 0 0 0 1 0 0 5 0 0 (-1)
  norm_num at h
  simp only [object_t, plane5, origin, zAxis, h]

theorem nearest_loop_plane5 :
    nearest_loop exactLibm origin zAxis [camera2, plane5, lightOnPlane].tail 1 (pinf, none)
      = (fin 5, some 1) := by
  simp only [List.tail_cons, nearest_loop, object_t_plane5]
  simp [lightOnPlane, object_t, Dbl.lt, Dbl.gt]

theorem render_light_on_plane :
    render_light exactLibm [camera2, plane5, lightOnPlane] (fin 5) 1 origin zAxis
      = .ok ⟨nan, nan, nan⟩ := by
  have hshadow : ∀ (m : Libm ℚ) (Rdn : Vec ℚ) (d : Dbl ℚ),
      shadow_loop m ⟨fin 0, fin 0, fin 5⟩ Rdn d 1 [plane5, lightOnPlane] 1 (fin 0)
        = fin 0 := by
    intro m Rdn d
    simp [shadow_loop, lightOnPlane, object_t]
  simp only [render_light, render_light_loop, List.tail_cons, origin, zAxis]
  simp only [plane5, lightOnPlane, white] at hshadow
  norm_num [render_light_body, plane5, lightOnPlane, hshadow, normalize, calculate_distance,
    exactLibm_sqrt_zero, reflect, diffuse, specular, add_light, floor0, frad, fang, clamp,
    white]

/-- C1 is not what the code does: in the scene camera (2×2), `plane5`, `lightOnPlane`,
rendered as a 1×1 image, the ray (0,0,1) hits the plane at (0,0,5), where the light is.  The
vector from the hit point to the light is (0,0,0), `normalize` divides 0 by 0, the sum of
the light contributions is `NaN`, and `clamp`, whose two comparisons are false on `NaN`,
returns `NaN`: the stored channels are not in [0,1], and the cast `(int)(255*NaN)` of
`create_image` on this buffer is undefined. -/
theorem light_on_surface_stores_nan :
    render_light exactLibm [camera2, plane5, lightOnPlane] (fin 5) 1 origin zAxis
        = .ok ⟨nan, nan, nan⟩
      ∧ clamp (nan : Dbl ℚ) = nan
      ∧ ∃ buf : Nat → Vec ℚ,
          raycast_scene exactLibm [camera2, plane5, lightOnPlane] blackBuffer 1 1 = .ok buf
            ∧ buf 0 = ⟨nan, nan, nan⟩
            ∧ (¬ ∃ q : ℚ, (buf 0).c0 = fin q ∧ 0 ≤ q ∧ q ≤ 1)
            ∧ create_image buf 1 1 = none := by
  refine ⟨render_light_on_plane, by simp [clamp],
    Function.update blackBuffer 0 ⟨nan, nan, nan⟩, ?_, ?_, ?_, ?_⟩
  · have hn := nearest_loop_plane5
    have hr := render_light_on_plane
    simp only [origin, camera2] at hn hr
    simp only [raycast_scene, camera2, List.range_succ, List.range_zero, List.nil_append,
      raycast_rows, raycast_row, raycast_pixel, pixel_ray_one, hn]
    simp [Dbl.gt, Dbl.lt, Dbl.ne, Dbl.eq, hr, buffer_index]
  · simp
  · simp
  · simp [create_image, create_image_loop, channel_byte, double_to_int]

/-- What `clamp` does achieve: every channel of a colour that `render_light` returns is
`NaN` or lies in [0,1]; every slot of the pixel buffer that `raycast_scene` leaves either is
as it was or has such channels; and `clamp` of a value that is not `NaN` (a value above 1,
a negative value, an infinite value) lies in [0,1]. -/
theorem stored_channels_unit_or_nan (m : Libm K) (object_array : List (Object K))
    (pixel_buffer : Nat → Vec K) (N M : Nat) :
    (∀ (best_t : Dbl K) (best_index : Nat) (Ro Rd color : Vec K),
        render_light m object_array best_t best_index Ro Rd = .ok color →
        ∀ c : Dbl K, (c = color.c0 ∨ c = color.c1 ∨ c = color.c2) →
          c = nan ∨ ∃ q : K, c = fin q ∧ 0 ≤ q ∧ q ≤ 1)
      ∧ (∀ buf : Nat → Vec K, raycast_scene m object_array pixel_buffer N M = .ok buf →
          ∀ (i : Nat) (c : Dbl K), (c = (buf i).c0 ∨ c = (buf i).c1 ∨ c = (buf i).c2) →
            buf i = pixel_buffer i ∨ c = nan ∨ ∃ q : K, c = fin q ∧ 0 ≤ q ∧ q ≤ 1)
      ∧ (∀ x : Dbl K, x ≠ nan → ∃ q : K, clamp x = fin q ∧ 0 ≤ q ∧ q ≤ 1) := by
  refine ⟨?_, ?_, ?_⟩
  · intro best_t best_index Ro Rd color hr c hc
    exact render_light_unit_or_nan m object_array best_t best_index Ro Rd color hr c hc
  · intro buf hbuf
    unfold raycast_scene at hbuf
    split at hbuf
    · exact Except.noConfusion hbuf
    · rename_i w h rest
      split at hbuf
      · rename_i s hs
        injection hbuf with hbuf
        subst hbuf
        refine raycast_rows_invariant m _ w h N M
          (fun s => ∀ (i : Nat) (c : Dbl K),
            (c = (s.pixel_buffer i).c0 ∨ c = (s.pixel_buffer i).c1 ∨ c = (s.pixel_buffer i).c2) →
              s.pixel_buffer i = pixel_buffer i ∨ c = nan ∨ ∃ q : K, c = fin q ∧ 0 ≤ q ∧ q ≤ 1)
          ?_ (List.range M) ⟨pixel_buffer, 0, none⟩ s (fun i c _ => Or.inl rfl) hs
        intro s0 s1 y x hinv hpix i c hc
        obtain ⟨-, hsame | ⟨color, bt, bi, hcol, -, -, hupd⟩⟩ :=
          raycast_pixel_ok_cases m _ w h N M s0 s1 y x hpix
        · rw [hsame] at hc ⊢
          exact hinv i c hc
        · rw [hupd] at hc ⊢
          by_cases hi : i = (buffer_index N M s0.pixel_count).toNat
          · subst hi
            rw [Function.update_same] at hc
            exact Or.inr (render_light_unit_or_nan m _ bt bi _ _ color hcol c hc)
          · rw [Function.update_noteq hi] at hc ⊢
            exact hinv i c hc
      · exact Except.noConfusion hbuf
    · exact Except.noConfusion hbuf
  · intro x hx
    rcases clamp_cases x with ⟨h, -⟩ | ⟨-, h⟩
    · exact absurd h hx
    · exact h

end Colours

/-! ## The pixel loops of `raycast_scene` -/

section Pixels

variable {K : Type} [LinearOrderedField K]

/-- The index of the pixel `(x, y)`, whose `pixel_count` is `y * N + x`. -/
theorem buffer_index_eq (N M x y : Nat) (hx : x < N) (hy : y < M) :
    buffer_index N M (y * N + x) = (((M - 1 - y) * N + x : Nat) : Int) := by
  obtain ⟨k, rfl⟩ : ∃ k, M = y + 1 + k := ⟨M - (y + 1), by omega⟩
  have hN : 0 < N := by omega
  have hdiv : (y * N + x) / N = y := by
    rw [Nat.add_comm, Nat.add_mul_div_right _ _ hN, Nat.div_eq_of_lt hx, Nat.zero_add]
  have hmod : (y * N + x) % N = x := by
    rw [Nat.add_comm, Nat.add_mul_mod_self_right, Nat.mod_eq_of_lt hx]
  have hk : y + 1 + k - 1 - y = k := by omega
  simp only [buffer_index, hdiv, hmod, hk]
  push_cast
  ring

theorem row_flip_lt (N M x y : Nat) (hx : x < N) (hy : y < M) :
    (M - 1 - y) * N + x < N * M := by
  obtain ⟨k, rfl⟩ : ∃ k, M = y + 1 + k := ⟨M - (y + 1), by omega⟩
  have hk : y + 1 + k - 1 - y = k := by omega
  rw [hk]
  have h1 : k * N + x < (k + 1) * N := by rw [Nat.add_mul, Nat.one_mul]; omega
  have h2 : (k + 1) * N ≤ (y + 1 + k) * N := Nat.mul_le_mul_right N (by omega)
  calc k * N + x < (k + 1) * N := h1
    _ ≤ (y + 1 + k) * N := h2
    _ = N * (y + 1 + k) := Nat.mul_comm _ _

/-- The index computed for a `pixel_count` below `N * M` lies in the buffer. -/
theorem buffer_index_range (N M pc : Nat) (hpc : pc < N * M) :
    0 ≤ buffer_index N M pc ∧ buffer_index N M pc < ((N * M : Nat) : Int) := by
  have hN : 0 < N := by
    rcases Nat.eq_zero_or_pos N with h | h
    · subst h
      simp at hpc
    · exact h
  have hx : pc % N < N := Nat.mod_lt _ hN
  have hy : pc / N < M := by
    apply Nat.div_lt_of_lt_mul
    exact hpc
  have hpc' : pc / N * N + pc % N = pc := by
    rw [Nat.mul_comm]
    exact Nat.div_add_mod pc N
  have h := buffer_index_eq N M (pc % N) (pc / N) hx hy
  rw [hpc'] at h
  rw [h]
  refine ⟨Int.natCast_nonneg _, ?_⟩
  exact_mod_cast row_flip_lt N M (pc % N) (pc / N) hx hy

/-- The function `render_light` returns when `best_index` is the index of a sphere or of a
plane. -/
theorem render_light_ok (m : Libm K) (object_array : List (Object K)) (best_t : Dbl K)
    (best_index : Nat) (Ro Rd : Vec K) (o : Object K) (hget : object_array[best_index]? = some o)
    (hkind : o.kind = 1 ∨ o.kind = 2) :
    ∃ color : Vec K, render_light m object_array best_t best_index Ro Rd = .ok color := by
  have hbody : ∀ (Ron color : Vec K) (l : Object K), ∃ color1 : Vec K,
      render_light_body m object_array best_t best_index Rd Ron color l = .ok color1 := by
    intro Ron color l
    cases l with
    | camera _ _ => exact ⟨color, rfl⟩
    | sphere _ _ _ _ => exact ⟨color, rfl⟩
    | plane _ _ _ _ => exact ⟨color, rfl⟩
    | light lc lp ld a2 a1 a0 ang th =>
      simp only [render_light_body, hget]
      split
      · cases o with
        | camera _ _ => simp [Object.kind] at hkind
        | sphere _ _ _ _ => exact ⟨_, rfl⟩
        | plane _ _ _ _ => exact ⟨_, rfl⟩
        | light _ _ _ _ _ _ _ _ => simp [Object.kind] at hkind
      · exact ⟨color, rfl⟩
  have hloop : ∀ (Ron : Vec K) (os : List (Object K)) (color : Vec K), ∃ color1 : Vec K,
      render_light_loop m object_array best_t best_index Rd Ron os color = .ok color1 := by
    intro Ron os
    induction os with
    | nil => exact fun color => ⟨color, rfl⟩
    | cons l os ih =>
      intro color
      obtain ⟨c1, hc1⟩ := hbody Ron color l
      obtain ⟨c2, hc2⟩ := ih c1
      exact ⟨c2, by simp only [render_light_loop, hc1, hc2]⟩
  obtain ⟨c, hc⟩ := hloop
    ⟨best_t * Rd.c0 + Ro.c0, best_t * Rd.c1 + Ro.c1, best_t * Rd.c2 + Ro.c2⟩
    object_array.tail ⟨fin 0, fin 0, fin 0⟩
  exact ⟨⟨clamp c.c0, clamp c.c1, clamp c.c2⟩, by simp only [render_light, hc]⟩

/-- One pixel never ends the run as long as `pixel_count` is below `N * M`. -/
theorem raycast_pixel_ok (m : Libm K) (object_array : List (Object K)) (w h : Dbl K)
    (N M : Nat) (s : RenderState K) (y x : Nat) (hpc : s.pixel_count < N * M) :
    ∃ s1 : RenderState K, raycast_pixel m object_array w h N M s y x = .ok s1 := by
  unfold raycast_pixel
  simp only
  split
  · rename_i hcond
    rcases nearest_loop_pixel m ⟨fin 0, fin 0, fin 0⟩ (pixel_ray m w h N M x y) object_array
        s.best_index with ⟨heq, -⟩ | ⟨i, o, q, hget, ht, -, heq, -⟩
    · rw [heq] at hcond
      simp [Dbl.ne, Dbl.eq] at hcond
    · rw [heq]
      obtain ⟨color, hcolor⟩ := render_light_ok m object_array (fin q) (i + 1)
        ⟨fin 0, fin 0, fin 0⟩ (pixel_ray m w h N M x y) o hget (object_t_kind m _ _ o _ ht)
      simp only [hcolor, buffer_index_range N M s.pixel_count hpc, and_self, if_true]
      exact ⟨_, rfl⟩
  · exact ⟨_, rfl⟩

/-- A row over the columns `xs` returns and adds their number to `pixel_count`. -/
theorem raycast_row_ok (m : Libm K) (object_array : List (Object K)) (w h : Dbl K)
    (N M : Nat) (y : Nat) :
    ∀ (xs : List Nat) (s : RenderState K), s.pixel_count + xs.length ≤ N * M →
      ∃ s1 : RenderState K, raycast_row m object_array w h N M y xs s = .ok s1
        ∧ s1.pixel_count = s.pixel_count + xs.length := by
  intro xs
  induction xs with
  | nil => exact fun s _ => ⟨s, rfl, rfl⟩
  | cons x xs ih =>
    intro s hs
    simp only [List.length_cons] at hs
    obtain ⟨s1, h1⟩ := raycast_pixel_ok m object_array w h N M s y x (by omega)
    have hc1 := (raycast_pixel_ok_cases m object_array w h N M s s1 y x h1).1
    obtain ⟨s2, h2, hc2⟩ := ih s1 (by omega)
    refine ⟨s2, by simp only [raycast_row, h1, h2], ?_⟩
    rw [hc2, hc1, List.length_cons]
    omega

/-- The rows `ys` return and add `N` times their number to `pixel_count`. -/
theorem raycast_rows_ok (m : Libm K) (object_array : List (Object K)) (w h : Dbl K)
    (N M : Nat) :
    ∀ (ys : List Nat) (s : RenderState K), s.pixel_count + ys.length * N ≤ N * M →
      ∃ s1 : RenderState K, raycast_rows m object_array w h N M ys s = .ok s1
        ∧ s1.pixel_count = s.pixel_count + ys.length * N := by
  intro ys
  induction ys with
  | nil => exact fun s _ => ⟨s, rfl, by simp⟩
  | cons y ys ih =>
    intro s hs
    simp only [List.length_cons, Nat.add_mul, Nat.one_mul] at hs
    obtain ⟨s1, h1, hc1⟩ := raycast_row_ok m object_array w h N M y (List.range N) s
      (by rw [List.length_range]; omega)
    rw [List.length_range] at hc1
    obtain ⟨s2, h2, hc2⟩ := ih s1 (by omega)
    refine ⟨s2, by simp only [raycast_rows, h1, h2], ?_⟩
    rw [hc2, hc1, List.length_cons, Nat.add_mul, Nat.one_mul]
    omega

/-- With a camera at index 0, `raycast_scene` returns. -/
theorem raycast_scene_ok (m : Libm K) (w h : Dbl K) (rest : List (Object K))
    (pixel_buffer : Nat → Vec K) (N M : Nat) :
    ∃ buf : Nat → Vec K,
      raycast_scene m (.camera w h :: rest) pixel_buffer N M = .ok buf := by
  obtain ⟨s1, h1, -⟩ := raycast_rows_ok m (.camera w h :: rest) w h N M (List.range M)
    ⟨pixel_buffer, 0, none⟩ (by simp [Nat.mul_comm])
  exact ⟨s1.pixel_buffer, by simp only [raycast_scene, h1]⟩

theorem raycast_row_count (m : Libm K) (object_array : List (Object K)) (w h : Dbl K)
    (N M : Nat) (y : Nat) :
    ∀ (xs : List Nat) (s s1 : RenderState K),
      raycast_row m object_array w h N M y xs s = .ok s1 →
      s1.pixel_count = s.pixel_count + xs.length := by
  intro xs
  induction xs with
  | nil =>
    intro s s1 hrun
    simp only [raycast_row] at hrun
    injection hrun with hrun
    subst hrun
    rfl
  | cons x xs ih =>
    intro s s1 hrun
    simp only [raycast_row] at hrun
    split at hrun
    · rename_i s2 h2
      rw [ih s2 s1 hrun, (raycast_pixel_ok_cases m object_array w h N M s s2 y x h2).1,
        List.length_cons]
      omega
    · exact Except.noConfusion hrun

theorem raycast_rows_count (m : Libm K) (object_array : List (Object K)) (w h : Dbl K)
    (N M : Nat) :
    ∀ (ys : List Nat) (s s1 : RenderState K),
      raycast_rows m object_array w h N M ys s = .ok s1 →
      s1.pixel_count = s.pixel_count + ys.length * N := by
  intro ys
  induction ys with
  | nil =>
    intro s s1 hrun
    simp only [raycast_rows] at hrun
    injection hrun with hrun
    subst hrun
    simp
  | cons y ys ih =>
    intro s s1 hrun
    simp only [raycast_rows] at hrun
    split at hrun
    · rename_i s2 h2
      rw [ih s2 s1 hrun, raycast_row_count m object_array w h N M y _ s s2 h2,
        List.length_range, List.length_cons, Nat.add_mul, Nat.one_mul]
      omega
    · exact Except.noConfusion hrun

/-- C3 fails as stated: the list of two cameras does not contain exactly one camera, yet
`raycast_scene`, which only looks at the kind of the object at index 0, does not fail. -/
theorem raycast_scene_two_cameras :
    List.countP (fun o => decide (o.kind = 0)) [camera2, camera2] = 2
      ∧ raycast_scene exactLibm [camera2, camera2] blackBuffer 1 1 = .ok blackBuffer := by
  refine ⟨by simp [camera2, Object.kind], ?_⟩
  simp [raycast_scene, camera2, List.range_succ, raycast_rows, raycast_row, raycast_pixel,
    nearest_loop, object_t, Dbl.gt, Dbl.lt, Dbl.ne, Dbl.eq]

/-- The failures of `raycast_scene` on a non-empty object list. -/
theorem raycast_scene_error_iff (m : Libm K) (object_array : List (Object K))
    (pixel_buffer : Nat → Vec K) (N M : Nat) (hne : object_array ≠ []) :
    ((∃ e : Abort K, raycast_scene m object_array pixel_buffer N M = .error e)
        ↔ ¬ ∃ o : Object K, object_array[0]? = some o ∧ o.kind = 0)
      ∧ (∀ e : Abort K, raycast_scene m object_array pixel_buffer N M = .error e →
          e.fault = Fault.exit1 ∧ e.pixel_buffer = pixel_buffer) := by
  cases object_array with
  | nil => exact absurd rfl hne
  | cons first rest =>
    cases first with
    | camera w h =>
      obtain ⟨buf, hbuf⟩ := raycast_scene_ok m w h rest pixel_buffer N M
      rw [hbuf]
      refine ⟨⟨fun ⟨e, he⟩ => Except.noConfusion he, fun hno => ?_⟩,
        fun e he => Except.noConfusion he⟩
      exact absurd ⟨Object.camera w h, List.getElem?_cons_zero, rfl⟩ hno
    | sphere dc sc p r =>
      refine ⟨⟨fun _ => ?_, fun _ => ⟨_, rfl⟩⟩, ?_⟩
      · rintro ⟨o, ho, hk⟩
        simp only [List.getElem?_cons_zero, Option.some.injEq] at ho
        subst ho
        simp [Object.kind] at hk
      · intro e he
        simp only [raycast_scene] at he
        injection he with he
        subst he
        exact ⟨rfl, rfl⟩
    | plane dc sc p n =>
      refine ⟨⟨fun _ => ?_, fun _ => ⟨_, rfl⟩⟩, ?_⟩
      · rintro ⟨o, ho, hk⟩
        simp only [List.getElem?_cons_zero, Option.some.injEq] at ho
        subst ho
        simp [Object.kind] at hk
      · intro e he
        simp only [raycast_scene] at he
        injection he with he
        subst he
        exact ⟨rfl, rfl⟩
    | light c p d a2 a1 a0 ang th =>
      refine ⟨⟨fun _ => ?_, fun _ => ⟨_, rfl⟩⟩, ?_⟩
      · rintro ⟨o, ho, hk⟩
        simp only [List.getElem?_cons_zero, Option.some.injEq] at ho
        subst ho
        simp [Object.kind] at hk
      · intro e he
        simp only [raycast_scene] at he
        injection he with he
        subst he
        exact ⟨rfl, rfl⟩

/-- C3, amended: on a non-empty object list `raycast_scene` fails if and only if the object
at index 0 is not a camera (further cameras in the list are skipped, not rejected); the
failure is the `exit(1)` and leaves the pixel buffer as it was. -/
theorem raycast_scene_fails_iff (m : Libm K) (object_array : List (Object K))
    (pixel_buffer : Nat → Vec K) (N M : Nat) (hne : object_array ≠ []) :
    ((∃ e : Abort K, raycast_scene m object_array pixel_buffer N M = .error e)
        ↔ ¬ ∃ o : Object K, object_array[0]? = some o ∧ o.kind = 0)
      ∧ (∀ e : Abort K, raycast_scene m object_array pixel_buffer N M = .error e →
          e.fault = Fault.exit1 ∧ e.pixel_buffer = pixel_buffer) :=
  raycast_scene_error_iff m object_array pixel_buffer N M hne

/-- A scene without a camera: `raycast_scene` exits and the buffer is as it was. -/
theorem raycast_scene_fails_iff_witness :
    ([sphere5] ≠ [])
      ∧ ∃ e : Abort ℚ, raycast_scene exactLibm [sphere5] blackBuffer 1 1 = .error e
          ∧ e.fault = Fault.exit1 ∧ e.pixel_buffer = blackBuffer := by
  have hne : [sphere5] ≠ [] := by simp
  have h := raycast_scene_fails_iff exactLibm [sphere5] blackBuffer 1 1 hne
  obtain ⟨e, he⟩ := h.1.mpr (by
    rintro ⟨o, ho, hk⟩
    simp only [List.getElem?_cons_zero, Option.some.injEq] at ho
    subst ho
    simp [sphere5, Object.kind] at hk)
  exact ⟨hne, e, he, h.2 e he⟩

end Pixels

/-! ## The camera at the front -/

section Camera

variable {K : Type}

/-- The loop of `move_camera_to_front` from the index `k` on, in a state where `num` counts
the cameras before `k` (at most one) and the object at index 0 is a camera exactly when
`num = 1`: with two or more cameras in all it exits, otherwise it returns with the count of
all the cameras and with a camera at index 0 exactly when there is one. -/
theorem move_camera_loop_spec :
    ∀ (cnt k : Nat) (l : List (Object K)) (num : Nat),
      k + cnt = l.length → num ≤ 1 → (k = 0 → num = 0) →
      (1 ≤ k → (num = 1 ↔ ∃ o : Object K, l[0]? = some o ∧ o.kind = 0)) →
      (2 ≤ num + List.countP (fun o => decide (o.kind = 0)) (l.drop k) →
          move_camera_loop (List.range' k cnt) (l, num) = .error Fault.exit1)
        ∧ (num + List.countP (fun o => decide (o.kind = 0)) (l.drop k) ≤ 1 →
          ∃ l1 : List (Object K),
            move_camera_loop (List.range' k cnt) (l, num)
                = .ok (l1, num + List.countP (fun o => decide (o.kind = 0)) (l.drop k))
              ∧ l1.length = l.length
              ∧ (num + List.countP (fun o => decide (o.kind = 0)) (l.drop k) = 1
                ↔ ∃ o : Object K, l1[0]? = some o ∧ o.kind = 0)) := by
  intro cnt
  induction cnt with
  | zero =>
    intro k l num hlen hnum hk0 hk1
    have hdrop : l.drop k = [] := List.drop_eq_nil_of_le (by omega)
    simp only [hdrop, List.countP_nil, Nat.add_zero, List.range'_zero, move_camera_loop]
    refine ⟨fun h => by omega, fun _ => ⟨l, rfl, rfl, ?_⟩⟩
    rcases Nat.eq_zero_or_pos k with hk | hk
    · have hl : l = [] := List.length_eq_zero.mp (by omega)
      subst hl
      have := hk0 hk
      subst this
      simp
    · exact hk1 hk
  | succ cnt ih =>
    intro k l num hlen hnum hk0 hk1
    have hklt : k < l.length := by omega
    have h0lt : 0 < l.length := by omega
    have hgetk : l[k]? = some l[k] := List.getElem?_eq_getElem hklt
    have hget0 : l[0]? = some l[0] := List.getElem?_eq_getElem h0lt
    have hdrop : l.drop k = l[k] :: l.drop (k + 1) := List.drop_eq_getElem_cons hklt
    rw [hdrop, List.countP_cons, List.range'_succ]
    by_cases hcam : l[k].kind = 0
    · simp only [hcam, decide_True, if_true]
      by_cases hkz : k = 0
      · -- the first object is a camera
        have hnum0 : num = 0 := hk0 hkz
        subst hkz
        subst hnum0
        have hstep : move_camera_loop (0 :: List.range' (0 + 1) cnt) (l, 0)
            = move_camera_loop (List.range' (0 + 1) cnt) (l, 0 + 1) := by
          simp only [move_camera_loop, hget0, hcam, and_self, if_true]
        rw [hstep]
        have h := ih (0 + 1) l (0 + 1) (by omega) (by omega) (by omega)
          (fun _ => ⟨fun _ => ⟨l[0], hget0, hcam⟩, fun _ => rfl⟩)
        simp only [Nat.zero_add] at h ⊢
        rw [Nat.add_comm (List.countP _ _) 1]
        exact h
      · -- a camera further in the array
        by_cases hn : num = 0
        · subst hn
          have hstep : move_camera_loop (k :: List.range' (k + 1) cnt) (l, 0)
              = move_camera_loop (List.range' (k + 1) cnt)
                  ((l.set 0 l[k]).set k l[0], 0 + 1) := by
            simp only [move_camera_loop, hgetk, hget0, hcam, hkz, and_false, if_false, if_true,
              Nat.zero_add, gt_iff_lt, Nat.lt_irrefl]
          rw [hstep]
          have hcount : List.countP (fun o => decide (o.kind = 0))
              (((l.set 0 l[k]).set k l[0]).drop (k + 1))
              = List.countP (fun o => decide (o.kind = 0)) (l.drop (k + 1)) := by
            rw [List.drop_set_of_lt _ _ (by omega), List.drop_set_of_lt _ _ (by omega)]
          have hfirst : ((l.set 0 l[k]).set k l[0])[0]? = some l[k] := by
            rw [List.getElem?_set_ne hkz, List.getElem?_set_self h0lt]
          have h := ih (k + 1) ((l.set 0 l[k]).set k l[0]) (0 + 1)
            (by simp only [List.length_set]; omega) (by omega) (by omega)
            (fun _ => ⟨fun _ => ⟨l[k], hfirst, hcam⟩, fun _ => rfl⟩)
          rw [hcount] at h
          simp only [List.length_set, Nat.zero_add] at h ⊢
          rw [Nat.add_comm (List.countP _ _) 1]
          exact h
        · have hn1 : num = 1 := by omega
          subst hn1
          have hstep : move_camera_loop (k :: List.range' (k + 1) cnt) (l, 1)
              = .error Fault.exit1 := by
            simp only [move_camera_loop, hgetk, hget0, hcam, hkz, and_false, if_false, if_true,
              gt_iff_lt, Nat.lt_add_one]
          rw [hstep]
          exact ⟨fun _ => rfl, fun h => by omega⟩
    · simp only [hcam, decide_False, Bool.false_eq_true, if_false, Nat.add_zero]
      have hstep : move_camera_loop (k :: List.range' (k + 1) cnt) (l, num)
          = move_camera_loop (List.range' (k + 1) cnt) (l, num) := by
        simp only [move_camera_loop, hgetk, hget0, hcam, false_and, if_false]
      rw [hstep]
      refine ih (k + 1) l num (by omega) hnum (by omega) ?_
      intro _
      rcases Nat.eq_zero_or_pos k with hk | hk
      · have hnum0 : num = 0 := hk0 hk
        subst hk
        subst hnum0
        refine ⟨fun h => by omega, ?_⟩
        rintro ⟨o, ho, hko⟩
        rw [hget0] at ho
        injection ho with ho
        subst ho
        exact absurd hko hcam
      · exact hk1 hk

/-- The function `move_camera_to_front` exits when the list has two or more cameras, and
otherwise returns a list of the same length with a camera at index 0 exactly when the list
has one. -/
theorem move_camera_to_front_spec (object_array : List (Object K)) :
    (2 ≤ List.countP (fun o => decide (o.kind = 0)) object_array →
        move_camera_to_front object_array = .error Fault.exit1)
      ∧ (List.countP (fun o => decide (o.kind = 0)) object_array ≤ 1 →
        ∃ l1 : List (Object K), move_camera_to_front object_array = .ok l1
          ∧ l1.length = object_array.length
          ∧ (List.countP (fun o => decide (o.kind = 0)) object_array = 1
            ↔ ∃ o : Object K, l1[0]? = some o ∧ o.kind = 0)) := by
  have h := move_camera_loop_spec object_array.length 0 object_array 0 (by omega)
    (by omega) (fun _ => rfl) (fun h => by omega)
  simp only [List.drop_zero, Nat.zero_add, ← List.range_eq_range'] at h
  refine ⟨fun h2 => ?_, fun h1 => ?_⟩
  · simp only [move_camera_to_front, h.1 h2]
  · obtain ⟨l1, hl1, hlen, hcam⟩ := h.2 h1
    exact ⟨l1, by simp only [move_camera_to_front, hl1], hlen, hcam⟩

/-- C4: for a non-empty object list (`read_scene` returns no other), the calls
`move_camera_to_front` and `raycast_scene` of `main` abort if and only if the number of
cameras in the list is not exactly one; an abort is an `exit(1)` that leaves the pixel
buffer as it was; with exactly one camera, anywhere in the list, neither call fails. -/
theorem main_render_aborts_iff [LinearOrderedField K] (m : Libm K)
    (object_array : List (Object K)) (pixel_buffer : Nat → Vec K) (N M : Nat)
    (hne : object_array ≠ []) :
    ((∃ e : Abort K, main_render m object_array pixel_buffer N M = .error e)
        ↔ List.countP (fun o => decide (o.kind = 0)) object_array ≠ 1)
      ∧ (∀ e : Abort K, main_render m object_array pixel_buffer N M = .error e →
          e.fault = Fault.exit1 ∧ e.pixel_buffer = pixel_buffer)
      ∧ (List.countP (fun o => decide (o.kind = 0)) object_array = 1 →
          ∃ (l1 : List (Object K)) (buf : Nat → Vec K),
            move_camera_to_front object_array = .ok l1
              ∧ raycast_scene m l1 pixel_buffer N M = .ok buf
              ∧ main_render m object_array pixel_buffer N M = .ok buf) := by
  have hspec := move_camera_to_front_spec object_array
  rcases Nat.lt_or_ge 1
      (List.countP (fun o : Object K => decide (o.kind = 0)) object_array) with h2 | h1
  · -- two or more cameras
    have hmove := hspec.1 h2
    have hmain : main_render m object_array pixel_buffer N M
        = .error ⟨Fault.exit1, pixel_buffer⟩ := by
      simp only [main_render, hmove]
    rw [hmain]
    refine ⟨⟨fun _ => by omega, fun _ => ⟨_, rfl⟩⟩, ?_, fun h => by omega⟩
    intro e he
    injection he with he
    subst he
    exact ⟨rfl, rfl⟩
  · obtain ⟨l1, hmove, hlen, hcam⟩ := hspec.2 h1
    have hmain : main_render m object_array pixel_buffer N M
        = raycast_scene m l1 pixel_buffer N M := by
      simp only [main_render, hmove]
    have hne1 : l1 ≠ [] := by
      intro h
      rw [h] at hlen
      exact hne (List.length_eq_zero.mp hlen.symm)
    have hray := raycast_scene_error_iff m l1 pixel_buffer N M hne1
    rw [hmain]
    refine ⟨?_, hray.2, ?_⟩
    · rw [hray.1, ← hcam]
    · intro hone
      have hnofail : ¬ ∃ e : Abort K, raycast_scene m l1 pixel_buffer N M = .error e := by
        rw [hray.1, not_not, ← hcam]
        exact hone
      cases hres : raycast_scene m l1 pixel_buffer N M with
      | error e => exact absurd ⟨e, hres⟩ hnofail
      | ok buf => exact ⟨l1, buf, hmove, hres, by first | exact hres | rfl⟩

/-- The only camera is the second object: neither call of `main` fails. -/
theorem main_render_aborts_iff_witness :
    ([sphere5, camera2] ≠ [])
      ∧ List.countP (fun o => decide (o.kind = 0)) [sphere5, camera2] = 1
      ∧ ∃ (l1 : List (Object ℚ)) (buf : Nat → Vec ℚ),
          move_camera_to_front [sphere5, camera2] = .ok l1
            ∧ raycast_scene exactLibm l1 blackBuffer 1 1 = .ok buf
            ∧ main_render exactLibm [sphere5, camera2] blackBuffer 1 1 = .ok buf := by
  have hne : [sphere5, camera2] ≠ [] := by simp
  have hcount : List.countP (fun o => decide (o.kind = 0)) [sphere5, camera2] = 1 := by
    simp [sphere5, camera2, Object.kind, List.countP_cons]
  exact ⟨hne, hcount,
    (main_render_aborts_iff exactLibm [sphere5, camera2] blackBuffer 1 1 hne).2.2 hcount⟩

end Camera

/-! ## Attenuation and shading -/

section Shading

variable {K : Type} [LinearOrderedField K]

/-- C13: `frad` returns 1 when the distance is 0 (whatever the coefficients), returns 1
when `a0 + a1*d + a2*d^2 = 0`, and returns `1/(a0 + a1*d + a2*d^2)` otherwise, a division by
a non-zero value; with `a0 = 1` and `a1 = a2 = 0` it returns 1 for every distance. -/
theorem frad_cases (b0 b1 b2 : Dbl K) (a0 a1 a2 d : K) :
    frad b0 b1 b2 (fin 0) = fin 1
      ∧ (a0 + a1 * d + a2 * (d * d) = 0 → frad (fin a0) (fin a1) (fin a2) (fin d) = fin 1)
      ∧ (d ≠ 0 → a0 + a1 * d + a2 * (d * d) ≠ 0 →
          frad (fin a0) (fin a1) (fin a2) (fin d) = fin (1 / (a0 + a1 * d + a2 * (d * d))))
      ∧ frad (fin 1) (fin 0) (fin 0) (fin d) = fin 1 := by
  refine ⟨?_, ?_, ?_, ?_⟩
  · simp [frad]
  · intro h
    by_cases hd : d = 0
    · simp [frad, hd]
    · simp [frad, hd, h]
  · intro hd h
    simp [frad, hd, h]
  · by_cases hd : d = 0
    · simp [frad, hd]
    · simp [frad, hd]

/-- Coefficients 1, 1, 1 at distance 1 give 1/3; coefficients 1, -1, 0 at distance 1 have
a zero denominator and give 1. -/
theorem frad_cases_witness :
    frad (K := ℚ) (fin 1) (fin 1) (fin 1) (fin 1) = fin (1 / 3)
      ∧ frad (K := ℚ) (fin 1) (fin (-1)) (fin 0) (fin 1) = fin 1 := by
  have h := frad_cases (K := ℚ) (fin 0) (fin 0) (fin 0) 1 1 1 1
  have h2 := frad_cases (K := ℚ) (fin 0) (fin 0) (fin 0) 1 (-1) 0 1
  refine ⟨?_, h2.2.1 (by norm_num)⟩
  have h3 := h.2.2.1 (by norm_num) (by norm_num)
  norm_num at h3 ⊢
  exact h3

/-- C14: `fang` returns 1 whenever `theta = 0` or `a0 = 0`; and for `theta != 0`,
`a0 != 0` and `c = vO·vL >= cos(theta)` it returns `pow(c, a0)`. -/
theorem fang_cases (m : Libm K) (b0 btheta : Dbl K) (wO wL : Vec K)
    (a0 theta ox oy oz lx ly lz : K) :
    fang m b0 (fin 0) wO wL = fin 1
      ∧ fang m (fin 0) btheta wO wL = fin 1
      ∧ (theta ≠ 0 → a0 ≠ 0 → m.cos theta ≤ ox * lx + oy * ly + oz * lz →
          fang m (fin a0) (fin theta) ⟨fin ox, fin oy, fin oz⟩ ⟨fin lx, fin ly, fin lz⟩
            = m.pow (fin (ox * lx + oy * ly + oz * lz)) (fin a0)) := by
  refine ⟨?_, ?_, ?_⟩
  · simp [fang]
  · simp [fang]
  · intro ht ha hc
    simp [fang, ht, ha, Dbl.cos, not_lt.mpr hc]

/-- A spotlight with `theta = 1` and `a0 = 2`, seen along its axis (`c = 1`): the factor is
`pow(1, 2) = 1`. -/
theorem fang_cases_witness :
    fang spotLibm (fin 2) (fin 1) ⟨fin 0, fin 0, fin 1⟩ ⟨fin 0, fin 0, fin 1⟩
      = spotLibm.pow (fin 1) (fin 2) := by
  have h := (fang_cases spotLibm (fin 0) (fin 0) ⟨fin 0, fin 0, fin 1⟩ ⟨fin 0, fin 0, fin 1⟩
    2 1 0 0 1 0 0 1).2.2 (by norm_num) (by norm_num) (by norm_num [spotLibm, taylorCos])
  norm_num at h
  exact h

/-- C15 fails as stated: with the angular coefficient `a0 = 0` the guard
`theta == 0 || a0 == 0` returns 1 before the cone is looked at, also for `theta = 1 > 0`
and the unit vectors (0,0,1) and (0,0,-1), whose dot product -1 is below `cos(1)`. -/
theorem fang_zero_coefficient_returns_one :
    ((0 : ℚ) * 0 + 0 * 0 + 1 * (-1) < spotLibm.cos 1)
      ∧ fang spotLibm (fin 0) (fin 1) ⟨fin 0, fin 0, fin 1⟩ ⟨fin 0, fin 0, fin (-1)⟩ = fin 1
      ∧ fang spotLibm (fin 0) (fin 1) ⟨fin 0, fin 0, fin 1⟩ ⟨fin 0, fin 0, fin (-1)⟩
          ≠ fin 0 := by
  refine ⟨by norm_num [spotLibm, taylorCos], by simp [fang], ?_⟩
  simp [fang]

/-- C15, amended: for every `theta != 0` (so for every `theta > 0`), every angular
coefficient `a0 != 0` and every pair of vectors whose dot product is less than
`cos(theta)`, `fang` returns 0. -/
theorem fang_outside_cone (m : Libm K) (a0 theta ox oy oz lx ly lz : K)
    (ht : theta ≠ 0) (ha : a0 ≠ 0) (hc : ox * lx + oy * ly + oz * lz < m.cos theta) :
    fang m (fin a0) (fin theta) ⟨fin ox, fin oy, fin oz⟩ ⟨fin lx, fin ly, fin lz⟩
      = fin 0 := by
  simp [fang, ht, ha, Dbl.cos, hc]

/-- A spotlight with `theta = 1` and `a0 = 2`, seen from behind (`c = -1`): the factor
is 0. -/
theorem fang_outside_cone_witness :
    ((1 : ℚ) ≠ 0) ∧ ((2 : ℚ) ≠ 0) ∧ ((0 : ℚ) * 0 + 0 * 0 + 1 * (-1) < spotLibm.cos 1)
      ∧ fang spotLibm (fin 2) (fin 1) ⟨fin 0, fin 0, fin 1⟩ ⟨fin 0, fin 0, fin (-1)⟩
          = fin 0 :=
  ⟨by norm_num, by norm_num, by norm_num [spotLibm, taylorCos],
    fang_outside_cone spotLibm 2 1 0 0 1 0 0 (-1) (by norm_num) (by norm_num)
      (by norm_num [spotLibm, taylorCos])⟩

/-- A finite channel after `if (c < 0) c = 0;`. -/
theorem floor0_fin (x : K) : floor0 (fin x) = fin (max 0 x) := by
  by_cases h : x < 0
  · simp [floor0, h, max_eq_left h.le]
  · simp [floor0, h, max_eq_right (not_lt.mp h)]

theorem max_zero_mul_nonneg (d c i : K) (hc : 0 ≤ c) (hi : 0 ≤ i) :
    max 0 (d * c * i) = max 0 d * c * i := by
  rcases le_total 0 d with hd | hd
  · rw [max_eq_right hd, max_eq_right (mul_nonneg (mul_nonneg hd hc) hi)]
  · rw [max_eq_left hd, zero_mul, zero_mul]
    exact max_eq_left (mul_nonpos_of_nonpos_of_nonneg (mul_nonpos_of_nonpos_of_nonneg hd hc) hi)

/-- C16 fails as stated: the light colour is not clamped and may be negative.  With
`L = (0,0,1)`, `N = (0,0,-1)` (so `L·N = -1 < 0`), `Cd = (1,1,1)` and `Ci = (-1,-1,-1)` the
product `(L·N)*Cd*Ci` is 1, which is not below 0 and is returned, while
`max(0, L·N)*Cd*Ci` is 0. -/
theorem diffuse_negative_light :
    diffuse (K := ℚ) ⟨fin 0, fin 0, fin 1⟩ ⟨fin 0, fin 0, fin (-1)⟩ ⟨fin 1, fin 1, fin 1⟩
        ⟨fin (-1), fin (-1), fin (-1)⟩ = ⟨fin 1, fin 1, fin 1⟩
      ∧ ((0 : ℚ) * 0 + 0 * 0 + 1 * (-1) < 0)
      ∧ max 0 ((0 : ℚ) * 0 + 0 * 0 + 1 * (-1)) * 1 * (-1) = 0 := by
  refine ⟨?_, by norm_num, by norm_num⟩
  norm_num [diffuse, floor0]

/-- C16, amended: each channel `ch` of `diffuse(L,N,Cd,Ci)` equals
`max(0, (L·N) * Cd[ch] * Ci[ch])` (the product is floored, not the dot product); when the
channels of `Cd` and of the light colour `Ci` are not negative, this is
`max(0, L·N) * Cd[ch] * Ci[ch]`, and a surface facing away from the light (`L·N < 0`) then
contributes 0 in every channel. -/
theorem diffuse_channels (lx ly lz nx ny nz d0 d1 d2 i0 i1 i2 : K) :
    diffuse ⟨fin lx, fin ly, fin lz⟩ ⟨fin nx, fin ny, fin nz⟩ ⟨fin d0, fin d1, fin d2⟩
        ⟨fin i0, fin i1, fin i2⟩
        = ⟨fin (max 0 ((lx * nx + ly * ny + lz * nz) * d0 * i0)),
           fin (max 0 ((lx * nx + ly * ny + lz * nz) * d1 * i1)),
           fin (max 0 ((lx * nx + ly * ny + lz * nz) * d2 * i2))⟩
      ∧ (0 ≤ d0 ∧ 0 ≤ d1 ∧ 0 ≤ d2 → 0 ≤ i0 ∧ 0 ≤ i1 ∧ 0 ≤ i2 →
          diffuse ⟨fin lx, fin ly, fin lz⟩ ⟨fin nx, fin ny, fin nz⟩ ⟨fin d0, fin d1, fin d2⟩
              ⟨fin i0, fin i1, fin i2⟩
              = ⟨fin (max 0 (lx * nx + ly * ny + lz * nz) * d0 * i0),
                 fin (max 0 (lx * nx + ly * ny + lz * nz) * d1 * i1),
                 fin (max 0 (lx * nx + ly * ny + lz * nz) * d2 * i2)⟩
            ∧ (lx * nx + ly * ny + lz * nz < 0 →
              diffuse ⟨fin lx, fin ly, fin lz⟩ ⟨fin nx, fin ny, fin nz⟩
                  ⟨fin d0, fin d1, fin d2⟩ ⟨fin i0, fin i1, fin i2⟩
                = ⟨fin 0, fin 0, fin 0⟩)) := by
  have hgen : diffuse ⟨fin lx, fin ly, fin lz⟩ ⟨fin nx, fin ny, fin nz⟩
      ⟨fin d0, fin d1, fin d2⟩ ⟨fin i0, fin i1, fin i2⟩
      = ⟨fin (max 0 ((lx * nx + ly * ny + lz * nz) * d0 * i0)),
         fin (max 0 ((lx * nx + ly * ny + lz * nz) * d1 * i1)),
         fin (max 0 ((lx * nx + ly * ny + lz * nz) * d2 * i2))⟩ := by
    simp only [diffuse, fin_mul, fin_add, floor0_fin]
  refine ⟨hgen, ?_⟩
  rintro ⟨hd0, hd1, hd2⟩ ⟨hi0, hi1, hi2⟩
  have hpos : diffuse ⟨fin lx, fin ly, fin lz⟩ ⟨fin nx, fin ny, fin nz⟩
      ⟨fin d0, fin d1, fin d2⟩ ⟨fin i0, fin i1, fin i2⟩
      = ⟨fin (max 0 (lx * nx + ly * ny + lz * nz) * d0 * i0),
         fin (max 0 (lx * nx + ly * ny + lz * nz) * d1 * i1),
         fin (max 0 (lx * nx + ly * ny + lz * nz) * d2 * i2)⟩ := by
    rw [hgen, max_zero_mul_nonneg _ _ _ hd0 hi0, max_zero_mul_nonneg _ _ _ hd1 hi1,
      max_zero_mul_nonneg _ _ _ hd2 hi2]
  refine ⟨hpos, fun hneg => ?_⟩
  rw [hpos, max_eq_left hneg.le]
  simp

/-- A white surface facing a white light at 60 degrees (`L·N = 1/2`): every channel is
1/2. -/
theorem diffuse_channels_witness :
    diffuse (K := ℚ) ⟨fin 0, fin 0, fin (1 / 2)⟩ ⟨fin 0, fin 0, fin 1⟩ ⟨fin 1, fin 1, fin 1⟩
        ⟨fin 1, fin 1, fin 1⟩ = ⟨fin (1 / 2), fin (1 / 2), fin (1 / 2)⟩ := by
  have h := ((diffuse_channels (K := ℚ) 0 0 (1 / 2) 0 0 1 1 1 1 1 1 1).2
    ⟨by norm_num, by norm_num, by norm_num⟩ ⟨by norm_num, by norm_num, by norm_num⟩).1
  norm_num at h
  exact h

/-- C17: `specular` returns black (0,0,0) when `N·L <= 0` or `R·V <= 0`; otherwise each
channel `ch` equals `max(0, (R·V)^20 * Cs[ch] * Ci[ch])`; in every case every channel of the
result is `>= 0`.  The function `pow` is taken to return the 20th power `(R·V)^20`. -/
theorem specular_cases (m : Libm K) (rx ry rz vx vy vz s0 s1 s2 i0 i1 i2 nx ny nz lx ly lz : K)
    (hpow : m.pow (fin (rx * vx + ry * vy + rz * vz)) (fin 20)
      = fin ((rx * vx + ry * vy + rz * vz) ^ 20)) :
    (nx * lx + ny * ly + nz * lz ≤ 0 ∨ rx * vx + ry * vy + rz * vz ≤ 0 →
        specular m ⟨fin rx, fin ry, fin rz⟩ ⟨fin vx, fin vy, fin vz⟩ ⟨fin s0, fin s1, fin s2⟩
          ⟨fin i0, fin i1, fin i2⟩ ⟨fin nx, fin ny, fin nz⟩ ⟨fin lx, fin ly, fin lz⟩
          = ⟨fin 0, fin 0, fin 0⟩)
      ∧ (0 < nx * lx + ny * ly + nz * lz → 0 < rx * vx + ry * vy + rz * vz →
        specular m ⟨fin rx, fin ry, fin rz⟩ ⟨fin vx, fin vy, fin vz⟩ ⟨fin s0, fin s1, fin s2⟩
          ⟨fin i0, fin i1, fin i2⟩ ⟨fin nx, fin ny, fin nz⟩ ⟨fin lx, fin ly, fin lz⟩
          = ⟨fin (max 0 ((rx * vx + ry * vy + rz * vz) ^ 20 * s0 * i0)),
             fin (max 0 ((rx * vx + ry * vy + rz * vz) ^ 20 * s1 * i1)),
             fin (max 0 ((rx * vx + ry * vy + rz * vz) ^ 20 * s2 * i2))⟩)
      ∧ (∃ q0 q1 q2 : K,
          specular m ⟨fin rx, fin ry, fin rz⟩ ⟨fin vx, fin vy, fin vz⟩
            ⟨fin s0, fin s1, fin s2⟩ ⟨fin i0, fin i1, fin i2⟩ ⟨fin nx, fin ny, fin nz⟩
            ⟨fin lx, fin ly, fin lz⟩ = ⟨fin q0, fin q1, fin q2⟩
          ∧ 0 ≤ q0 ∧ 0 ≤ q1 ∧ 0 ≤ q2) := by
  have hblack : nx * lx + ny * ly + nz * lz ≤ 0 ∨ rx * vx + ry * vy + rz * vz ≤ 0 →
      specular m ⟨fin rx, fin ry, fin rz⟩ ⟨fin vx, fin vy, fin vz⟩ ⟨fin s0, fin s1, fin s2⟩
        ⟨fin i0, fin i1, fin i2⟩ ⟨fin nx, fin ny, fin nz⟩ ⟨fin lx, fin ly, fin lz⟩
        = ⟨fin 0, fin 0, fin 0⟩ := by
    intro h
    simp only [specular, fin_mul, fin_add, le_fin, Bool.or_eq_true, decide_eq_true_eq, h,
      if_true]
  have hlit : 0 < nx * lx + ny * ly + nz * lz → 0 < rx * vx + ry * vy + rz * vz →
      specular m ⟨fin rx, fin ry, fin rz⟩ ⟨fin vx, fin vy, fin vz⟩ ⟨fin s0, fin s1, fin s2⟩
        ⟨fin i0, fin i1, fin i2⟩ ⟨fin nx, fin ny, fin nz⟩ ⟨fin lx, fin ly, fin lz⟩
        = ⟨fin (max 0 ((rx * vx + ry * vy + rz * vz) ^ 20 * s0 * i0)),
           fin (max 0 ((rx * vx + ry * vy + rz * vz) ^ 20 * s1 * i1)),
           fin (max 0 ((rx * vx + ry * vy + rz * vz) ^ 20 * s2 * i2))⟩ := by
    intro h1 h2
    have hn : ¬ (nx * lx + ny * ly + nz * lz ≤ 0 ∨ rx * vx + ry * vy + rz * vz ≤ 0) := by
      rintro (h | h)
      · exact absurd h1 (not_lt.mpr h)
      · exact absurd h2 (not_lt.mpr h)
    simp only [specular, fin_mul, fin_add, le_fin, Bool.or_eq_true, decide_eq_true_eq, hn,
      if_false, hpow, floor0_fin]
  refine ⟨hblack, hlit, ?_⟩
  by_cases h : nx * lx + ny * ly + nz * lz ≤ 0 ∨ rx * vx + ry * vy + rz * vz ≤ 0
  · exact ⟨0, 0, 0, hblack h, le_refl 0, le_refl 0, le_refl 0⟩
  · rw [not_or, not_le, not_le] at h
    exact ⟨_, _, _, hlit h.1 h.2, le_max_left _ _, le_max_left _ _, le_max_left _ _⟩

theorem exactLibm_pow_nat (a : ℚ) (n : Nat) :
    exactLibm.pow (fin a) (fin (n : ℚ)) = fin (a ^ n) := by
  simp [exactLibm]

/-- A mirror reflection seen head-on (`R·V = 1`, `N·L = 1`) on a white surface under a
white light: every channel is `1^20 * 1 * 1 = 1`. -/
theorem specular_cases_witness :
    specular exactLibm ⟨fin 0, fin 0, fin 1⟩ ⟨fin 0, fin 0, fin 1⟩ ⟨fin 1, fin 1, fin 1⟩
        ⟨fin 1, fin 1, fin 1⟩ ⟨fin 0, fin 0, fin 1⟩ ⟨fin 0, fin 0, fin 1⟩
      = ⟨fin 1, fin 1, fin 1⟩ := by
  have hp : exactLibm.pow (fin ((0 : ℚ) * 0 + 0 * 0 + 1 * 1)) (fin 20)
      = fin (((0 : ℚ) * 0 + 0 * 0 + 1 * 1) ^ 20) := by
    have h := exactLibm_pow_nat ((0 : ℚ) * 0 + 0 * 0 + 1 * 1) 20
    norm_num at h ⊢
    exact h
  have h := (specular_cases exactLibm 0 0 1 0 0 1 1 1 1 1 1 1 0 0 1 0 0 1 hp).2.1
    (by norm_num) (by norm_num)
  norm_num at h
  exact h

end Shading

/-! ## The camera ray -/

section CameraRay

variable {K : Type} [LinearOrderedField K]

end CameraRay

/-! ## The uniqueness of the camera -/

section CameraUnique

variable {K : Type}

/-- C20: `move_camera_to_front` fails, by `exit(1)`, if and only if the object list
contains more than one camera, wherever the cameras are. -/
theorem move_camera_to_front_fails_iff (object_array : List (Object K)) :
    ((∃ f : Fault, move_camera_to_front object_array = .error f)
        ↔ 1 < List.countP (fun o => decide (o.kind = 0)) object_array)
      ∧ (∀ f : Fault, move_camera_to_front object_array = .error f → f = Fault.exit1) := by
  have hspec := move_camera_to_front_spec object_array
  rcases Nat.lt_or_ge 1
      (List.countP (fun o : Object K => decide (o.kind = 0)) object_array) with h2 | h1
  · have hmove := hspec.1 h2
    rw [hmove]
    refine ⟨⟨fun _ => h2, fun _ => ⟨_, rfl⟩⟩, ?_⟩
    intro f hf
    injection hf with hf
    exact hf.symm
  · obtain ⟨l1, hmove, -, -⟩ := hspec.2 h1
    rw [hmove]
    refine ⟨⟨fun ⟨f, hf⟩ => Except.noConfusion hf, fun h => by omega⟩, ?_⟩
    intro f hf
    exact Except.noConfusion hf

/-- Two cameras with a sphere between them: the call exits. -/
theorem move_camera_to_front_fails_iff_witness :
    move_camera_to_front [camera2, sphere5, camera2] = .error Fault.exit1 := by
  obtain ⟨f, hf⟩ := (move_camera_to_front_fails_iff [camera2, sphere5, camera2]).1.mpr
    (by simp [camera2, sphere5, Object.kind, List.countP_cons])
  rw [hf, (move_camera_to_front_fails_iff [camera2, sphere5, camera2]).2 f hf]

end CameraUnique

/-! ## An object at the distance of the light -/

section AtLight

variable {K : Type} [LinearOrderedField K]

theorem not_gt_zero_of_le (t : Dbl K) (h : Dbl.le t (fin 0) = true) :
    Dbl.gt t (fin 0) = false := by
  cases t with
  | fin q =>
    simp only [le_fin, decide_eq_true_eq] at h
    simp only [gt_fin, decide_eq_false_iff_not, not_lt]
    exact h
  | pinf => simp [Dbl.le] at h
  | ninf => rfl
  | nan => simp at h

theorem not_lt_of_gt (t d : Dbl K) (h : Dbl.gt t d = true) : Dbl.lt t d = false := by
  cases t <;> cases d <;> simp [Dbl.gt, Dbl.lt] at h ⊢
  exact le_of_lt h

/-- When every object of `rest` other than the one at `best_index` either gives no hit
(`t <= 0`) or is strictly behind the light (`t > 0` and `t > distance_from_light`), the
shadow loop, entered with `t <= 0`, ends with `t <= 0`. -/
theorem shadow_loop_clear (m : Libm K) (Ron Rdn : Vec K) (dist : Dbl K) (best_index : Nat) :
    ∀ (rest : List (Object K)) (k : Nat) (t0 : Dbl K), Dbl.le t0 (fin 0) = true →
      (∀ (i : Nat) (o : Object K) (t : Dbl K), rest[i]? = some o → k + i ≠ best_index →
        object_t m Ron Rdn o = some t →
        Dbl.le t (fin 0) = true ∨ (Dbl.gt t (fin 0) = true ∧ Dbl.gt t dist = true)) →
      Dbl.le (shadow_loop m Ron Rdn dist best_index rest k t0) (fin 0) = true := by
  intro rest
  induction rest with
  | nil =>
    intro k t0 h0 _
    exact h0
  | cons o rest ih =>
    intro k t0 h0 hall
    have hrest : ∀ (i : Nat) (o1 : Object K) (t : Dbl K), rest[i]? = some o1 →
        k + 1 + i ≠ best_index → object_t m Ron Rdn o1 = some t →
        Dbl.le t (fin 0) = true ∨ (Dbl.gt t (fin 0) = true ∧ Dbl.gt t dist = true) := by
      intro i o1 t hget hne ht
      exact hall (i + 1) o1 t (by simpa using hget) (by omega) ht
    by_cases hk : k = best_index
    · have hstep : shadow_loop m Ron Rdn dist best_index (o :: rest) k t0
          = shadow_loop m Ron Rdn dist best_index rest (k + 1) t0 := by
        simp only [shadow_loop, hk, if_true]
      rw [hstep]
      exact ih (k + 1) t0 h0 hrest
    · cases hobj : object_t m Ron Rdn o with
      | none =>
        have hstep : shadow_loop m Ron Rdn dist best_index (o :: rest) k t0
            = shadow_loop m Ron Rdn dist best_index rest (k + 1) t0 := by
          simp only [shadow_loop, hk, if_false, hobj]
        rw [hstep]
        exact ih (k + 1) t0 h0 hrest
      | some t1 =>
        rcases hall 0 o t1 (by simp) (by simpa using hk) hobj with hle | ⟨hpos, hbeh⟩
        · have hnpos : Dbl.gt t1 (fin 0) = false := not_gt_zero_of_le t1 hle
          have hstep : shadow_loop m Ron Rdn dist best_index (o :: rest) k t0
              = shadow_loop m Ron Rdn dist best_index rest (k + 1) t1 := by
            simp only [shadow_loop, hk, if_false, hobj, hnpos, Bool.false_and,
              Bool.false_eq_true]
          rw [hstep]
          exact ih (k + 1) t1 hle hrest
        · have hnlt : Dbl.lt t1 dist = false := not_lt_of_gt t1 dist hbeh
          have hstep : shadow_loop m Ron Rdn dist best_index (o :: rest) k t0
              = shadow_loop m Ron Rdn dist best_index rest (k + 1) (fin 0) := by
            simp only [shadow_loop, hk, if_false, hobj, hpos, hbeh, hnlt, Bool.and_false,
              Bool.and_self, Bool.false_eq_true, if_true]
          rw [hstep]
          exact ih (k + 1) (fin 0) (by simp) hrest

theorem lightBehind_distance :
    calculate_distance exactLibm ⟨fin 0 - fin 0, fin 0 - fin 0, fin (-5) - fin 5⟩
      = fin 10 := by
  norm_num [calculate_distance, exactLibm_sqrt_hundred]

theorem lightBehind_direction :
    normalize exactLibm ⟨fin 0 - fin 0, fin 0 - fin 0, fin (-5) - fin 5⟩
      = ⟨fin 0, fin 0, fin (-1)⟩ := by
  norm_num [normalize, exactLibm_sqrt_hundred]

theorem object_t_sphereAtLight :
    object_t exactLibm ⟨fin 0, fin 0, fin 5⟩ ⟨fin 0, fin 0, fin (-1)⟩ sphereAtLight
      = some (fin 10) := by
  have h := sphere_intersection_fin exactLibm 0 0 5 0 0 (-1) 0 0 (-6) 1 (by norm_num)
  norm_num [exactLibm_sqrt_four] at h
  simp only [object_t, sphereAtLight, h]

theorem object_t_occluder_miss :
    object_t exactLibm ⟨fin 0, fin 0, fin 5⟩ ⟨fin 0, fin 0, fin (-1)⟩ occluder
      = some (fin 0) := by
  have h := sphere_intersection_fin exactLibm 0 0 5 0 0 (-1) 0 5 4 1 (by norm_num)
  norm_num at h
  simp only [object_t, occluder, h]

theorem object_t_lightBehind (Ro Rd : Vec ℚ) : object_t exactLibm Ro Rd lightBehind = none :=
  rfl

/-- The shadow loop for `lightBehind` with the sphere at the distance of the light as the
last sphere: `t` is left at 10. -/
theorem shadow_loop_touch :
    shadow_loop exactLibm ⟨fin 0, fin 0, fin 5⟩ ⟨fin 0, fin 0, fin (-1)⟩ (fin 10) 1
      [plane5, sphereAtLight, lightBehind] 1 (fin 0) = fin 10 := by
  simp [shadow_loop, object_t_sphereAtLight, object_t_lightBehind]

/-- The same loop with a sphere that the probe ray misses after it: `t` ends at 0. -/
theorem shadow_loop_touch_then_miss :
    shadow_loop exactLibm ⟨fin 0, fin 0, fin 5⟩ ⟨fin 0, fin 0, fin (-1)⟩ (fin 10) 1
      [plane5, sphereAtLight, occluder, lightBehind] 1 (fin 0) = fin 0 := by
  simp [shadow_loop, object_t_sphereAtLight, object_t_occluder_miss, object_t_lightBehind]

theorem hit_point_plane5 :
    (⟨fin 5 * zAxis.c0 + origin.c0, fin 5 * zAxis.c1 + origin.c1,
      fin 5 * zAxis.c2 + origin.c2⟩ : Vec ℚ) = ⟨fin 0, fin 0, fin 5⟩ := by
  norm_num [zAxis, origin]

/-- With the sphere at the distance of the light as the last sphere, `lightBehind` adds
nothing to the colour. -/
theorem render_light_body_touch (color : Vec ℚ) :
    render_light_body exactLibm [camera2, plane5, sphereAtLight, lightBehind] (fin 5) 1 zAxis
      ⟨fin 0, fin 0, fin 5⟩ color lightBehind = .ok color := by
  show render_light_body exactLibm [camera2, plane5, sphereAtLight, lightBehind] (fin 5) 1
    zAxis ⟨fin 0, fin 0, fin 5⟩ color
    (Object.light white ⟨fin 0, fin 0, fin (-5)⟩ ⟨fin 0, fin 0, fin 1⟩ (fin 0) (fin 0) (fin 1)
      (fin 0) (fin 0)) = .ok color
  simp only [render_light_body, lightBehind_distance, lightBehind_direction, List.tail_cons,
    shadow_loop_touch]
  norm_num

/-- With a sphere that the probe ray misses after it, `lightBehind` adds (2,2,2). -/
theorem render_light_body_touch_then_miss :
    render_light_body exactLibm [camera2, plane5, sphereAtLight, occluder, lightBehind] (fin 5)
      1 zAxis ⟨fin 0, fin 0, fin 5⟩ ⟨fin 0, fin 0, fin 0⟩ lightBehind
      = .ok ⟨fin 2, fin 2, fin 2⟩ := by
  show render_light_body exactLibm [camera2, plane5, sphereAtLight, occluder, lightBehind]
    (fin 5) 1 zAxis ⟨fin 0, fin 0, fin 5⟩ ⟨fin 0, fin 0, fin 0⟩
    (Object.light white ⟨fin 0, fin 0, fin (-5)⟩ ⟨fin 0, fin 0, fin 1⟩ (fin 0) (fin 0) (fin 1)
      (fin 0) (fin 0)) = .ok ⟨fin 2, fin 2, fin 2⟩
  have hp : exactLibm.pow (fin 1) (fin 20) = fin 1 := by
    have h := exactLibm_pow_nat 1 20
    norm_num at h
    exact h
  simp only [render_light_body, lightBehind_distance, lightBehind_direction, List.tail_cons,
    shadow_loop_touch_then_miss]
  norm_num [plane5, white, zAxis, reflect, diffuse, specular, add_light, floor0, frad, fang,
    hp]

/-- The camera ray of the scene hits `plane5` at distance 5 and misses `sphereAtLight`. -/
theorem nearest_loop_touch :
    nearest_loop exactLibm origin zAxis [camera2, plane5, sphereAtLight, lightBehind].tail 1
      (pinf, none) = (fin 5, some 1) := by
  have hs : object_t exactLibm origin zAxis sphereAtLight = some (fin 0) := by
    have h := sphere_intersection_fin exactLibm 0 0 0 0 0 1 0 0 (-6) 1 (by norm_num)
    norm_num [exactLibm_sqrt_four] at h
    simp only [object_t, sphereAtLight, origin, zAxis, h]
  simp only [List.tail_cons, nearest_loop, object_t_plane5, hs, object_t_lightBehind]
  simp [Dbl.lt, Dbl.gt]

/-- An object that is not a light leaves the colour alone in the loop of `render_light`. -/
theorem render_light_body_not_light (m : Libm K) (object_array : List (Object K))
    (best_t : Dbl K) (best_index : Nat) (Rd Ron color : Vec K) (o : Object K)
    (h : o.kind ≠ 3) :
    render_light_body m object_array best_t best_index Rd Ron color o = .ok color := by
  cases o with
  | camera _ _ => rfl
  | sphere _ _ _ _ => rfl
  | plane _ _ _ _ => rfl
  | light _ _ _ _ _ _ _ _ => exact absurd rfl h

/-- C11 is not what the code does when an object lies exactly at the distance of the
light.  In the scene camera, `plane5`, `sphereAtLight`, `lightBehind` the camera ray
(0,0,1) hits the plane at (0,0,5), at index 1; the light is at distance 10 from there and the only other
sphere meets the probe ray at `t = 10`, at the light and not before it.  Neither
`t < distance_from_light` nor `t > distance_from_light` holds, `t` keeps the value 10, the
test `t <= 0` fails and the light is skipped: the colour is black.  With one more sphere
after it that the probe ray misses, `t` is overwritten by 0 and the same light gives
white. -/
theorem object_at_light_distance_shadows :
    nearest_loop exactLibm origin zAxis [camera2, plane5, sphereAtLight, lightBehind].tail 1
        (pinf, none) = (fin 5, some 1)
      ∧ calculate_distance exactLibm ⟨fin 0 - fin 0, fin 0 - fin 0, fin (-5) - fin 5⟩ = fin 10
      ∧ object_t exactLibm ⟨fin 0, fin 0, fin 5⟩ ⟨fin 0, fin 0, fin (-1)⟩ sphereAtLight
          = some (fin 10)
      ∧ render_light exactLibm [camera2, plane5, sphereAtLight, lightBehind] (fin 5) 1 origin
          zAxis = .ok ⟨fin 0, fin 0, fin 0⟩
      ∧ render_light exactLibm [camera2, plane5, sphereAtLight, occluder, lightBehind] (fin 5)
          1 origin zAxis = .ok ⟨fin 1, fin 1, fin 1⟩ := by
  have hplane : ∀ (l : List (Object ℚ)) (color : Vec ℚ),
      render_light_body exactLibm l (fin 5) 1 zAxis ⟨fin 0, fin 0, fin 5⟩ color plane5
        = .ok color :=
    fun l color => render_light_body_not_light exactLibm l _ _ _ _ color plane5
      (by simp [plane5, Object.kind])
  have hsphere : ∀ (l : List (Object ℚ)) (color : Vec ℚ),
      render_light_body exactLibm l (fin 5) 1 zAxis ⟨fin 0, fin 0, fin 5⟩ color sphereAtLight
        = .ok color :=
    fun l color => render_light_body_not_light exactLibm l _ _ _ _ color sphereAtLight
      (by simp [sphereAtLight, Object.kind])
  have hocc : ∀ (l : List (Object ℚ)) (color : Vec ℚ),
      render_light_body exactLibm l (fin 5) 1 zAxis ⟨fin 0, fin 0, fin 5⟩ color occluder
        = .ok color :=
    fun l color => render_light_body_not_light exactLibm l _ _ _ _ color occluder
      (by simp [occluder, Object.kind])
  refine ⟨nearest_loop_touch, lightBehind_distance, object_t_sphereAtLight, ?_, ?_⟩
  · simp only [render_light, hit_point_plane5, List.tail_cons, render_light_loop, hplane,
      hsphere, render_light_body_touch]
    simp [clamp]
  · simp only [render_light, hit_point_plane5, List.tail_cons, render_light_loop, hplane,
      hsphere, hocc, render_light_body_touch_then_miss]
    norm_num [clamp]

end AtLight

/-! ## The loop of `render_light` and the formula -/

section FormulaProof

variable {K : Type} [LinearOrderedField K]

theorem dbl_add_comm (a b : Dbl K) : a + b = b + a := by
  cases a <;> cases b <;> first | rfl | exact congrArg fin (add_comm _ _)

/-- The order `<` of the C comparison is transitive. -/
theorem dbl_lt_trans (a b c : Dbl K) (h1 : Dbl.lt a b = true) (h2 : Dbl.lt b c = true) :
    Dbl.lt a c = true := by
  cases a <;> cases b <;> cases c <;> simp [Dbl.lt] at h1 h2 ⊢
  exact lt_trans h1 h2

/-- Two positive distances of which the first is not below the second: the second is
below whatever the first is below. -/
theorem dbl_lt_of_not_lt (t b d : Dbl K) (hb : Dbl.gt b (fin 0) = true)
    (hnot : Dbl.lt t b = false) (hd : Dbl.lt t d = true) : Dbl.lt b d = true := by
  cases t <;> cases b <;> cases d <;> simp [Dbl.lt, Dbl.gt] at hb hnot hd ⊢
  exact lt_of_le_of_lt hnot hd

/-- The scan of `spec_nearest_hit`: the retained distance is positive, and it is below `d`
exactly when the running best was, or some scanned object that is not excluded has a
positive distance below `d`. -/
theorem spec_nearest_hit_lt (m : Libm K) (Ro Rd : Vec K) (exclude : Option Nat) (d : Dbl K) :
    ∀ (list : List (Object K)) (k : Nat) (best : Option (Dbl K)),
      (∀ b : Dbl K, best = some b → Dbl.gt b (fin 0) = true) →
      (∀ b : Dbl K, spec_nearest_hit m Ro Rd exclude list k best = some b →
          Dbl.gt b (fin 0) = true)
        ∧ ((∃ b : Dbl K, spec_nearest_hit m Ro Rd exclude list k best = some b
              ∧ Dbl.lt b d = true)
          ↔ ((∃ b : Dbl K, best = some b ∧ Dbl.lt b d = true)
            ∨ ∃ (i : Nat) (o : Object K) (t : Dbl K), list[i]? = some o
                ∧ some (k + i) ≠ exclude ∧ object_t m Ro Rd o = some t
                ∧ Dbl.gt t (fin 0) = true ∧ Dbl.lt t d = true)) := by
  intro list
  induction list with
  | nil =>
    intro k best hinv
    refine ⟨fun b hb => hinv b hb, ?_⟩
    constructor
    · intro hb
      exact Or.inl hb
    · rintro (hb | ⟨i, o, t, hget, -⟩)
      · exact hb
      · simp at hget
  | cons o rest ih =>
    intro k best hinv
    have hshift : (∃ (i : Nat) (o1 : Object K) (t : Dbl K), (o :: rest)[i]? = some o1
          ∧ some (k + i) ≠ exclude ∧ object_t m Ro Rd o1 = some t
          ∧ Dbl.gt t (fin 0) = true ∧ Dbl.lt t d = true)
        ↔ ((some k ≠ exclude ∧ ∃ t : Dbl K, object_t m Ro Rd o = some t
              ∧ Dbl.gt t (fin 0) = true ∧ Dbl.lt t d = true)
          ∨ ∃ (i : Nat) (o1 : Object K) (t : Dbl K), rest[i]? = some o1
              ∧ some (k + 1 + i) ≠ exclude ∧ object_t m Ro Rd o1 = some t
              ∧ Dbl.gt t (fin 0) = true ∧ Dbl.lt t d = true) := by
      constructor
      · rintro ⟨i, o1, t, hget, hne, ht, hpos, hlt⟩
        cases i with
        | zero =>
          simp only [List.getElem?_cons_zero, Option.some.injEq] at hget
          subst hget
          exact Or.inl ⟨hne, t, ht, hpos, hlt⟩
        | succ i =>
          simp only [List.getElem?_cons_succ] at hget
          refine Or.inr ⟨i, o1, t, hget, ?_, ht, hpos, hlt⟩
          have e : k + 1 + i = k + (i + 1) := by omega
          rw [e]
          exact hne
      · rintro (⟨hne, t, ht, hpos, hlt⟩ | ⟨i, o1, t, hget, hne, ht, hpos, hlt⟩)
        · exact ⟨0, o, t, List.getElem?_cons_zero, hne, ht, hpos, hlt⟩
        · refine ⟨i + 1, o1, t, by rw [List.getElem?_cons_succ]; exact hget, ?_, ht, hpos,
            hlt⟩
          have e : k + (i + 1) = k + 1 + i := by omega
          rw [e]
          exact hne
    rw [hshift]
    by_cases hex : some k = exclude
    · have hstep : spec_nearest_hit m Ro Rd exclude (o :: rest) k best
          = spec_nearest_hit m Ro Rd exclude rest (k + 1) best := by
        simp only [spec_nearest_hit, hex, if_true]
      rw [hstep]
      refine ⟨(ih (k + 1) best hinv).1, ?_⟩
      rw [(ih (k + 1) best hinv).2]
      constructor
      · rintro (hb | hr)
        · exact Or.inl hb
        · exact Or.inr (Or.inr hr)
      · rintro (hb | ⟨hne, -⟩ | hr)
        · exact Or.inl hb
        · exact absurd hex hne
        · exact Or.inr hr
    · cases hobj : object_t m Ro Rd o with
      | none =>
        have hstep : spec_nearest_hit m Ro Rd exclude (o :: rest) k best
            = spec_nearest_hit m Ro Rd exclude rest (k + 1) best := by
          simp only [spec_nearest_hit, hex, if_false, hobj]
        rw [hstep]
        refine ⟨(ih (k + 1) best hinv).1, ?_⟩
        rw [(ih (k + 1) best hinv).2]
        constructor
        · rintro (hb | hr)
          · exact Or.inl hb
          · exact Or.inr (Or.inr hr)
        · rintro (hb | ⟨-, t, ht, -⟩ | hr)
          · exact Or.inl hb
          · exact Option.noConfusion ht
          · exact Or.inr hr
      | some t =>
        by_cases hacc : (Dbl.gt t (fin 0) && spec_improves t best) = true
        · have hstep : spec_nearest_hit m Ro Rd exclude (o :: rest) k best
              = spec_nearest_hit m Ro Rd exclude rest (k + 1) (some t) := by
            simp only [spec_nearest_hit, hex, if_false, hobj, hacc, if_true]
          rw [hstep]
          simp only [Bool.and_eq_true] at hacc
          have hinv1 : ∀ b : Dbl K, some t = some b → Dbl.gt b (fin 0) = true := by
            intro b hb
            injection hb with hb
            rw [← hb]
            exact hacc.1
          refine ⟨(ih (k + 1) (some t) hinv1).1, ?_⟩
          rw [(ih (k + 1) (some t) hinv1).2]
          constructor
          · rintro (⟨b, hb, hlt⟩ | hr)
            · injection hb with hb
              rw [← hb] at hlt
              exact Or.inr (Or.inl ⟨hex, t, rfl, hacc.1, hlt⟩)
            · exact Or.inr (Or.inr hr)
          · rintro (⟨b, hb, hlt⟩ | ⟨-, t1, ht1, -, hlt1⟩ | hr)
            · subst hb
              exact Or.inl ⟨t, rfl, dbl_lt_trans t b d hacc.2 hlt⟩
            · injection ht1 with ht1
              rw [← ht1] at hlt1
              exact Or.inl ⟨t, rfl, hlt1⟩
            · exact Or.inr hr
        · have hstep : spec_nearest_hit m Ro Rd exclude (o :: rest) k best
              = spec_nearest_hit m Ro Rd exclude rest (k + 1) best := by
            simp only [spec_nearest_hit, hex, if_false, hobj, hacc, Bool.false_eq_true]
          rw [hstep]
          refine ⟨(ih (k + 1) best hinv).1, ?_⟩
          rw [(ih (k + 1) best hinv).2]
          constructor
          · rintro (hb | hr)
            · exact Or.inl hb
            · exact Or.inr (Or.inr hr)
          · rintro (hb | ⟨-, t1, ht1, hpos1, hlt1⟩ | hr)
            · exact Or.inl hb
            · injection ht1 with ht1
              subst ht1
              cases best with
              | none =>
                simp only [hpos1, spec_improves, Bool.and_self, not_true_eq_false] at hacc
              | some b =>
                simp only [hpos1, spec_improves, Bool.true_and, Bool.not_eq_true] at hacc
                exact Or.inl ⟨b, rfl, dbl_lt_of_not_lt t b d (hinv b rfl) hacc hlt1⟩
            · exact Or.inr hr

/-- The shadow of the specification: the point is in shadow exactly when an object other
than the owner has a positive distance on the probe ray that is below the distance to the
light. -/
theorem spec_shadowed_iff (m : Libm K) (object_array : List (Object K)) (owner : Nat)
    (P toward : Vec K) (d : Dbl K) :
    spec_shadowed m object_array owner P toward d = true
      ↔ ∃ (i : Nat) (o : Object K) (t : Dbl K), object_array[i]? = some o ∧ i ≠ owner
          ∧ object_t m P toward o = some t ∧ Dbl.gt t (fin 0) = true
          ∧ Dbl.lt t d = true := by
  have h := (spec_nearest_hit_lt m P toward (some owner) d object_array 0 none
    (fun b hb => Option.noConfusion hb)).2
  have hleft : spec_shadowed m object_array owner P toward d = true
      ↔ ∃ b : Dbl K, spec_nearest_hit m P toward (some owner) object_array 0 none = some b
          ∧ Dbl.lt b d = true := by
    unfold spec_shadowed
    cases spec_nearest_hit m P toward (some owner) object_array 0 none with
    | none => simp
    | some b => simp
  rw [hleft, h]
  constructor
  · rintro (⟨b, hb, -⟩ | ⟨i, o, t, hget, hne, hrest⟩)
    · exact Option.noConfusion hb
    · refine ⟨i, o, t, hget, ?_, hrest⟩
      intro hi
      apply hne
      rw [hi, Nat.zero_add]
  · rintro ⟨i, o, t, hget, hne, hrest⟩
    refine Or.inr ⟨i, o, t, hget, ?_, hrest⟩
    intro hi
    apply hne
    rw [Nat.zero_add] at hi
    exact Option.some.inj hi

/-- The shadow loop of the source and the shadow of the specification give the same
verdict when the object at index 0 has no intersection (it is the camera) and every other
object than the owner has, on the probe ray, a distance that is `<= 0`, or positive and
below the distance to the light, or positive and above it: a distance that is equal to
the distance to the light, or `NaN`, is excluded. -/
theorem shadow_loop_agrees (m : Libm K) (object_array : List (Object K)) (best_index : Nat)
    (P toward : Vec K) (d : Dbl K)
    (h0 : ∀ o : Object K, object_array[0]? = some o → object_t m P toward o = none)
    (hclean : ∀ (i : Nat) (o : Object K) (t : Dbl K), object_array[i]? = some o →
      i ≠ best_index → object_t m P toward o = some t →
      Dbl.le t (fin 0) = true ∨ (Dbl.gt t (fin 0) = true ∧ Dbl.lt t d = true)
        ∨ (Dbl.gt t (fin 0) = true ∧ Dbl.gt t d = true)) :
    Dbl.le (shadow_loop m P toward d best_index object_array.tail 1 (fin 0)) (fin 0)
      = !spec_shadowed m object_array best_index P toward d := by
  by_cases hocc : ∃ (i : Nat) (o : Object K) (t : Dbl K), object_array[i]? = some o
      ∧ i ≠ best_index ∧ object_t m P toward o = some t ∧ Dbl.gt t (fin 0) = true
      ∧ Dbl.lt t d = true
  · rw [(spec_shadowed_iff m object_array best_index P toward d).mpr hocc]
    obtain ⟨i, o, t, hget, hne, ht, hpos, hlt⟩ := hocc
    cases i with
    | zero =>
      rw [h0 o hget] at ht
      exact Option.noConfusion ht
    | succ i =>
      have hget1 : object_array.tail[i]? = some o := by
        rw [tail_getElem]
        exact hget
      have hs := shadow_loop_occluded m P toward d best_index object_array.tail 1 (fin 0)
        ⟨i, o, t, hget1, by omega, ht, hpos, hlt⟩
      rw [not_le_zero_of_gt _ hs.1]
      rfl
  · have hns : spec_shadowed m object_array best_index P toward d = false := by
      rw [Bool.eq_false_iff]
      intro hsh
      exact hocc ((spec_shadowed_iff m object_array best_index P toward d).mp hsh)
    rw [hns]
    have hs := shadow_loop_clear m P toward d best_index object_array.tail 1 (fin 0)
      (by simp) (by
        intro i o t hget hne ht
        have hget1 : object_array[i + 1]? = some o := by
          rw [← tail_getElem]
          exact hget
        rcases hclean (i + 1) o t hget1 (by omega) ht with hle | ⟨hpos, hlt⟩ | hbehind
        · exact Or.inl hle
        · exact absurd ⟨i + 1, o, t, hget1, by omega, ht, hpos, hlt⟩ hocc
        · exact Or.inr hbehind)
    rw [hs]
    rfl

/-- One step of the sum: the colour with the term of an object added, if it has one, for
a light on which the shadow loop and the shadow of the specification agree. -/
theorem render_light_body_term (m : Libm K) (object_array : List (Object K)) (best_t : Dbl K)
    (best_index : Nat) (Rd Ron N Cd Cs color : Vec K) (o : Object K)
    (hget : object_array[best_index]? = some o)
    (hsurf : spec_surface m Ron o = some (N, Cd, Cs)) (l : Object K)
    (hagree : ∀ (lc lp ld : Vec K) (a2 a1 a0 ang th : Dbl K),
      l = .light lc lp ld a2 a1 a0 ang th →
      Dbl.le (shadow_loop m Ron
          (normalize m ⟨lp.c0 - Ron.c0, lp.c1 - Ron.c1, lp.c2 - Ron.c2⟩)
          (calculate_distance m ⟨lp.c0 - Ron.c0, lp.c1 - Ron.c1, lp.c2 - Ron.c2⟩)
          best_index object_array.tail 1 (fin 0)) (fin 0)
        = !spec_shadowed m object_array best_index Ron
            (normalize m ⟨lp.c0 - Ron.c0, lp.c1 - Ron.c1, lp.c2 - Ron.c2⟩)
            (calculate_distance m ⟨lp.c0 - Ron.c0, lp.c1 - Ron.c1, lp.c2 - Ron.c2⟩)) :
    render_light_body m object_array best_t best_index Rd Ron color l
      = .ok (match spec_light_term m object_array best_t best_index Rd Ron N Cd Cs l with
          | some t => ⟨color.c0 + t.c0, color.c1 + t.c1, color.c2 + t.c2⟩
          | none => color) := by
  cases l with
  | camera _ _ => rfl
  | sphere _ _ _ _ => rfl
  | plane _ _ _ _ => rfl
  | light lc lp ld a2 a1 a0 ang th =>
    have ha := hagree lc lp ld a2 a1 a0 ang th rfl
    cases o with
    | camera _ _ => simp [spec_surface] at hsurf
    | light _ _ _ _ _ _ _ _ => simp [spec_surface] at hsurf
    | sphere dc sc centre r =>
      simp only [spec_surface, Option.some.injEq, Prod.mk.injEq] at hsurf
      obtain ⟨rfl, rfl, rfl⟩ := hsurf
      rcases Bool.eq_false_or_eq_true (spec_shadowed m object_array best_index Ron
          (normalize m ⟨lp.c0 - Ron.c0, lp.c1 - Ron.c1, lp.c2 - Ron.c2⟩)
          (calculate_distance m ⟨lp.c0 - Ron.c0, lp.c1 - Ron.c1, lp.c2 - Ron.c2⟩))
        with hsh | hsh
      · rw [hsh] at ha
        simp only [render_light_body, hget, spec_light_term, ha, hsh, Bool.not_true,
          Bool.false_eq_true, if_false, if_true]
      · rw [hsh] at ha
        simp only [render_light_body, hget, spec_light_term, ha, hsh, Bool.not_false,
          Bool.false_eq_true, if_false, if_true]
        rfl
    | plane dc sc pos normal =>
      simp only [spec_surface, Option.some.injEq, Prod.mk.injEq] at hsurf
      obtain ⟨rfl, rfl, rfl⟩ := hsurf
      rcases Bool.eq_false_or_eq_true (spec_shadowed m object_array best_index Ron
          (normalize m ⟨lp.c0 - Ron.c0, lp.c1 - Ron.c1, lp.c2 - Ron.c2⟩)
          (calculate_distance m ⟨lp.c0 - Ron.c0, lp.c1 - Ron.c1, lp.c2 - Ron.c2⟩))
        with hsh | hsh
      · rw [hsh] at ha
        simp only [render_light_body, hget, spec_light_term, ha, hsh, Bool.not_true,
          Bool.false_eq_true, if_false, if_true]
      · rw [hsh] at ha
        simp only [render_light_body, hget, spec_light_term, ha, hsh, Bool.not_false,
          Bool.false_eq_true, if_false, if_true]
        rfl

/-- The loop of `render_light` computes the sum of the terms, in list order, when the
shadow loop and the shadow of the specification agree on every light of the loop. -/
theorem render_light_loop_sum (m : Libm K) (object_array : List (Object K)) (best_t : Dbl K)
    (best_index : Nat) (Rd Ron N Cd Cs : Vec K) (o : Object K)
    (hget : object_array[best_index]? = some o)
    (hsurf : spec_surface m Ron o = some (N, Cd, Cs)) :
    ∀ (os : List (Object K)) (color : Vec K),
      (∀ (lc lp ld : Vec K) (a2 a1 a0 ang th : Dbl K),
        Object.light lc lp ld a2 a1 a0 ang th ∈ os →
        Dbl.le (shadow_loop m Ron
            (normalize m ⟨lp.c0 - Ron.c0, lp.c1 - Ron.c1, lp.c2 - Ron.c2⟩)
            (calculate_distance m ⟨lp.c0 - Ron.c0, lp.c1 - Ron.c1, lp.c2 - Ron.c2⟩)
            best_index object_array.tail 1 (fin 0)) (fin 0)
          = !spec_shadowed m object_array best_index Ron
              (normalize m ⟨lp.c0 - Ron.c0, lp.c1 - Ron.c1, lp.c2 - Ron.c2⟩)
              (calculate_distance m ⟨lp.c0 - Ron.c0, lp.c1 - Ron.c1, lp.c2 - Ron.c2⟩)) →
      render_light_loop m object_array best_t best_index Rd Ron os color
        = .ok ((os.filterMap
            (spec_light_term m object_array best_t best_index Rd Ron N Cd Cs)).foldl
            (fun acc t => ⟨acc.c0 + t.c0, acc.c1 + t.c1, acc.c2 + t.c2⟩) color) := by
  intro os
  induction os with
  | nil => exact fun color _ => rfl
  | cons l os ih =>
    intro color hagree
    have hb := render_light_body_term m object_array best_t best_index Rd Ron N Cd Cs color o
      hget hsurf l (fun lc lp ld a2 a1 a0 ang th hl =>
        hagree lc lp ld a2 a1 a0 ang th (by rw [hl]; exact List.mem_cons_self _ _))
    have hrest := fun c => ih c (fun lc lp ld a2 a1 a0 ang th hl =>
      hagree lc lp ld a2 a1 a0 ang th (List.mem_cons_of_mem _ hl))
    simp only [render_light_loop, hb, hrest]
    cases hterm : spec_light_term m object_array best_t best_index Rd Ron N Cd Cs l with
    | none => simp only [List.filterMap_cons, hterm]
    | some t => simp only [List.filterMap_cons, hterm, List.foldl_cons]

theorem spec_surface_some (m : Libm K) (P : Vec K) (o : Object K)
    (hkind : o.kind = 1 ∨ o.kind = 2) :
    ∃ N Cd Cs : Vec K, spec_surface m P o = some (N, Cd, Cs) := by
  cases o with
  | camera _ _ => simp [Object.kind] at hkind
  | sphere dc sc centre r => exact ⟨_, _, _, rfl⟩
  | plane dc sc pos normal => exact ⟨_, _, _, rfl⟩
  | light _ _ _ _ _ _ _ _ => simp [Object.kind] at hkind

/-- The formula and the code: for a hit at distance `best_t` on the sphere or plane at
`best_index` of a scene with the camera at index 0, `render_light` returns the colour of
`spec_render_light` when, for every light, no object other than the owner has on the probe
ray a distance equal to the distance to the light, or `NaN`; without a light the colour is
(0,0,0). -/
theorem render_light_formula (m : Libm K) (object_array : List (Object K)) (best_t : Dbl K)
    (best_index : Nat) (Ro Rd : Vec K) (o : Object K)
    (hget : object_array[best_index]? = some o) (hkind : o.kind = 1 ∨ o.kind = 2)
    (hcam : ∀ o0 : Object K, object_array[0]? = some o0 → o0.kind = 0)
    (hclean : ∀ (lc lp ld : Vec K) (a2 a1 a0 ang th : Dbl K),
      Object.light lc lp ld a2 a1 a0 ang th ∈ object_array.tail →
      ∀ (i : Nat) (o1 : Object K) (t : Dbl K), object_array[i]? = some o1 →
        i ≠ best_index →
        object_t m ⟨best_t * Rd.c0 + Ro.c0, best_t * Rd.c1 + Ro.c1, best_t * Rd.c2 + Ro.c2⟩
          (normalize m ⟨lp.c0 - (best_t * Rd.c0 + Ro.c0), lp.c1 - (best_t * Rd.c1 + Ro.c1),
            lp.c2 - (best_t * Rd.c2 + Ro.c2)⟩) o1 = some t →
        Dbl.le t (fin 0) = true
          ∨ (Dbl.gt t (fin 0) = true
            ∧ Dbl.lt t (calculate_distance m ⟨lp.c0 - (best_t * Rd.c0 + Ro.c0),
              lp.c1 - (best_t * Rd.c1 + Ro.c1), lp.c2 - (best_t * Rd.c2 + Ro.c2)⟩) = true)
          ∨ (Dbl.gt t (fin 0) = true
            ∧ Dbl.gt t (calculate_distance m ⟨lp.c0 - (best_t * Rd.c0 + Ro.c0),
              lp.c1 - (best_t * Rd.c1 + Ro.c1), lp.c2 - (best_t * Rd.c2 + Ro.c2)⟩) = true)) :
    ∃ color : Vec K,
      spec_render_light m object_array best_t best_index Ro Rd = some color
        ∧ render_light m object_array best_t best_index Ro Rd = .ok color
        ∧ ((∀ l : Object K, l ∈ object_array.tail → l.kind ≠ 3) →
            color = ⟨fin 0, fin 0, fin 0⟩) := by
  have hP : (⟨Ro.c0 + best_t * Rd.c0, Ro.c1 + best_t * Rd.c1, Ro.c2 + best_t * Rd.c2⟩ : Vec K)
      = ⟨best_t * Rd.c0 + Ro.c0, best_t * Rd.c1 + Ro.c1, best_t * Rd.c2 + Ro.c2⟩ := by
    rw [dbl_add_comm Ro.c0, dbl_add_comm Ro.c1, dbl_add_comm Ro.c2]
  obtain ⟨N, Cd, Cs, hsurf⟩ := spec_surface_some m
    ⟨best_t * Rd.c0 + Ro.c0, best_t * Rd.c1 + Ro.c1, best_t * Rd.c2 + Ro.c2⟩ o hkind
  have h0 : ∀ (P toward : Vec K) (o0 : Object K), object_array[0]? = some o0 →
      object_t m P toward o0 = none := by
    intro P toward o0 hget0
    have hk := hcam o0 hget0
    cases o0 with
    | camera _ _ => rfl
    | sphere _ _ _ _ => simp [Object.kind] at hk
    | plane _ _ _ _ => simp [Object.kind] at hk
    | light _ _ _ _ _ _ _ _ => rfl
  have hloop := render_light_loop_sum m object_array best_t best_index Rd
    ⟨best_t * Rd.c0 + Ro.c0, best_t * Rd.c1 + Ro.c1, best_t * Rd.c2 + Ro.c2⟩ N Cd Cs o hget
    hsurf object_array.tail ⟨fin 0, fin 0, fin 0⟩
    (fun lc lp ld a2 a1 a0 ang th hl =>
      shadow_loop_agrees m object_array best_index _ _ _ (h0 _ _)
        (hclean lc lp ld a2 a1 a0 ang th hl))
  obtain ⟨S, hS⟩ : ∃ S : Vec K, (object_array.tail.filterMap
      (spec_light_term m object_array best_t best_index Rd
        ⟨best_t * Rd.c0 + Ro.c0, best_t * Rd.c1 + Ro.c1, best_t * Rd.c2 + Ro.c2⟩ N Cd Cs)).foldl
      (fun acc t => ⟨acc.c0 + t.c0, acc.c1 + t.c1, acc.c2 + t.c2⟩) ⟨fin 0, fin 0, fin 0⟩ = S :=
    ⟨_, rfl⟩
  rw [hS] at hloop
  have hfm : object_array.filterMap
      (spec_light_term m object_array best_t best_index Rd
        ⟨best_t * Rd.c0 + Ro.c0, best_t * Rd.c1 + Ro.c1, best_t * Rd.c2 + Ro.c2⟩ N Cd Cs)
      = object_array.tail.filterMap
        (spec_light_term m object_array best_t best_index Rd
          ⟨best_t * Rd.c0 + Ro.c0, best_t * Rd.c1 + Ro.c1, best_t * Rd.c2 + Ro.c2⟩ N Cd Cs) := by
    have hgen : ∀ (l : List (Object K)) (F : Object K → Option (Vec K)),
        (∀ o0 : Object K, l[0]? = some o0 → F o0 = none) →
        l.filterMap F = l.tail.filterMap F := by
      intro l F hF
      cases l with
      | nil => rfl
      | cons o0 rest =>
        simp only [List.filterMap_cons, hF o0 List.getElem?_cons_zero, List.tail_cons]
    apply hgen
    intro o0 hget0
    have hk := hcam o0 hget0
    cases o0 with
    | camera _ _ => rfl
    | sphere _ _ _ _ => rfl
    | plane _ _ _ _ => rfl
    | light _ _ _ _ _ _ _ _ => simp [Object.kind] at hk
  refine ⟨⟨clamp S.c0, clamp S.c1, clamp S.c2⟩, ?_, ?_, ?_⟩
  · simp only [spec_render_light, hP, hget, hsurf, spec_sum, hfm, hS]
  · simp only [render_light, hloop]
  · intro hnone
    have hnil : object_array.tail.filterMap
        (spec_light_term m object_array best_t best_index Rd
          ⟨best_t * Rd.c0 + Ro.c0, best_t * Rd.c1 + Ro.c1, best_t * Rd.c2 + Ro.c2⟩ N Cd Cs)
        = [] := by
      rw [List.filterMap_eq_nil_iff]
      intro l hl
      have hk := hnone l hl
      cases l with
      | camera _ _ => rfl
      | sphere _ _ _ _ => rfl
      | plane _ _ _ _ => rfl
      | light _ _ _ _ _ _ _ _ => exact absurd rfl hk
    rw [hnil] at hS
    simp only [List.foldl_nil] at hS
    subst hS
    simp [clamp]

/-- The plane `plane5` lit by `lightBehind` alone: the colour is white. -/
theorem render_light_lit_plane :
    render_light exactLibm [camera2, plane5, lightBehind] (fin 5) 1 origin zAxis
      = .ok ⟨fin 1, fin 1, fin 1⟩ := by
  have hshadow : shadow_loop exactLibm ⟨fin 0, fin 0, fin 5⟩ ⟨fin 0, fin 0, fin (-1)⟩ (fin 10)
      1 [plane5, lightBehind] 1 (fin 0) = fin 0 := by
    simp [shadow_loop, object_t_lightBehind]
  have hp : exactLibm.pow (fin 1) (fin 20) = fin 1 := by
    have h := exactLibm_pow_nat 1 20
    norm_num at h
    exact h
  have hbody : render_light_body exactLibm [camera2, plane5, lightBehind] (fin 5) 1 zAxis
      ⟨fin 0, fin 0, fin 5⟩ ⟨fin 0, fin 0, fin 0⟩ lightBehind = .ok ⟨fin 2, fin 2, fin 2⟩ := by
    show render_light_body exactLibm [camera2, plane5, lightBehind] (fin 5) 1 zAxis
      ⟨fin 0, fin 0, fin 5⟩ ⟨fin 0, fin 0, fin 0⟩
      (Object.light white ⟨fin 0, fin 0, fin (-5)⟩ ⟨fin 0, fin 0, fin 1⟩ (fin 0) (fin 0)
        (fin 1) (fin 0) (fin 0)) = .ok ⟨fin 2, fin 2, fin 2⟩
    simp only [render_light_body, lightBehind_distance, lightBehind_direction, List.tail_cons,
      hshadow]
    norm_num [plane5, white, zAxis, reflect, diffuse, specular, add_light, floor0, frad, fang,
      hp]
  have hplane : render_light_body exactLibm [camera2, plane5, lightBehind] (fin 5) 1 zAxis
      ⟨fin 0, fin 0, fin 5⟩ ⟨fin 0, fin 0, fin 0⟩ plane5 = .ok ⟨fin 0, fin 0, fin 0⟩ :=
    render_light_body_not_light exactLibm _ _ _ _ _ _ plane5 (by simp [plane5, Object.kind])
  simp only [render_light, hit_point_plane5, List.tail_cons, render_light_loop, hplane, hbody]
  norm_num [clamp]

/-- The plane `plane5` lit by `lightBehind`, with no other object: the formula and
`render_light` both give white, `clamp(1 * 1 * (1 + 1))` in every channel. -/
theorem render_light_formula_witness :
    [camera2, plane5, lightBehind][1]? = some plane5
      ∧ (plane5.kind = 1 ∨ plane5.kind = 2)
      ∧ spec_render_light exactLibm [camera2, plane5, lightBehind] (fin 5) 1 origin zAxis
          = some ⟨fin 1, fin 1, fin 1⟩
      ∧ render_light exactLibm [camera2, plane5, lightBehind] (fin 5) 1 origin zAxis
          = .ok ⟨fin 1, fin 1, fin 1⟩ := by
  have hk : plane5.kind = 1 ∨ plane5.kind = 2 := Or.inr rfl
  obtain ⟨color, hspec, hrl, -⟩ := render_light_formula exactLibm
    [camera2, plane5, lightBehind] (fin 5) 1 origin zAxis plane5 rfl hk
    (by
      intro o0 h0
      simp only [List.getElem?_cons_zero, Option.some.injEq] at h0
      rw [← h0]
      rfl)
    (by
      intro lc lp ld a2 a1 a0 ang th _ i o1 t hget hne ht
      match i, hget, hne with
      | 0, hget, _ =>
        simp only [List.getElem?_cons_zero, Option.some.injEq] at hget
        subst hget
        exact Option.noConfusion ht
      | 1, _, hne => exact absurd rfl hne
      | 2, hget, _ =>
        simp only [List.getElem?_cons_succ, List.getElem?_cons_zero,
          Option.some.injEq] at hget
        subst hget
        exact Option.noConfusion ht
      | i + 3, hget, _ => simp at hget)
  have hcolor : color = ⟨fin 1, fin 1, fin 1⟩ := by
    rw [render_light_lit_plane] at hrl
    injection hrl with hrl
    exact hrl.symm
  subst hcolor
  exact ⟨rfl, hk, hspec, hrl⟩

/-- The shadow of the specification at the point (0,0,5) of `plane5` for `lightBehind`,
with `sphereAtLight` in the scene: the nearest hit of the probe ray is at distance 10, the
distance of the light, which is not below it: the point is not in shadow. -/
theorem spec_shadowed_touch :
    spec_nearest_hit exactLibm ⟨fin 0, fin 0, fin 5⟩ ⟨fin 0, fin 0, fin (-1)⟩ (some 1)
        [camera2, plane5, sphereAtLight, lightBehind] 0 none = some (fin 10)
      ∧ spec_shadowed exactLibm [camera2, plane5, sphereAtLight, lightBehind] 1
          ⟨fin 0, fin 0, fin 5⟩ ⟨fin 0, fin 0, fin (-1)⟩ (fin 10) = false := by
  have hcam : object_t exactLibm ⟨fin 0, fin 0, fin 5⟩ ⟨fin 0, fin 0, fin (-1)⟩ camera2
      = none := rfl
  have hn : spec_nearest_hit exactLibm ⟨fin 0, fin 0, fin 5⟩ ⟨fin 0, fin 0, fin (-1)⟩ (some 1)
      [camera2, plane5, sphereAtLight, lightBehind] 0 none = some (fin 10) := by
    simp [spec_nearest_hit, hcam, object_t_sphereAtLight, object_t_lightBehind, spec_improves]
  refine ⟨hn, ?_⟩
  simp [spec_shadowed, hn]

/-- The term of `lightBehind` in the formula at the point (0,0,5) of `plane5`, when the
point is not in shadow: 2 in every channel. -/
theorem spec_light_term_lightBehind (object_array : List (Object ℚ))
    (hns : spec_shadowed exactLibm object_array 1 ⟨fin 0, fin 0, fin 5⟩
      ⟨fin 0, fin 0, fin (-1)⟩ (fin 10) = false) :
    spec_light_term exactLibm object_array (fin 5) 1 zAxis ⟨fin 0, fin 0, fin 5⟩
      ⟨fin 0, fin 0, fin (-1)⟩ white white lightBehind = some ⟨fin 2, fin 2, fin 2⟩ := by
  have hp : exactLibm.pow (fin 1) (fin 20) = fin 1 := by
    have h := exactLibm_pow_nat 1 20
    norm_num at h
    exact h
  show spec_light_term exactLibm object_array (fin 5) 1 zAxis ⟨fin 0, fin 0, fin 5⟩
    ⟨fin 0, fin 0, fin (-1)⟩ white white
    (Object.light white ⟨fin 0, fin 0, fin (-5)⟩ ⟨fin 0, fin 0, fin 1⟩ (fin 0) (fin 0) (fin 1)
      (fin 0) (fin 0)) = some ⟨fin 2, fin 2, fin 2⟩
  simp only [spec_light_term, lightBehind_distance, lightBehind_direction, hns]
  norm_num [white, zAxis, reflect, diffuse, specular, floor0, frad, fang, hp]

/-- C12 is not what the code does when an object lies exactly at the distance of a light.
In the scene camera, `plane5`, `sphereAtLight`, `lightBehind` the hit is at distance 5 on
the plane, at the point (0,0,5); the light is at distance 10 from there and the sphere
meets the probe ray at 10, at the light and not before it, so that the light is not
shadowed in the sense of the specification and the formula gives `clamp(0 + 2) = 1` in
every channel. In `render_light` neither comparison of the shadow loop holds for
`t = 10`, `t` keeps that value, the test `t <= 0` fails and the light is left out of the
sum: the colour is (0,0,0). -/
theorem render_light_leaves_out_unshadowed_light :
    [camera2, plane5, sphereAtLight, lightBehind][1]? = some plane5
      ∧ calculate_distance exactLibm ⟨fin 0 - fin 0, fin 0 - fin 0, fin (-5) - fin 5⟩ = fin 10
      ∧ spec_nearest_hit exactLibm ⟨fin 0, fin 0, fin 5⟩ ⟨fin 0, fin 0, fin (-1)⟩ (some 1)
          [camera2, plane5, sphereAtLight, lightBehind] 0 none = some (fin 10)
      ∧ spec_shadowed exactLibm [camera2, plane5, sphereAtLight, lightBehind] 1
          ⟨fin 0, fin 0, fin 5⟩ ⟨fin 0, fin 0, fin (-1)⟩ (fin 10) = false
      ∧ shadow_loop exactLibm ⟨fin 0, fin 0, fin 5⟩ ⟨fin 0, fin 0, fin (-1)⟩ (fin 10) 1
          [camera2, plane5, sphereAtLight, lightBehind].tail 1 (fin 0) = fin 10
      ∧ spec_render_light exactLibm [camera2, plane5, sphereAtLight, lightBehind] (fin 5) 1
          origin zAxis = some ⟨fin 1, fin 1, fin 1⟩
      ∧ render_light exactLibm [camera2, plane5, sphereAtLight, lightBehind] (fin 5) 1 origin
          zAxis = .ok ⟨fin 0, fin 0, fin 0⟩ := by
  have hplane : ∀ (l : List (Object ℚ)) (color : Vec ℚ),
      render_light_body exactLibm l (fin 5) 1 zAxis ⟨fin 0, fin 0, fin 5⟩ color plane5
        = .ok color :=
    fun l color => render_light_body_not_light exactLibm l _ _ _ _ color plane5
      (by simp [plane5, Object.kind])
  have hsphere : ∀ (l : List (Object ℚ)) (color : Vec ℚ),
      render_light_body exactLibm l (fin 5) 1 zAxis ⟨fin 0, fin 0, fin 5⟩ color sphereAtLight
        = .ok color :=
    fun l color => render_light_body_not_light exactLibm l _ _ _ _ color sphereAtLight
      (by simp [sphereAtLight, Object.kind])
  have hP : (⟨origin.c0 + fin 5 * zAxis.c0, origin.c1 + fin 5 * zAxis.c1,
      origin.c2 + fin 5 * zAxis.c2⟩ : Vec ℚ) = ⟨fin 0, fin 0, fin 5⟩ := by
    norm_num [zAxis, origin]
  have hget : [camera2, plane5, sphereAtLight, lightBehind][1]? = some plane5 := rfl
  have hsurf : spec_surface exactLibm ⟨fin 0, fin 0, fin 5⟩ plane5
      = some (⟨fin 0, fin 0, fin (-1)⟩, white, white) := rfl
  have hterm := spec_light_term_lightBehind [camera2, plane5, sphereAtLight, lightBehind]
    spec_shadowed_touch.2
  have hnp : spec_light_term exactLibm [camera2, plane5, sphereAtLight, lightBehind] (fin 5) 1
      zAxis ⟨fin 0, fin 0, fin 5⟩ ⟨fin 0, fin 0, fin (-1)⟩ white white plane5 = none := rfl
  have hns : spec_light_term exactLibm [camera2, plane5, sphereAtLight, lightBehind] (fin 5) 1
      zAxis ⟨fin 0, fin 0, fin 5⟩ ⟨fin 0, fin 0, fin (-1)⟩ white white sphereAtLight
        = none := rfl
  have hnc : spec_light_term exactLibm [camera2, plane5, sphereAtLight, lightBehind] (fin 5) 1
      zAxis ⟨fin 0, fin 0, fin 5⟩ ⟨fin 0, fin 0, fin (-1)⟩ white white camera2 = none := rfl
  refine ⟨hget, lightBehind_distance, spec_shadowed_touch.1, spec_shadowed_touch.2,
    shadow_loop_touch, ?_, ?_⟩
  · simp only [spec_render_light, hP, hget, hsurf, List.filterMap_cons, hnc, hnp, hns, hterm,
      List.filterMap_nil, spec_sum, List.foldl_cons, List.foldl_nil]
    norm_num [clamp]
  · simp only [render_light, hit_point_plane5, List.tail_cons, render_light_loop, hplane,
      hsphere, render_light_body_touch]
    simp [clamp]

end FormulaProof

/-! ## A pixel without a hit -/

section NoHit

variable {K : Type} [LinearOrderedField K]

theorem row_flip_inj (N M x y x1 y1 : Nat) (hx : x < N) (hy : y < M) (hx1 : x1 < N)
    (hy1 : y1 < M) (heq : (M - 1 - y1) * N + x1 = (M - 1 - y) * N + x) : x1 = x ∧ y1 = y := by
  have hN : 0 < N := by omega
  have hxx : x1 = x := by
    have h1 := congrArg (fun v => v % N) heq
    simp only [] at h1
    rw [Nat.add_comm, Nat.add_mul_mod_self_right, Nat.mod_eq_of_lt hx1,
      Nat.add_comm ((M - 1 - y) * N), Nat.add_mul_mod_self_right, Nat.mod_eq_of_lt hx] at h1
    exact h1
  subst hxx
  have h2 : (M - 1 - y1) * N = (M - 1 - y) * N := by omega
  have h3 : M - 1 - y1 = M - 1 - y := Nat.eq_of_mul_eq_mul_right hN h2
  exact ⟨rfl, by omega⟩

/-- A pixel whose ray has no finite positive distance to a sphere or plane leaves the
buffer and `best_index` alone and only counts the pixel. -/
theorem raycast_pixel_no_hit (m : Libm K) (object_array : List (Object K)) (w h : Dbl K)
    (N M : Nat) (s : RenderState K) (y x : Nat)
    (hno : ∀ (i : Nat) (o : Object K) (q : K), 1 ≤ i → object_array[i]? = some o →
      object_t m ⟨fin 0, fin 0, fin 0⟩ (pixel_ray m w h N M x y) o = some (fin q) → ¬ 0 < q) :
    raycast_pixel m object_array w h N M s y x
      = .ok ⟨s.pixel_buffer, s.pixel_count + 1, s.best_index⟩ := by
  rcases nearest_loop_pixel m ⟨fin 0, fin 0, fin 0⟩ (pixel_ray m w h N M x y) object_array
      s.best_index with ⟨heq, -⟩ | ⟨i, o, q, hget, ht, hq, -, -⟩
  · simp only [raycast_pixel, heq]
    simp [Dbl.ne, Dbl.eq]
  · exact absurd hq (hno (i + 1) o q (by omega) hget ht)

/-- A pixel other than a pixel without a hit does not touch the slot of that pixel, and
the pixel without a hit does not touch it either. -/
theorem raycast_pixel_frame (m : Libm K) (object_array : List (Object K)) (w h : Dbl K)
    (N M x y : Nat) (hx : x < N) (hy : y < M)
    (hno : ∀ (i : Nat) (o : Object K) (q : K), 1 ≤ i → object_array[i]? = some o →
      object_t m ⟨fin 0, fin 0, fin 0⟩ (pixel_ray m w h N M x y) o = some (fin q) → ¬ 0 < q)
    (s s1 : RenderState K) (y1 x1 : Nat) (hx1 : x1 < N) (hy1 : y1 < M)
    (hcount : s.pixel_count = y1 * N + x1)
    (hrun : raycast_pixel m object_array w h N M s y1 x1 = .ok s1) :
    s1.pixel_buffer ((M - 1 - y) * N + x) = s.pixel_buffer ((M - 1 - y) * N + x) := by
  obtain ⟨-, hsame | ⟨color, bt, bi, -, -, -, hupd⟩⟩ :=
    raycast_pixel_ok_cases m object_array w h N M s s1 y1 x1 hrun
  · rw [hsame]
  · rw [hcount, buffer_index_eq N M x1 y1 hx1 hy1, Int.toNat_natCast] at hupd
    by_cases hidx : (M - 1 - y) * N + x = (M - 1 - y1) * N + x1
    · obtain ⟨hxe, hye⟩ := row_flip_inj N M x y x1 y1 hx hy hx1 hy1 hidx.symm
      rw [hxe, hye, raycast_pixel_no_hit m object_array w h N M s y x hno] at hrun
      injection hrun with hrun
      rw [← hrun]
    · rw [hupd, Function.update_noteq hidx]

theorem raycast_row_frame (m : Libm K) (object_array : List (Object K)) (w h : Dbl K)
    (N M x y : Nat) (hx : x < N) (hy : y < M)
    (hno : ∀ (i : Nat) (o : Object K) (q : K), 1 ≤ i → object_array[i]? = some o →
      object_t m ⟨fin 0, fin 0, fin 0⟩ (pixel_ray m w h N M x y) o = some (fin q) → ¬ 0 < q)
    (y1 : Nat) (hy1 : y1 < M) :
    ∀ (len x0 : Nat) (s s1 : RenderState K), x0 + len ≤ N → s.pixel_count = y1 * N + x0 →
      raycast_row m object_array w h N M y1 (List.range' x0 len) s = .ok s1 →
      s1.pixel_buffer ((M - 1 - y) * N + x) = s.pixel_buffer ((M - 1 - y) * N + x) := by
  intro len
  induction len with
  | zero =>
    intro x0 s s1 _ _ hrun
    simp only [List.range'_zero, raycast_row] at hrun
    injection hrun with hrun
    rw [hrun]
  | succ len ih =>
    intro x0 s s1 hle hcount hrun
    simp only [List.range'_succ, raycast_row] at hrun
    split at hrun
    · rename_i s2 h2
      have hc2 := (raycast_pixel_ok_cases m object_array w h N M s s2 y1 x0 h2).1
      rw [ih (x0 + 1) s2 s1 (by omega) (by rw [hc2, hcount]; omega) hrun]
      exact raycast_pixel_frame m object_array w h N M x y hx hy hno s s2 y1 x0 (by omega)
        hy1 hcount h2
    · exact Except.noConfusion hrun

theorem raycast_rows_frame (m : Libm K) (object_array : List (Object K)) (w h : Dbl K)
    (N M x y : Nat) (hx : x < N) (hy : y < M)
    (hno : ∀ (i : Nat) (o : Object K) (q : K), 1 ≤ i → object_array[i]? = some o →
      object_t m ⟨fin 0, fin 0, fin 0⟩ (pixel_ray m w h N M x y) o = some (fin q) → ¬ 0 < q) :
    ∀ (len y0 : Nat) (s s1 : RenderState K), y0 + len ≤ M → s.pixel_count = y0 * N →
      raycast_rows m object_array w h N M (List.range' y0 len) s = .ok s1 →
      s1.pixel_buffer ((M - 1 - y) * N + x) = s.pixel_buffer ((M - 1 - y) * N + x) := by
  intro len
  induction len with
  | zero =>
    intro y0 s s1 _ _ hrun
    simp only [List.range'_zero, raycast_rows] at hrun
    injection hrun with hrun
    rw [hrun]
  | succ len ih =>
    intro y0 s s1 hle hcount hrun
    simp only [List.range'_succ, raycast_rows] at hrun
    split at hrun
    · rename_i s2 h2
      have hc2 := raycast_row_count m object_array w h N M y0 _ s s2 h2
      rw [List.length_range] at hc2
      rw [ih (y0 + 1) s2 s1 (by omega) (by rw [hc2, hcount, Nat.add_mul, Nat.one_mul]) hrun]
      rw [List.range_eq_range'] at h2
      exact raycast_row_frame m object_array w h N M x y hx hy hno y0 (by omega) N 0 s s2
        (by omega) (by rw [hcount, Nat.add_zero]) h2
    · exact Except.noConfusion hrun

/-- C19: for a scene with the camera at index 0 and a pixel `(x, y)` of the image whose
ray has no finite positive distance to any sphere or plane, `raycast_scene` neither calls
`render_light` for the pixel nor writes its slot: the pixel only counts; the run returns
with the slot `(M-1-y)*N + x` as it was before, so that with the buffer of zeros that `main`
allocates the colour of the pixel is (0,0,0). -/
theorem no_hit_pixel_is_black (m : Libm K) (w h : Dbl K) (rest : List (Object K))
    (pixel_buffer : Nat → Vec K) (N M x y : Nat) (hx : x < N) (hy : y < M)
    (hno : ∀ (i : Nat) (o : Object K) (q : K), 1 ≤ i →
      (Object.camera w h :: rest)[i]? = some o →
      object_t m ⟨fin 0, fin 0, fin 0⟩ (pixel_ray m w h N M x y) o = some (fin q) → ¬ 0 < q) :
    (∀ s : RenderState K, raycast_pixel m (.camera w h :: rest) w h N M s y x
        = .ok ⟨s.pixel_buffer, s.pixel_count + 1, s.best_index⟩)
      ∧ (∃ buf : Nat → Vec K,
          raycast_scene m (.camera w h :: rest) pixel_buffer N M = .ok buf
            ∧ buf ((M - 1 - y) * N + x) = pixel_buffer ((M - 1 - y) * N + x))
      ∧ ((∀ i : Nat, pixel_buffer i = ⟨fin 0, fin 0, fin 0⟩) →
          ∀ buf : Nat → Vec K,
            raycast_scene m (.camera w h :: rest) pixel_buffer N M = .ok buf →
            buf ((M - 1 - y) * N + x) = ⟨fin 0, fin 0, fin 0⟩) := by
  have hframe : ∀ buf : Nat → Vec K,
      raycast_scene m (.camera w h :: rest) pixel_buffer N M = .ok buf →
      buf ((M - 1 - y) * N + x) = pixel_buffer ((M - 1 - y) * N + x) := by
    intro buf hbuf
    simp only [raycast_scene] at hbuf
    split at hbuf
    · rename_i s1 hs1
      injection hbuf with hbuf
      rw [← hbuf]
      rw [List.range_eq_range'] at hs1
      exact raycast_rows_frame m (.camera w h :: rest) w h N M x y hx hy hno M 0
        ⟨pixel_buffer, 0, none⟩ s1 (by omega) (by simp) hs1
    · exact Except.noConfusion hbuf
  refine ⟨fun s => raycast_pixel_no_hit m _ w h N M s y x hno, ?_, ?_⟩
  · obtain ⟨buf, hbuf⟩ := raycast_scene_ok m w h rest pixel_buffer N M
    exact ⟨buf, hbuf, hframe buf hbuf⟩
  · intro hzero buf hbuf
    rw [hframe buf hbuf, hzero]

/-- The 1×1 image of a scene whose only sphere is off the ray: the pixel stays black. -/
theorem no_hit_pixel_is_black_witness :
    ∃ buf : Nat → Vec ℚ,
      raycast_scene exactLibm [camera2, occluder] blackBuffer 1 1 = .ok buf
        ∧ buf 0 = ⟨fin 0, fin 0, fin 0⟩ := by
  have hocc : object_t exactLibm origin zAxis occluder = some (fin 0) := by
    have h := sphere_intersection_fin exactLibm 0 0 0 0 0 1 0 5 4 1 (by norm_num)
    norm_num at h
    simp only [object_t, occluder, origin, zAxis, h]
  have hno : ∀ (i : Nat) (o : Object ℚ) (q : ℚ), 1 ≤ i →
      (Object.camera (fin 2) (fin 2) :: [occluder])[i]? = some o →
      object_t exactLibm ⟨fin 0, fin 0, fin 0⟩ (pixel_ray exactLibm (fin 2) (fin 2) 1 1 0 0) o
        = some (fin q) → ¬ 0 < q := by
    intro i o q hi hget ht
    rcases i with _ | _ | i
    · omega
    · simp only [List.getElem?_cons_succ, List.getElem?_cons_zero, Option.some.injEq] at hget
      subst hget
      rw [pixel_ray_one] at ht
      have ht2 : object_t exactLibm origin zAxis occluder = some (fin q) := ht
      rw [hocc] at ht2
      simp only [Option.some.injEq, Dbl.fin.injEq] at ht2
      rw [← ht2]
      exact lt_irrefl 0
    · simp at hget
  obtain ⟨buf, hbuf, hslot⟩ := (no_hit_pixel_is_black exactLibm (fin 2) (fin 2) [occluder]
    blackBuffer 1 1 0 0 (by norm_num) (by norm_num) hno).2.1
  exact ⟨buf, hbuf, by simpa [blackBuffer] using hslot⟩

end NoHit

/-! ## The reflection -/

section Reflection

variable {K : Type} [LinearOrderedField K]

/-- The value of `reflect` on finite vectors. -/
theorem reflect_fin (l0 l1 l2 n0 n1 n2 : K) :
    reflect ⟨fin l0, fin l1, fin l2⟩ ⟨fin n0, fin n1, fin n2⟩
      = ⟨fin (l0 - 2 * (l0 * n0 + l1 * n1 + l2 * n2) * n0),
         fin (l1 - 2 * (l0 * n0 + l1 * n1 + l2 * n2) * n1),
         fin (l2 - 2 * (l0 * n0 + l1 * n1 + l2 * n2) * n2)⟩ := by
  simp only [reflect, fin_mul, fin_add, fin_sub]

/-- C28: for every vector `L` and every normal `N` of length 1, `reflect` is an involution
that keeps the length: `reflect(reflect(L,N),N) = L`, the sum of squares and the length
(`calculate_distance`) of `reflect(L,N)` are those of `L`, and
`reflect(L,N)·N = -(L·N)`. -/
theorem reflect_involution (m : Libm K) (l0 l1 l2 n0 n1 n2 : K)
    (hunit : n0 * n0 + n1 * n1 + n2 * n2 = 1) :
    reflect (reflect ⟨fin l0, fin l1, fin l2⟩ ⟨fin n0, fin n1, fin n2⟩)
        ⟨fin n0, fin n1, fin n2⟩ = ⟨fin l0, fin l1, fin l2⟩
      ∧ (∃ r0 r1 r2 : K,
          reflect ⟨fin l0, fin l1, fin l2⟩ ⟨fin n0, fin n1, fin n2⟩ = ⟨fin r0, fin r1, fin r2⟩
            ∧ r0 * r0 + r1 * r1 + r2 * r2 = l0 * l0 + l1 * l1 + l2 * l2
            ∧ r0 * n0 + r1 * n1 + r2 * n2 = -(l0 * n0 + l1 * n1 + l2 * n2))
      ∧ calculate_distance m (reflect ⟨fin l0, fin l1, fin l2⟩ ⟨fin n0, fin n1, fin n2⟩)
          = calculate_distance m ⟨fin l0, fin l1, fin l2⟩ := by
  have hnorm : (l0 - 2 * (l0 * n0 + l1 * n1 + l2 * n2) * n0)
        * (l0 - 2 * (l0 * n0 + l1 * n1 + l2 * n2) * n0)
      + (l1 - 2 * (l0 * n0 + l1 * n1 + l2 * n2) * n1)
        * (l1 - 2 * (l0 * n0 + l1 * n1 + l2 * n2) * n1)
      + (l2 - 2 * (l0 * n0 + l1 * n1 + l2 * n2) * n2)
        * (l2 - 2 * (l0 * n0 + l1 * n1 + l2 * n2) * n2)
      = l0 * l0 + l1 * l1 + l2 * l2 := by
    linear_combination (4 * (l0 * n0 + l1 * n1 + l2 * n2) ^ 2) * hunit
  have hdot : (l0 - 2 * (l0 * n0 + l1 * n1 + l2 * n2) * n0) * n0
      + (l1 - 2 * (l0 * n0 + l1 * n1 + l2 * n2) * n1) * n1
      + (l2 - 2 * (l0 * n0 + l1 * n1 + l2 * n2) * n2) * n2
      = -(l0 * n0 + l1 * n1 + l2 * n2) := by
    linear_combination (-2 * (l0 * n0 + l1 * n1 + l2 * n2)) * hunit
  refine ⟨?_, ⟨_, _, _, reflect_fin l0 l1 l2 n0 n1 n2, hnorm, hdot⟩, ?_⟩
  · rw [reflect_fin, reflect_fin, hdot]
    congr 1 <;> · congr 1; ring
  · rw [reflect_fin]
    simp only [calculate_distance, sqr_fin, fin_add, hnorm]

/-- The vector (1,2,3) reflected at the normal (0,0,1) is (1,2,-3), and reflected again
it is (1,2,3). -/
theorem reflect_involution_witness :
    reflect (K := ℚ) ⟨fin 1, fin 2, fin 3⟩ ⟨fin 0, fin 0, fin 1⟩ = ⟨fin 1, fin 2, fin (-3)⟩
      ∧ reflect (K := ℚ) (reflect ⟨fin 1, fin 2, fin 3⟩ ⟨fin 0, fin 0, fin 1⟩)
          ⟨fin 0, fin 0, fin 1⟩ = ⟨fin 1, fin 2, fin 3⟩ := by
  refine ⟨?_, (reflect_involution exactLibm 1 2 3 0 0 1 (by norm_num)).1⟩
  rw [reflect_fin]
  norm_num

end Reflection

/-! ## The sphere and the ray -/

section SphereGeometry

variable {K : Type} [LinearOrderedField K]

/-- The value of `sphere_intersection` on finite arguments with a non-zero direction. -/
theorem sphere_intersection_fin_gen (m : Libm K) (ox oy oz dx dy dz cx cy cz r a b c : K)
    (ha : dx * dx + dy * dy + dz * dz = a) (ha0 : a ≠ 0)
    (hb : (2 * dx * ox - 2 * dx * cx) + (2 * dy * oy - 2 * dy * cy)
      + (2 * dz * oz - 2 * dz * cz) = b)
    (hc : (ox * ox - 2 * ox * cx + cx * cx) + (oy * oy - 2 * oy * cy + cy * cy)
      + (oz * oz - 2 * oz * cz + cz * cz) - r * r = c) :
    sphere_intersection m ⟨fin ox, fin oy, fin oz⟩ ⟨fin dx, fin dy, fin dz⟩
        ⟨fin cx, fin cy, fin cz⟩ (fin r)
      = if b * b - 4 * a * c < 0 then fin 0
        else if (-b - m.sqrt (b * b - 4 * a * c)) / (2 * a) ≤ 0
            ∧ (-b + m.sqrt (b * b - 4 * a * c)) / (2 * a) ≤ 0 then fin 0
        else if (-b - m.sqrt (b * b - 4 * a * c)) / (2 * a) ≤ 0 then
          fin ((-b + m.sqrt (b * b - 4 * a * c)) / (2 * a))
        else if (-b + m.sqrt (b * b - 4 * a * c)) / (2 * a) ≤ 0 then
          fin ((-b - m.sqrt (b * b - 4 * a * c)) / (2 * a))
        else fin (min ((-b - m.sqrt (b * b - 4 * a * c)) / (2 * a))
          ((-b + m.sqrt (b * b - 4 * a * c)) / (2 * a))) := by
  simp only [sphere_intersection, sqr_fin, fin_mul, fin_sub, fin_add, ha, hb, hc, lt_fin,
    fin_neg, decide_eq_true_eq]
  by_cases hdet : b * b - 4 * a * c < 0
  · rw [if_pos hdet, if_pos hdet]
  · have h2 : (2 * a : K) ≠ 0 := mul_ne_zero (by norm_num) ha0
    rw [if_neg hdet, if_neg hdet, sqrt_fin_of_nonneg _ _ (not_lt.mp hdet)]
    simp only [fin_sub, fin_add, fin_div_of_ne _ _ h2, le_fin, gt_fin]
    exact sphere_select _ _

/-- The quadratic `a t^2 + b t + c` with the roots `(-b ± s)/(2a)`, `s^2 = b^2 - 4ac`. -/
theorem quadratic_factor (a b c s t : K) (ha0 : a ≠ 0) (hs : s * s = b * b - 4 * a * c) :
    a * t * t + b * t + c = a * (t - (-b - s) / (2 * a)) * (t - (-b + s) / (2 * a)) := by
  have hc : c = (b * b - s * s) / (4 * a) := by
    rw [hs]
    field_simp
  rw [hc]
  field_simp
  ring

/-- C25: for a non-zero direction `Rd`, if `sphere_intersection` returns `t > 0`, the
point `Ro + t*Rd` lies on the sphere (`|Ro + t*Rd - C|^2 = r^2`) and no `t1` with
`0 < t1 < t` gives a point of the sphere; and if it returns 0, no `t1 > 0` gives a point of
the sphere.  The function `sqrt` is taken to return the non-negative root of a
non-negative discriminant. -/
theorem sphere_intersection_first_positive (m : Libm K) (ox oy oz dx dy dz cx cy cz r a b c : K)
    (hRd : dx ≠ 0 ∨ dy ≠ 0 ∨ dz ≠ 0) (ha : dx * dx + dy * dy + dz * dz = a)
    (hb : (2 * dx * ox - 2 * dx * cx) + (2 * dy * oy - 2 * dy * cy)
      + (2 * dz * oz - 2 * dz * cz) = b)
    (hc : (ox * ox - 2 * ox * cx + cx * cx) + (oy * oy - 2 * oy * cy + cy * cy)
      + (oz * oz - 2 * oz * cz + cz * cz) - r * r = c)
    (hsqrt : 0 ≤ b * b - 4 * a * c → 0 ≤ m.sqrt (b * b - 4 * a * c)
      ∧ m.sqrt (b * b - 4 * a * c) * m.sqrt (b * b - 4 * a * c) = b * b - 4 * a * c) :
    (∀ t : K, sphere_intersection m ⟨fin ox, fin oy, fin oz⟩ ⟨fin dx, fin dy, fin dz⟩
          ⟨fin cx, fin cy, fin cz⟩ (fin r) = fin t → 0 < t →
        (ox + t * dx - cx) ^ 2 + (oy + t * dy - cy) ^ 2 + (oz + t * dz - cz) ^ 2 = r ^ 2
          ∧ ∀ t1 : K, 0 < t1 → t1 < t →
            (ox + t1 * dx - cx) ^ 2 + (oy + t1 * dy - cy) ^ 2 + (oz + t1 * dz - cz) ^ 2
              ≠ r ^ 2)
      ∧ (sphere_intersection m ⟨fin ox, fin oy, fin oz⟩ ⟨fin dx, fin dy, fin dz⟩
          ⟨fin cx, fin cy, fin cz⟩ (fin r) = fin 0 →
        ∀ t1 : K, 0 < t1 →
          (ox + t1 * dx - cx) ^ 2 + (oy + t1 * dy - cy) ^ 2 + (oz + t1 * dz - cz) ^ 2
            ≠ r ^ 2) := by
  have hapos : 0 < a := by
    rw [← ha]
    rcases hRd with h | h | h
    · have := mul_self_pos.mpr h
      nlinarith [mul_self_nonneg dy, mul_self_nonneg dz]
    · have := mul_self_pos.mpr h
      nlinarith [mul_self_nonneg dx, mul_self_nonneg dz]
    · have := mul_self_pos.mpr h
      nlinarith [mul_self_nonneg dx, mul_self_nonneg dy]
  have ha0 : a ≠ 0 := hapos.ne'
  have hf : ∀ t : K,
      (ox + t * dx - cx) ^ 2 + (oy + t * dy - cy) ^ 2 + (oz + t * dz - cz) ^ 2 - r ^ 2
        = a * t * t + b * t + c := by
    intro t
    rw [← ha, ← hb, ← hc]
    ring
  have hon : ∀ t : K,
      (ox + t * dx - cx) ^ 2 + (oy + t * dy - cy) ^ 2 + (oz + t * dz - cz) ^ 2 = r ^ 2
        ↔ a * t * t + b * t + c = 0 := by
    intro t
    rw [← hf t, sub_eq_zero]
  have hval := sphere_intersection_fin_gen m ox oy oz dx dy dz cx cy cz r a b c ha ha0 hb hc
  simp only [ne_eq, hon]
  by_cases hdet : b * b - 4 * a * c < 0
  · rw [if_pos hdet] at hval
    have hno : ∀ t1 : K, a * t1 * t1 + b * t1 + c ≠ 0 := by
      intro t1 h0
      nlinarith [mul_self_nonneg (2 * a * t1 + b)]
    rw [hval]
    refine ⟨fun t ht hpos => ?_, fun _ t1 _ => hno t1⟩
    injection ht with ht
    exact absurd ht hpos.ne
  · rw [if_neg hdet] at hval
    obtain ⟨hs0, hss⟩ := hsqrt (not_lt.mp hdet)
    generalize m.sqrt (b * b - 4 * a * c) = s at hval hs0 hss
    have hfac := fun t => quadratic_factor a b c s t ha0 hss
    have h2a : 0 < 2 * a := by linarith
    have hle : (-b - s) / (2 * a) ≤ (-b + s) / (2 * a) :=
      div_le_div_of_nonneg_right (by linarith) h2a.le
    generalize (-b - s) / (2 * a) = t0 at hval hfac hle
    generalize (-b + s) / (2 * a) = t1 at hval hfac hle
    have hroot0 : a * t0 * t0 + b * t0 + c = 0 := by rw [hfac]; simp
    have hroot1 : a * t1 * t1 + b * t1 + c = 0 := by rw [hfac]; simp
    have hout : ∀ u : K, t1 < u → a * u * u + b * u + c ≠ 0 := by
      intro u hu
      rw [hfac]
      exact (mul_pos (mul_pos hapos (by linarith)) (by linarith)).ne'
    have hbelow : ∀ u : K, u < t0 → a * u * u + b * u + c ≠ 0 := by
      intro u hu
      rw [hfac, mul_assoc]
      exact (mul_pos hapos (mul_pos_of_neg_of_neg (by linarith) (by linarith))).ne'
    have hbetween : ∀ u : K, t0 < u → u < t1 → a * u * u + b * u + c ≠ 0 := by
      intro u hu0 hu1
      rw [hfac]
      exact (mul_neg_of_pos_of_neg (mul_pos hapos (by linarith)) (by linarith)).ne
    by_cases h0 : t0 ≤ 0
    · by_cases h1 : t1 ≤ 0
      · rw [if_pos ⟨h0, h1⟩] at hval
        rw [hval]
        refine ⟨fun t ht hpos => ?_, fun _ u hu => hout u (by linarith)⟩
        injection ht with ht
        exact absurd ht hpos.ne
      · rw [if_neg (fun h => h1 h.2), if_pos h0] at hval
        rw [hval]
        refine ⟨fun t ht hpos => ?_, fun h => ?_⟩
        · injection ht with ht
          subst ht
          exact ⟨hroot1, fun u hu0 hu1 => hbetween u (by linarith) hu1⟩
        · injection h with h
          exact absurd h.le h1
    · have h0' : 0 < t0 := not_le.mp h0
      have h1 : ¬ t1 ≤ 0 := by
        intro h
        linarith
      rw [if_neg (fun h => h0 h.1), if_neg h0, if_neg h1, min_eq_left hle] at hval
      rw [hval]
      refine ⟨fun t ht hpos => ?_, fun h => ?_⟩
      · injection ht with ht
        subst ht
        exact ⟨hroot0, fun u _ hu1 => hbelow u hu1⟩
      · injection h with h
        exact absurd h h0'.ne'

/-- The scenario of the sphere with centre (0,0,5) and radius 1 on the ray along the z
axis: the result 4 gives the point (0,0,4) of the sphere, and no smaller positive parameter
gives a point of the sphere. -/
theorem sphere_intersection_first_positive_witness :
    sphere_intersection exactLibm ⟨fin 0, fin 0, fin 0⟩ ⟨fin 0, fin 0, fin 1⟩
        ⟨fin 0, fin 0, fin 5⟩ (fin 1) = fin 4
      ∧ ((0 : ℚ) + 4 * 0 - 0) ^ 2 + (0 + 4 * 0 - 0) ^ 2 + (0 + 4 * 1 - 5) ^ 2 = 1 ^ 2
      ∧ ∀ t1 : ℚ, 0 < t1 → t1 < 4 →
          (0 + t1 * 0 - 0) ^ 2 + (0 + t1 * 0 - 0) ^ 2 + (0 + t1 * 1 - 5) ^ 2 ≠ 1 ^ 2 := by
  have hval : sphere_intersection exactLibm ⟨fin 0, fin 0, fin 0⟩ ⟨fin 0, fin 0, fin 1⟩
      ⟨fin 0, fin 0, fin 5⟩ (fin 1) = fin 4 := by
    have h := sphere_intersection_fin exactLibm 0 0 0 0 0 1 0 0 5 1 (by norm_num)
    norm_num [exactLibm_sqrt_four] at h
    exact h
  have h := (sphere_intersection_first_positive exactLibm 0 0 0 0 0 1 0 0 5 1 1 (-10) 24
    (Or.inr (Or.inr (by norm_num))) (by norm_num) (by norm_num) (by norm_num)
    (by
      intro _
      have h4 : ((-10 : ℚ) * (-10) - 4 * 1 * 24) = 4 := by norm_num
      rw [h4, exactLibm_sqrt_four]
      norm_num)).1 4 hval (by norm_num)
  exact ⟨hval, h.1, h.2⟩

end SphereGeometry

/-! ## The stored normal of a plane -/

section StoredNormal

variable {K : Type} [LinearOrderedField K]

/-- The value of `normalize` on a finite vector whose sum of squares has the root `len`,
not zero. -/
theorem normalize_fin (m : Libm K) (v0 v1 v2 len : K)
    (hlen : m.sqrt (v0 * v0 + v1 * v1 + v2 * v2) = len) (hne : len ≠ 0) :
    normalize m ⟨fin v0, fin v1, fin v2⟩ = ⟨fin (v0 / len), fin (v1 / len), fin (v2 / len)⟩ := by
  have hnn : ¬ (v0 * v0 + v1 * v1 + v2 * v2 < 0) :=
    not_lt.mpr (by nlinarith [mul_self_nonneg v0, mul_self_nonneg v1, mul_self_nonneg v2])
  simp only [normalize, sqr_fin, fin_add, sqrt_fin, hnn, if_false, hlen,
    fin_div_of_ne _ _ hne]

/-- C21: for a plane object and a non-zero raw normal `v`, `store_value` with the field 6
(normal) stores `-v/|v|` when the third component of `v` is `> 0` and `v/|v|` otherwise; the
stored normal has length 1 and a third component `<= 0`; the colours and the position of
the plane are not changed.  The function `sqrt` is taken to return the non-negative root
`len` of the sum of squares. -/
theorem store_value_plane_normal (m : Libm K) (diffuse_color specular_color position normal : Vec K)
    (input_value : Dbl K) (v0 v1 v2 len : K) (hv : v0 ≠ 0 ∨ v1 ≠ 0 ∨ v2 ≠ 0)
    (hlen : m.sqrt (v0 * v0 + v1 * v1 + v2 * v2) = len) (hlen0 : 0 ≤ len)
    (hsq : len * len = v0 * v0 + v1 * v1 + v2 * v2) :
    (0 < v2 →
        store_value m (.plane diffuse_color specular_color position normal) 6 input_value
            (some ⟨fin v0, fin v1, fin v2⟩)
          = .ok (.plane diffuse_color specular_color position
              ⟨fin (-v0 / len), fin (-v1 / len), fin (-v2 / len)⟩))
      ∧ (¬ 0 < v2 →
        store_value m (.plane diffuse_color specular_color position normal) 6 input_value
            (some ⟨fin v0, fin v1, fin v2⟩)
          = .ok (.plane diffuse_color specular_color position
              ⟨fin (v0 / len), fin (v1 / len), fin (v2 / len)⟩))
      ∧ (∃ n0 n1 n2 : K,
          store_value m (.plane diffuse_color specular_color position normal) 6 input_value
              (some ⟨fin v0, fin v1, fin v2⟩)
            = .ok (.plane diffuse_color specular_color position ⟨fin n0, fin n1, fin n2⟩)
          ∧ n0 * n0 + n1 * n1 + n2 * n2 = 1 ∧ n2 ≤ 0) := by
  have hsum : 0 < v0 * v0 + v1 * v1 + v2 * v2 := by
    rcases hv with h | h | h
    · have := mul_self_pos.mpr h
      nlinarith [mul_self_nonneg v1, mul_self_nonneg v2]
    · have := mul_self_pos.mpr h
      nlinarith [mul_self_nonneg v0, mul_self_nonneg v2]
    · have := mul_self_pos.mpr h
      nlinarith [mul_self_nonneg v0, mul_self_nonneg v1]
  have hne : len ≠ 0 := by
    intro h0
    rw [h0, mul_zero] at hsq
    linarith
  have hpos : 0 < len := lt_of_le_of_ne hlen0 (Ne.symm hne)
  have hlenneg : m.sqrt (-v0 * -v0 + -v1 * -v1 + -v2 * -v2) = len := by
    rw [neg_mul_neg, neg_mul_neg, neg_mul_neg]
    exact hlen
  have hflip : 0 < v2 →
      store_value m (.plane diffuse_color specular_color position normal) 6 input_value
          (some ⟨fin v0, fin v1, fin v2⟩)
        = .ok (.plane diffuse_color specular_color position
            ⟨fin (-v0 / len), fin (-v1 / len), fin (-v2 / len)⟩) := by
    intro h2
    simp only [store_value, gt_fin, h2, decide_True, if_true, fin_neg,
      normalize_fin m (-v0) (-v1) (-v2) len hlenneg hne]
    rfl
  have hkeep : ¬ 0 < v2 →
      store_value m (.plane diffuse_color specular_color position normal) 6 input_value
          (some ⟨fin v0, fin v1, fin v2⟩)
        = .ok (.plane diffuse_color specular_color position
            ⟨fin (v0 / len), fin (v1 / len), fin (v2 / len)⟩) := by
    intro h2
    simp only [store_value, gt_fin, h2, decide_False, Bool.false_eq_true, if_false,
      normalize_fin m v0 v1 v2 len hlen hne]
    rfl
  have hunitp : v0 / len * (v0 / len) + v1 / len * (v1 / len) + v2 / len * (v2 / len) = 1 := by
    field_simp
    linarith
  refine ⟨hflip, hkeep, ?_⟩
  by_cases h2 : 0 < v2
  · refine ⟨_, _, _, hflip h2, ?_, ?_⟩
    · rw [neg_div, neg_div, neg_div, neg_mul_neg, neg_mul_neg, neg_mul_neg]
      exact hunitp
    · rw [neg_div]
      exact neg_nonpos.mpr (div_nonneg h2.le hlen0)
  · refine ⟨_, _, _, hkeep h2, hunitp, ?_⟩
    exact div_nonpos_of_nonpos_of_nonneg (not_lt.mp h2) hlen0

/-- The raw normal (0,0,2) of a plane is stored as (0,0,-1). -/
theorem store_value_plane_normal_witness :
    store_value exactLibm plane5 6 (fin 0) (some ⟨fin 0, fin 0, fin 2⟩)
      = .ok (.plane white white ⟨fin 0, fin 0, fin 5⟩ ⟨fin 0, fin 0, fin (-1)⟩) := by
  have hs : exactLibm.sqrt ((0 : ℚ) * 0 + 0 * 0 + 2 * 2) = 2 := by
    have h := exactLibm_sqrt_four
    norm_num at h ⊢
    exact h
  have h := (store_value_plane_normal exactLibm white white ⟨fin 0, fin 0, fin 5⟩
    ⟨fin 0, fin 0, fin (-1)⟩ (fin 0) 0 0 2 2 (Or.inr (Or.inr (by norm_num))) hs (by norm_num)
    (by norm_num)).1 (by norm_num)
  norm_num at h
  exact h

end StoredNormal

/-! ## The bytes of the image -/

section ImageBytes

variable {K : Type} [LinearOrderedField K] [FloorRing K]

/-- The integer part of `255*c` for a channel `c` in [0,1]. -/
theorem floor_channel (c : K) (h0 : 0 ≤ c) (h1 : c ≤ 1) :
    0 ≤ ⌊255 * c⌋ ∧ ⌊255 * c⌋ ≤ 255 ∧ (⌊255 * c⌋ = 255 ↔ c = 1) := by
  have hnn : (0 : K) ≤ 255 * c := mul_nonneg (by norm_num) h0
  have hle : ⌊255 * c⌋ ≤ 255 := by
    have h := Int.floor_le (255 * c)
    have h2 : ((⌊255 * c⌋ : Int) : K) ≤ ((255 : Int) : K) := by
      push_cast
      linarith
    exact_mod_cast h2
  refine ⟨Int.floor_nonneg.mpr hnn, hle, ?_, ?_⟩
  · intro h
    have h2 := Int.floor_le (255 * c)
    rw [h] at h2
    push_cast at h2
    linarith
  · intro h
    subst h
    have h3 : (255 * 1 : K) = ((255 : Int) : K) := by push_cast; ring
    rw [h3, Int.floor_intCast]

/-- The byte written for a channel `c` in [0,1] is the integer part of `255*c`. -/
theorem channel_byte_fin (c : K) (h0 : 0 ≤ c) (h1 : c ≤ 1) :
    channel_byte (fin c) = some ⌊255 * c⌋.toNat := by
  obtain ⟨hf0, hf1, -⟩ := floor_channel c h0 h1
  have hnn : (0 : K) ≤ 255 * c := mul_nonneg (by norm_num) h0
  have hrange : (-2147483648 : Int) ≤ ⌊255 * c⌋ ∧ ⌊255 * c⌋ ≤ (2147483647 : Int) := by
    constructor <;> omega
  have hmod : ⌊255 * c⌋ % 256 = ⌊255 * c⌋ := Int.emod_eq_of_lt hf0 (by omega)
  simp only [channel_byte, fin_mul, double_to_int, hnn, if_true, hrange, and_self, hmod]

/-- The loop of `create_image` over `n` pixels from the pixel `a` on. -/
theorem create_image_loop_bytes (pixel_buffer : Nat → Vec K) :
    ∀ (n a : Nat),
      (∀ k : Nat, a ≤ k → k < a + n → ∃ c0 c1 c2 : K,
        pixel_buffer k = ⟨fin c0, fin c1, fin c2⟩
          ∧ 0 ≤ c0 ∧ c0 ≤ 1 ∧ 0 ≤ c1 ∧ c1 ≤ 1 ∧ 0 ≤ c2 ∧ c2 ≤ 1) →
      ∃ payload : List Nat,
        create_image_loop pixel_buffer (List.range' a n) = some payload
          ∧ payload.length = n * 3
          ∧ ∀ (i : Nat) (c0 c1 c2 : K), i < n →
              pixel_buffer (a + i) = ⟨fin c0, fin c1, fin c2⟩ →
              payload[i * 3]? = some ⌊255 * c0⌋.toNat
                ∧ payload[i * 3 + 1]? = some ⌊255 * c1⌋.toNat
                ∧ payload[i * 3 + 2]? = some ⌊255 * c2⌋.toNat := by
  intro n
  induction n with
  | zero =>
    intro a _
    exact ⟨[], rfl, rfl, fun i _ _ _ hi => absurd hi (Nat.not_lt_zero i)⟩
  | succ n ih =>
    intro a hgood
    obtain ⟨c0, c1, c2, hpix, h00, h01, h10, h11, h20, h21⟩ := hgood a (le_refl a) (by omega)
    obtain ⟨rest, hrest, hlen, hbytes⟩ :=
      ih (a + 1) (fun k hk1 hk2 => hgood k (by omega) (by omega))
    refine ⟨⌊255 * c0⌋.toNat :: ⌊255 * c1⌋.toNat :: ⌊255 * c2⌋.toNat :: rest, ?_, ?_, ?_⟩
    · simp only [List.range'_succ, create_image_loop, hpix, channel_byte_fin c0 h00 h01,
        channel_byte_fin c1 h10 h11, channel_byte_fin c2 h20 h21, hrest]
    · simp only [List.length_cons, hlen]
      omega
    · intro i d0 d1 d2 hi hd
      cases i with
      | zero =>
        rw [Nat.add_zero, hpix] at hd
        simp only [Vec.mk.injEq, Dbl.fin.injEq] at hd
        obtain ⟨rfl, rfl, rfl⟩ := hd
        simp
      | succ i =>
        have hd2 : pixel_buffer (a + 1 + i) = ⟨fin d0, fin d1, fin d2⟩ := by
          rw [← hd]
          congr 1
          omega
        obtain ⟨hb0, hb1, hb2⟩ := hbytes i d0 d1 d2 (by omega) hd2
        have e0 : (i + 1) * 3 = i * 3 + 1 + 1 + 1 := by omega
        have e1 : (i + 1) * 3 + 1 = i * 3 + 1 + 1 + 1 + 1 := by omega
        have e2 : (i + 1) * 3 + 2 = i * 3 + 2 + 1 + 1 + 1 := by omega
        rw [e1, e2, e0]
        simp only [List.getElem?_cons_succ]
        exact ⟨hb0, hb1, hb2⟩

/-- C22: when every channel of the `width*height` pixels of the buffer is a value `c` in
[0,1], `create_image` writes a payload of `width*height*3` bytes in which the channels of
the pixel `k` are at the offsets `3k`, `3k+1`, `3k+2`, in buffer order, and the byte of a
channel `c` is the integer part of `255*c` (truncation, not rounding), which lies in
0..255 and equals 255 only when `c = 1`. -/
theorem create_image_bytes (pixel_buffer : Nat → Vec K) (width height : Nat)
    (hbuf : ∀ k : Nat, k < width * height → ∃ c0 c1 c2 : K,
      pixel_buffer k = ⟨fin c0, fin c1, fin c2⟩
        ∧ 0 ≤ c0 ∧ c0 ≤ 1 ∧ 0 ≤ c1 ∧ c1 ≤ 1 ∧ 0 ≤ c2 ∧ c2 ≤ 1) :
    (∃ payload : List Nat,
        create_image pixel_buffer width height = some payload
          ∧ payload.length = width * height * 3
          ∧ ∀ (k : Nat) (c0 c1 c2 : K), k < width * height →
              pixel_buffer k = ⟨fin c0, fin c1, fin c2⟩ →
              payload[k * 3]? = some ⌊255 * c0⌋.toNat
                ∧ payload[k * 3 + 1]? = some ⌊255 * c1⌋.toNat
                ∧ payload[k * 3 + 2]? = some ⌊255 * c2⌋.toNat)
      ∧ (∀ c : K, 0 ≤ c → c ≤ 1 →
          channel_byte (fin c) = some ⌊255 * c⌋.toNat
            ∧ ⌊255 * c⌋.toNat ≤ 255 ∧ (⌊255 * c⌋.toNat = 255 ↔ c = 1)) := by
  constructor
  · obtain ⟨payload, hp, hlen, hbytes⟩ := create_image_loop_bytes pixel_buffer
      (width * height) 0 (fun k _ hk => hbuf k (by omega))
    refine ⟨payload, ?_, hlen, ?_⟩
    · rw [create_image, List.range_eq_range']
      exact hp
    · intro k c0 c1 c2 hk hpix
      exact hbytes k c0 c1 c2 hk (by rw [Nat.zero_add]; exact hpix)
  · intro c h0 h1
    obtain ⟨hf0, hf1, hiff⟩ := floor_channel c h0 h1
    refine ⟨channel_byte_fin c h0 h1, by omega, ?_⟩
    rw [← hiff]
    omega

/-- The 1×1 image of a pixel with the channels 1/2, 1 and 0: the bytes are 127 (not 128),
255 and 0. -/
theorem create_image_bytes_witness :
    ∃ payload : List Nat, create_image halfBuffer 1 1 = some payload
      ∧ payload.length = 3
      ∧ payload[0]? = some 127 ∧ payload[1]? = some 255 ∧ payload[2]? = some 0 := by
  have hgood : ∀ k : Nat, k < 1 * 1 → ∃ c0 c1 c2 : ℚ,
      halfBuffer k = ⟨fin c0, fin c1, fin c2⟩
        ∧ 0 ≤ c0 ∧ c0 ≤ 1 ∧ 0 ≤ c1 ∧ c1 ≤ 1 ∧ 0 ≤ c2 ∧ c2 ≤ 1 :=
    fun k _ => ⟨1 / 2, 1, 0, rfl, by norm_num, by norm_num, by norm_num, by norm_num,
      by norm_num, by norm_num⟩
  obtain ⟨payload, hp, hlen, hbytes⟩ := (create_image_bytes halfBuffer 1 1 hgood).1
  obtain ⟨h0, h1, h2⟩ := hbytes 0 (1 / 2) 1 0 (by norm_num) rfl
  have f0 : ⌊(255 : ℚ) * (1 / 2)⌋ = 127 := by
    rw [Int.floor_eq_iff]
    norm_num
  have f1 : ⌊(255 : ℚ) * 1⌋ = 255 := by
    rw [Int.floor_eq_iff]
    norm_num
  have f2 : ⌊(255 : ℚ) * 0⌋ = 0 := by
    rw [Int.floor_eq_iff]
    norm_num
  rw [f0] at h0
  rw [f1] at h1
  rw [f2] at h2
  exact ⟨payload, hp, hlen, h0, h1, h2⟩

end ImageBytes

/-! ## The exchange done by `move_camera_to_front` -/

section CameraSwap

variable {K : Type}

/-- The loop of `move_camera_to_front` over indices that hold no camera changes nothing. -/
theorem move_camera_loop_no_camera :
    ∀ (cnt i : Nat) (l : List (Object K)) (num : Nat), i + cnt = l.length →
      (∀ (j : Nat) (o : Object K), i ≤ j → l[j]? = some o → o.kind ≠ 0) →
      move_camera_loop (List.range' i cnt) (l, num) = .ok (l, num) := by
  intro cnt
  induction cnt with
  | zero =>
    intro i l num _ _
    rfl
  | succ cnt ih =>
    intro i l num hlen hno
    have hilt : i < l.length := by omega
    have h0lt : 0 < l.length := by omega
    have hgeti : l[i]? = some l[i] := List.getElem?_eq_getElem hilt
    have hget0 : l[0]? = some l[0] := List.getElem?_eq_getElem h0lt
    have hk : l[i].kind ≠ 0 := hno i l[i] (le_refl i) hgeti
    have hstep : move_camera_loop (List.range' i (cnt + 1)) (l, num)
        = move_camera_loop (List.range' (i + 1) cnt) (l, num) := by
      simp only [List.range'_succ, move_camera_loop, hgeti, hget0, hk, false_and, if_false]
    rw [hstep]
    exact ih (i + 1) l num (by omega) (fun j o hj => hno j o (by omega))

/-- The loop of `move_camera_to_front` from an index `i` on, when the only camera from `i`
on is at `k` and none was counted before: the objects at 0 and `k` are exchanged. -/
theorem move_camera_loop_one_camera :
    ∀ (cnt i : Nat) (l : List (Object K)) (k : Nat) (cam first : Object K),
      i + cnt = l.length → i ≤ k → l[k]? = some cam → cam.kind = 0 → l[0]? = some first →
      (∀ (j : Nat) (o : Object K), i ≤ j → j ≠ k → l[j]? = some o → o.kind ≠ 0) →
      move_camera_loop (List.range' i cnt) (l, 0) = .ok ((l.set 0 cam).set k first, 1) := by
  intro cnt
  induction cnt with
  | zero =>
    intro i l k cam first hlen hik hk _ _ _
    have hklt : k < l.length := by
      by_contra hge
      rw [List.getElem?_eq_none (by omega)] at hk
      exact Option.noConfusion hk
    omega
  | succ cnt ih =>
    intro i l k cam first hlen hik hk hcam hfirst hno
    have hilt : i < l.length := by omega
    have hgeti : l[i]? = some l[i] := List.getElem?_eq_getElem hilt
    by_cases hi : i = k
    · subst hi
      have hcam2 : l[i] = cam := by
        rw [hgeti] at hk
        exact Option.some.inj hk
      by_cases hi0 : i = 0
      · subst hi0
        have hfc : first = cam := by
          rw [hk] at hfirst
          exact (Option.some.inj hfirst).symm
        have hstep : move_camera_loop (List.range' 0 (cnt + 1)) (l, 0)
            = move_camera_loop (List.range' (0 + 1) cnt) (l, 0 + 1) := by
          simp only [List.range'_succ, move_camera_loop, hgeti, hcam2, hcam, and_self, if_true]
        rw [hstep, move_camera_loop_no_camera cnt (0 + 1) l (0 + 1) (by omega)
          (fun j o hj => hno j o (by omega) (by omega))]
        have hset : (l.set 0 cam).set 0 first = l := by
          rw [hfc]
          cases l with
          | nil => rfl
          | cons x t =>
            simp only [List.getElem?_cons_zero, Option.some.injEq] at hk
            subst hk
            rfl
        rw [hset]
      · have hstep : move_camera_loop (List.range' i (cnt + 1)) (l, 0)
            = move_camera_loop (List.range' (i + 1) cnt)
                ((l.set 0 cam).set i first, 0 + 1) := by
          simp only [List.range'_succ, move_camera_loop, hgeti, hfirst, hcam2, hcam, hi0,
            and_false, if_false, if_true, Nat.zero_add, gt_iff_lt, Nat.lt_irrefl]
        rw [hstep]
        exact move_camera_loop_no_camera cnt (i + 1) _ (0 + 1)
          (by simp only [List.length_set]; omega)
          (fun j o hj hget => hno j o (by omega) (by omega)
            (by
              rw [List.getElem?_set_ne (by omega), List.getElem?_set_ne (by omega)] at hget
              exact hget))
    · have hkind : l[i].kind ≠ 0 := hno i l[i] (le_refl i) hi hgeti
      have hstep : move_camera_loop (List.range' i (cnt + 1)) (l, 0)
          = move_camera_loop (List.range' (i + 1) cnt) (l, 0) := by
        simp only [List.range'_succ, move_camera_loop, hgeti, hfirst, hkind, false_and,
          if_false]
      rw [hstep]
      exact ih (i + 1) l k cam first (by omega) (by omega) hk hcam hfirst
        (fun j o hj => hno j o (by omega))

/-- The list with `a` put at the front and `x` put in the place of `a`. -/
theorem perm_cons_set {α : Type} :
    ∀ (t : List α) (j : Nat) (a x : α), t[j]? = some a → List.Perm (a :: t.set j x) (x :: t) := by
  intro t
  induction t with
  | nil =>
    intro j a x h
    simp at h
  | cons y t ih =>
    intro j a x h
    cases j with
    | zero =>
      simp only [List.getElem?_cons_zero, Option.some.injEq] at h
      subst h
      exact List.Perm.swap _ _ _
    | succ j =>
      simp only [List.getElem?_cons_succ] at h
      simp only [List.set_cons_succ]
      exact ((List.Perm.swap y a _).trans ((ih j a x h).cons y)).trans (List.Perm.swap x y t)

/-- The exchange of the entries 0 and `k` of a list: a permutation that leaves every other
position alone, and the list itself when `k = 0`. -/
theorem swap_front_spec {α : Type} (l : List α) (k : Nat) (a first : α)
    (hk : l[k]? = some a) (hfirst : l[0]? = some first) :
    ((l.set 0 a).set k first)[0]? = some a
      ∧ ((l.set 0 a).set k first)[k]? = some first
      ∧ List.Perm ((l.set 0 a).set k first) l
      ∧ ((l.set 0 a).set k first).length = l.length
      ∧ (∀ j : Nat, j ≠ 0 → j ≠ k → ((l.set 0 a).set k first)[j]? = l[j]?)
      ∧ (k = 0 → (l.set 0 a).set k first = l) := by
  cases l with
  | nil => simp at hk
  | cons x t =>
    simp only [List.getElem?_cons_zero, Option.some.injEq] at hfirst
    subst hfirst
    cases k with
    | zero =>
      simp only [List.getElem?_cons_zero, Option.some.injEq] at hk
      subst hk
      exact ⟨by simp, by simp, by simp, by simp, fun j _ _ => by simp, fun _ => by simp⟩
    | succ k =>
      simp only [List.getElem?_cons_succ] at hk
      have hklt : k < t.length := by
        by_contra hge
        rw [List.getElem?_eq_none (by omega)] at hk
        exact Option.noConfusion hk
      refine ⟨by simp, ?_, ?_, ?_, ?_, fun h0 => absurd h0 (Nat.succ_ne_zero k)⟩
      · simp only [List.set_cons_zero, List.set_cons_succ, List.getElem?_cons_succ]
        rw [List.getElem?_set_self (by omega)]
      · simp only [List.set_cons_zero, List.set_cons_succ]
        exact perm_cons_set t k a x hk
      · simp only [List.length_set]
      · intro j hj0 hjk
        rw [List.getElem?_set_ne (by omega), List.getElem?_set_ne (by omega)]

/-- Claim C27. When the object list holds exactly one camera, at index `k`,
`move_camera_to_front` succeeds and leaves the list with the entries 0 and `k` exchanged:
the camera is at index 0, the former first object is at index `k`, the result is a
permutation of the input of the same length, every other position is as before, and for
`k = 0` the list is the input itself. A list without a camera is returned as it was. -/
theorem move_camera_to_front_swap (object_array : List (Object K)) :
    (∀ (k : Nat) (cam : Object K), object_array[k]? = some cam → cam.kind = 0 →
        (∀ (j : Nat) (o : Object K), j ≠ k → object_array[j]? = some o → o.kind ≠ 0) →
        ∃ first : Object K, object_array[0]? = some first
          ∧ move_camera_to_front object_array
              = .ok ((object_array.set 0 cam).set k first)
          ∧ ((object_array.set 0 cam).set k first)[0]? = some cam
          ∧ ((object_array.set 0 cam).set k first)[k]? = some first
          ∧ List.Perm ((object_array.set 0 cam).set k first) object_array
          ∧ ((object_array.set 0 cam).set k first).length = object_array.length
          ∧ (∀ j : Nat, j ≠ 0 → j ≠ k →
              ((object_array.set 0 cam).set k first)[j]? = object_array[j]?)
          ∧ (k = 0 → (object_array.set 0 cam).set k first = object_array))
      ∧ ((∀ (j : Nat) (o : Object K), object_array[j]? = some o → o.kind ≠ 0) →
          move_camera_to_front object_array = .ok object_array) := by
  refine ⟨fun k cam hk hcam honly => ?_, fun hno => ?_⟩
  · have hklt : k < object_array.length := by
      by_contra hge
      rw [List.getElem?_eq_none (by omega)] at hk
      exact Option.noConfusion hk
    have h0lt : 0 < object_array.length := by omega
    have hfirst : object_array[0]? = some object_array[0] := List.getElem?_eq_getElem h0lt
    have hloop := move_camera_loop_one_camera object_array.length 0 object_array k cam
      object_array[0] (by omega) (Nat.zero_le k) hk hcam hfirst (fun j o _ => honly j o)
    rw [← List.range_eq_range'] at hloop
    exact ⟨object_array[0], hfirst, by simp only [move_camera_to_front, hloop],
      swap_front_spec object_array k cam object_array[0] hk hfirst⟩
  · have hloop := move_camera_loop_no_camera object_array.length 0 object_array 0 (by omega)
      (fun j o _ => hno j o)
    rw [← List.range_eq_range'] at hloop
    simp only [move_camera_to_front, hloop]

/-- A sphere followed by the camera: the two are exchanged; a sphere alone stays. -/
theorem move_camera_to_front_swap_witness :
    move_camera_to_front [sphere5, camera2] = .ok [camera2, sphere5]
      ∧ move_camera_to_front [sphere5] = .ok [sphere5] := by
  refine ⟨?_, (move_camera_to_front_swap [sphere5]).2 ?_⟩
  · obtain ⟨first, hfirst, hres, _⟩ := (move_camera_to_front_swap [sphere5, camera2]).1 1
      camera2 rfl rfl (by
        intro j o hj hget
        match j, hj, hget with
        | 0, _, hget =>
          simp only [List.getElem?_cons_zero, Option.some.injEq] at hget
          subst hget
          simp [sphere5, Object.kind]
        | 1, hj, _ => exact absurd rfl hj
        | j + 2, _, hget => simp at hget)
    simp only [List.getElem?_cons_zero, Option.some.injEq] at hfirst
    subst hfirst
    exact hres
  · intro j o hget
    match j, hget with
    | 0, hget =>
      simp only [List.getElem?_cons_zero, Option.some.injEq] at hget
      subst hget
      simp [sphere5, Object.kind]
    | j + 1, hget => simp at hget

end CameraSwap

/-! ## The index handed to `render_light` -/

section ShapeIndex

variable {K : Type} [LinearOrderedField K]

/-- When the test `best_t > 0 && best_t != INFINITY` of `raycast_scene` passes, the scan of
this pixel has found a nearest positive hit, and it leaves the same `best_t` and
`best_index` whatever `best_index` held before the scan. -/
theorem nearest_loop_hit (m : Libm K) (Ro Rd : Vec K) (object_array : List (Object K))
    (bi0 : Option Nat)
    (hcond : (Dbl.gt (nearest_loop m Ro Rd object_array.tail 1 (pinf, bi0)).1 (fin 0)
      && Dbl.ne (nearest_loop m Ro Rd object_array.tail 1 (pinf, bi0)).1 pinf) = true) :
    ∃ (i : Nat) (o : Object K) (q : K), object_array[i + 1]? = some o
      ∧ object_t m Ro Rd o = some (fin q) ∧ 0 < q
      ∧ (∀ bi1 : Option Nat,
          nearest_loop m Ro Rd object_array.tail 1 (pinf, bi1) = (fin q, some (i + 1)))
      ∧ ∀ (j : Nat) (o1 : Object K) (q1 : K), object_array[j + 1]? = some o1 →
          object_t m Ro Rd o1 = some (fin q1) → 0 < q1 → q ≤ q1 ∧ (q1 = q → i ≤ j) := by
  rcases nearest_loop_pixel m Ro Rd object_array bi0 with ⟨hsame, -⟩ | ⟨i, o, q, hget, ht, hq, -, hmin⟩
  · rw [hsame] at hcond
    simp [Dbl.ne, Dbl.eq] at hcond
  · refine ⟨i, o, q, hget, ht, hq, fun bi1 => ?_, hmin⟩
    rcases nearest_loop_pixel m Ro Rd object_array bi1 with
      ⟨-, hnone⟩ | ⟨i1, o1, q1, hget1, ht1, hq1, hres1, hmin1⟩
    · exact absurd hq (hnone i o q hget ht)
    · have h1 := hmin i1 o1 q1 hget1 ht1 hq1
      have h2 := hmin1 i o q hget ht hq
      have hqq : q1 = q := le_antisymm h2.1 h1.1
      have hii : i1 = i := le_antisymm (h2.2 hqq.symm) (h1.2 hqq)
      rw [hres1, hqq, hii]

/-- The outcome of `raycast_pixel` when the scan found a hit: the colour of `render_light`
for the nearest hit goes to the slot of the pixel. -/
theorem raycast_pixel_hit (m : Libm K) (object_array : List (Object K)) (w h : Dbl K)
    (N M : Nat) (s : RenderState K) (y x : Nat) (q : K) (j : Nat) (color : Vec K)
    (hq : 0 < q)
    (hres : nearest_loop m ⟨fin 0, fin 0, fin 0⟩ (pixel_ray m w h N M x y) object_array.tail 1
      (pinf, s.best_index) = (fin q, some j))
    (hcol : render_light m object_array (fin q) j ⟨fin 0, fin 0, fin 0⟩
      (pixel_ray m w h N M x y) = .ok color)
    (hpc : s.pixel_count < N * M) :
    raycast_pixel m object_array w h N M s y x
      = .ok ⟨Function.update s.pixel_buffer (buffer_index N M s.pixel_count).toNat color,
          s.pixel_count + 1, some j⟩ := by
  have hr := buffer_index_range N M s.pixel_count hpc
  have hgt : Dbl.gt (fin q : Dbl K) (fin 0) = true := by
    simp only [gt_fin, decide_eq_true_eq]
    exact hq
  have hne : Dbl.ne (fin q : Dbl K) pinf = true := by simp [Dbl.ne, Dbl.eq]
  simp only [raycast_pixel, hres, hgt, hne, Bool.and_self, if_true, hcol, hr, and_self]

/-- Claim C26. Whenever `raycast_scene` calls `render_light` for a pixel (the test
`best_t > 0 && best_t != INFINITY` passed), whatever `best_index` held before the scan of
this pixel: `best_index` is an index `j ≥ 1` written by this scan (the scan gives the same
`best_t` and `best_index` from any earlier value), the object there is a sphere or a plane
whose intersection is `best_t`, `render_light` returns a colour, and the pixel does not end
in `exit(1)`. With the camera as object 0, `raycast_scene` as a whole returns. -/
theorem render_light_index_is_shape (m : Libm K) (object_array : List (Object K))
    (w h : Dbl K) (N M : Nat) :
    (∀ (s : RenderState K) (y x : Nat),
        (Dbl.gt (nearest_loop m ⟨fin 0, fin 0, fin 0⟩ (pixel_ray m w h N M x y)
            object_array.tail 1 (pinf, s.best_index)).1 (fin 0)
          && Dbl.ne (nearest_loop m ⟨fin 0, fin 0, fin 0⟩ (pixel_ray m w h N M x y)
            object_array.tail 1 (pinf, s.best_index)).1 pinf) = true →
        ∃ (j : Nat) (o : Object K) (q : K) (color : Vec K), 1 ≤ j ∧ 0 < q
          ∧ (∀ stale : Option Nat,
              nearest_loop m ⟨fin 0, fin 0, fin 0⟩ (pixel_ray m w h N M x y)
                object_array.tail 1 (pinf, stale) = (fin q, some j))
          ∧ object_array[j]? = some o ∧ (o.kind = 1 ∨ o.kind = 2)
          ∧ object_t m ⟨fin 0, fin 0, fin 0⟩ (pixel_ray m w h N M x y) o = some (fin q)
          ∧ render_light m object_array (fin q) j ⟨fin 0, fin 0, fin 0⟩
              (pixel_ray m w h N M x y) = .ok color
          ∧ (s.pixel_count < N * M →
              raycast_pixel m object_array w h N M s y x
                = .ok ⟨Function.update s.pixel_buffer
                    (buffer_index N M s.pixel_count).toNat color, s.pixel_count + 1, some j⟩))
      ∧ (∀ (s : RenderState K) (y x : Nat) (e : Abort K),
          raycast_pixel m object_array w h N M s y x = .error e →
            e.fault = Fault.undefined ∧ ¬ s.pixel_count < N * M)
      ∧ (∀ (rest : List (Object K)) (pixel_buffer : Nat → Vec K),
          object_array = .camera w h :: rest →
          ∃ image : Nat → Vec K, raycast_scene m object_array pixel_buffer N M = .ok image) := by
  refine ⟨fun s y x hcond => ?_, fun s y x e herr => ?_, fun rest pixel_buffer hobj => ?_⟩
  · obtain ⟨i, o, q, hget, ht, hq, hall, -⟩ :=
      nearest_loop_hit m ⟨fin 0, fin 0, fin 0⟩ (pixel_ray m w h N M x y) object_array
        s.best_index hcond
    have hkind := object_t_kind m _ _ o (fin q) ht
    obtain ⟨color, hcol⟩ := render_light_ok m object_array (fin q) (i + 1) ⟨fin 0, fin 0, fin 0⟩
      (pixel_ray m w h N M x y) o hget hkind
    exact ⟨i + 1, o, q, color, by omega, hq, hall, hget, hkind, ht, hcol,
      fun hpc => raycast_pixel_hit m object_array w h N M s y x q (i + 1) color hq
        (hall s.best_index) hcol hpc⟩
  · have hnot : ¬ s.pixel_count < N * M := by
      intro hpc
      obtain ⟨s1, hs1⟩ := raycast_pixel_ok m object_array w h N M s y x hpc
      rw [hs1] at herr
      exact Except.noConfusion herr
    refine ⟨?_, hnot⟩
    by_cases hcond : (Dbl.gt (nearest_loop m ⟨fin 0, fin 0, fin 0⟩ (pixel_ray m w h N M x y)
            object_array.tail 1 (pinf, s.best_index)).1 (fin 0)
          && Dbl.ne (nearest_loop m ⟨fin 0, fin 0, fin 0⟩ (pixel_ray m w h N M x y)
            object_array.tail 1 (pinf, s.best_index)).1 pinf) = true
    · obtain ⟨i, o, q, hget, ht, hq, hall, -⟩ :=
        nearest_loop_hit m ⟨fin 0, fin 0, fin 0⟩ (pixel_ray m w h N M x y) object_array
          s.best_index hcond
      have hkind := object_t_kind m _ _ o (fin q) ht
      obtain ⟨color, hcol⟩ := render_light_ok m object_array (fin q) (i + 1)
        ⟨fin 0, fin 0, fin 0⟩ (pixel_ray m w h N M x y) o hget hkind
      have hgt : Dbl.gt (fin q : Dbl K) (fin 0) = true := by
        simp only [gt_fin, decide_eq_true_eq]
        exact hq
      have hne : Dbl.ne (fin q : Dbl K) pinf = true := by simp [Dbl.ne, Dbl.eq]
      simp only [raycast_pixel, hall s.best_index, hgt, hne, Bool.and_self, if_true,
        hcol] at herr
      split at herr
      · exact Except.noConfusion herr
      · injection herr with herr
        rw [← herr]
    · simp only [raycast_pixel, hcond, Bool.false_eq_true, if_false] at herr
      exact Except.noConfusion herr
  · subst hobj
    exact raycast_scene_ok m w h rest pixel_buffer N M

/-- The plane scene as a 1×1 image: the index handed to `render_light` is 1, the plane. -/
theorem render_light_index_is_shape_witness :
    ∃ (o : Object ℚ) (color : Vec ℚ), [camera2, plane5, lightOnPlane][1]? = some o
      ∧ (o.kind = 1 ∨ o.kind = 2)
      ∧ render_light exactLibm [camera2, plane5, lightOnPlane] (fin 5) 1 ⟨fin 0, fin 0, fin 0⟩
          zAxis = .ok color := by
  have hn := nearest_loop_plane5
  simp only [origin] at hn
  obtain ⟨j, o, q, color, -, -, hall, hget, hkind, -, hcol, -⟩ :=
    (render_light_index_is_shape exactLibm [camera2, plane5, lightOnPlane] (fin 2) (fin 2)
      1 1).1 ⟨blackBuffer, 0, none⟩ 0 0 (by
        rw [pixel_ray_one, hn]
        simp [Dbl.gt, Dbl.lt, Dbl.ne, Dbl.eq])
  rw [pixel_ray_one] at hall hcol
  have h1 := hall none
  rw [hn] at h1
  simp only [Prod.mk.injEq, Dbl.fin.injEq, Option.some.injEq] at h1
  obtain ⟨hq, hj⟩ := h1
  subst hq
  subst hj
  exact ⟨o, color, hget, hkind, hcol⟩

end ShapeIndex

/-! ## A pixel does not depend on the pixels before it -/

section Independence

variable {K : Type} [LinearOrderedField K]

/-- The state after a pixel, in terms of the pixel rendered alone: whatever `best_index`
held before, the slot of the pixel receives the colour of `spec_pixel`, if there is one. -/
theorem raycast_pixel_alone (m : Libm K) (w h : Dbl K) (rest : List (Object K)) (N M : Nat)
    (s : RenderState K) (y x : Nat) (hpc : s.pixel_count < N * M) :
    ∃ bi : Option Nat,
      raycast_pixel m (.camera w h :: rest) w h N M s y x
        = .ok ⟨match spec_pixel m (.camera w h :: rest) N M x y with
            | some color =>
              Function.update s.pixel_buffer (buffer_index N M s.pixel_count).toNat color
            | none => s.pixel_buffer,
          s.pixel_count + 1, bi⟩ := by
  by_cases hcond : (Dbl.gt (nearest_loop m ⟨fin 0, fin 0, fin 0⟩ (pixel_ray m w h N M x y)
          (Object.camera w h :: rest).tail 1 (pinf, s.best_index)).1 (fin 0)
        && Dbl.ne (nearest_loop m ⟨fin 0, fin 0, fin 0⟩ (pixel_ray m w h N M x y)
          (Object.camera w h :: rest).tail 1 (pinf, s.best_index)).1 pinf) = true
  · obtain ⟨i, o, q, hget, ht, hq, hall, -⟩ :=
      nearest_loop_hit m ⟨fin 0, fin 0, fin 0⟩ (pixel_ray m w h N M x y)
        (.camera w h :: rest) s.best_index hcond
    have hkind := object_t_kind m _ _ o (fin q) ht
    obtain ⟨color, hcol⟩ := render_light_ok m (.camera w h :: rest) (fin q) (i + 1)
      ⟨fin 0, fin 0, fin 0⟩ (pixel_ray m w h N M x y) o hget hkind
    have hgt : Dbl.gt (fin q : Dbl K) (fin 0) = true := by
      simp only [gt_fin, decide_eq_true_eq]
      exact hq
    have hne : Dbl.ne (fin q : Dbl K) pinf = true := by simp [Dbl.ne, Dbl.eq]
    have hspec : spec_pixel m (.camera w h :: rest) N M x y = some color := by
      simp only [spec_pixel, hall none, hgt, hne, Bool.and_self, if_true, hcol]
    rw [hspec]
    exact ⟨some (i + 1), raycast_pixel_hit m (.camera w h :: rest) w h N M s y x q (i + 1)
      color hq (hall s.best_index) hcol hpc⟩
  · have hcond0 : ¬ (Dbl.gt (nearest_loop m ⟨fin 0, fin 0, fin 0⟩ (pixel_ray m w h N M x y)
          (Object.camera w h :: rest).tail 1 (pinf, none)).1 (fin 0)
        && Dbl.ne (nearest_loop m ⟨fin 0, fin 0, fin 0⟩ (pixel_ray m w h N M x y)
          (Object.camera w h :: rest).tail 1 (pinf, none)).1 pinf) = true := by
      intro h0
      obtain ⟨i, o, q, -, -, hq, hall, -⟩ :=
        nearest_loop_hit m ⟨fin 0, fin 0, fin 0⟩ (pixel_ray m w h N M x y)
          (.camera w h :: rest) none h0
      apply hcond
      rw [hall s.best_index]
      have hgt : Dbl.gt (fin q : Dbl K) (fin 0) = true := by
        simp only [gt_fin, decide_eq_true_eq]
        exact hq
      have hne : Dbl.ne (fin q : Dbl K) pinf = true := by simp [Dbl.ne, Dbl.eq]
      simp only [hgt, hne, Bool.and_self]
    have hspec : spec_pixel m (.camera w h :: rest) N M x y = none := by
      simp only [spec_pixel, hcond0, Bool.false_eq_true, if_false]
    rw [hspec]
    exact ⟨(nearest_loop m ⟨fin 0, fin 0, fin 0⟩ (pixel_ray m w h N M x y)
      (Object.camera w h :: rest).tail 1 (pinf, s.best_index)).2,
      by simp only [raycast_pixel, hcond, Bool.false_eq_true, if_false]⟩

/-- What the pixel `(x1, y1)` does to the slot of the pixel `(x, y)`. -/
theorem raycast_pixel_slot (m : Libm K) (w h : Dbl K) (rest : List (Object K))
    (N M x y : Nat) (hx : x < N) (hy : y < M)
    (s s1 : RenderState K) (y1 x1 : Nat) (hx1 : x1 < N) (hy1 : y1 < M)
    (hcount : s.pixel_count = y1 * N + x1)
    (hrun : raycast_pixel m (.camera w h :: rest) w h N M s y1 x1 = .ok s1) :
    s1.pixel_buffer ((M - 1 - y) * N + x)
      = if y1 = y ∧ x1 = x then
          (spec_pixel m (.camera w h :: rest) N M x y).getD
            (s.pixel_buffer ((M - 1 - y) * N + x))
        else s.pixel_buffer ((M - 1 - y) * N + x) := by
  have hpc : s.pixel_count < N * M := by
    have h1 : (y1 + 1) * N ≤ M * N := Nat.mul_le_mul_right N hy1
    rw [Nat.add_mul, Nat.one_mul, Nat.mul_comm M N] at h1
    omega
  obtain ⟨bi, hres⟩ := raycast_pixel_alone m w h rest N M s y1 x1 hpc
  rw [hres] at hrun
  injection hrun with hrun
  rw [← hrun]
  simp only
  rw [hcount, buffer_index_eq N M x1 y1 hx1 hy1, Int.toNat_natCast]
  by_cases heq : y1 = y ∧ x1 = x
  · obtain ⟨hye, hxe⟩ := heq
    subst hye
    subst hxe
    simp only [and_self, if_true]
    cases spec_pixel m (.camera w h :: rest) N M x1 y1 with
    | none => rfl
    | some color => simp only [Function.update_same, Option.getD_some]
  · simp only [heq, if_false]
    have hidx : (M - 1 - y) * N + x ≠ (M - 1 - y1) * N + x1 := by
      intro hidx
      obtain ⟨hxe, hye⟩ := row_flip_inj N M x y x1 y1 hx hy hx1 hy1 hidx.symm
      exact heq ⟨hye, hxe⟩
    cases spec_pixel m (.camera w h :: rest) N M x1 y1 with
    | none => rfl
    | some color => simp only [Function.update_noteq hidx]

/-- What the columns `x0 .. x0+len-1` of the row `y1` do to the slot of the pixel `(x, y)`. -/
theorem raycast_row_slot (m : Libm K) (w h : Dbl K) (rest : List (Object K))
    (N M x y : Nat) (hx : x < N) (hy : y < M) (y1 : Nat) (hy1 : y1 < M) :
    ∀ (len x0 : Nat) (s s1 : RenderState K), x0 + len ≤ N → s.pixel_count = y1 * N + x0 →
      raycast_row m (.camera w h :: rest) w h N M y1 (List.range' x0 len) s = .ok s1 →
      s1.pixel_buffer ((M - 1 - y) * N + x)
        = if y1 = y ∧ x0 ≤ x ∧ x < x0 + len then
            (spec_pixel m (.camera w h :: rest) N M x y).getD
              (s.pixel_buffer ((M - 1 - y) * N + x))
          else s.pixel_buffer ((M - 1 - y) * N + x) := by
  intro len
  induction len with
  | zero =>
    intro x0 s s1 _ _ hrun
    simp only [List.range'_zero, raycast_row] at hrun
    injection hrun with hrun
    rw [hrun, if_neg (by omega)]
  | succ len ih =>
    intro x0 s s1 hle hcount hrun
    simp only [List.range'_succ, raycast_row] at hrun
    split at hrun
    · rename_i s2 h2
      have hc2 := (raycast_pixel_ok_cases m _ w h N M s s2 y1 x0 h2).1
      rw [ih (x0 + 1) s2 s1 (by omega) (by rw [hc2, hcount]; omega) hrun,
        raycast_pixel_slot m w h rest N M x y hx hy s s2 y1 x0 (by omega) hy1 hcount h2]
      by_cases hy1e : y1 = y
      · by_cases hx0 : x0 = x
        · rw [if_neg (by omega), if_pos ⟨hy1e, hx0⟩, if_pos ⟨hy1e, by omega, by omega⟩]
        · by_cases hin : x0 + 1 ≤ x ∧ x < x0 + 1 + len
          · rw [if_pos ⟨hy1e, hin⟩, if_neg (by omega), if_pos ⟨hy1e, by omega, by omega⟩]
          · rw [if_neg (by omega), if_neg (by omega), if_neg (by omega)]
      · rw [if_neg (fun hh => hy1e hh.1), if_neg (fun hh => hy1e hh.1),
          if_neg (fun hh => hy1e hh.1)]
    · exact Except.noConfusion hrun

/-- What the rows `y0 .. y0+len-1` do to the slot of the pixel `(x, y)`. -/
theorem raycast_rows_slot (m : Libm K) (w h : Dbl K) (rest : List (Object K))
    (N M x y : Nat) (hx : x < N) (hy : y < M) :
    ∀ (len y0 : Nat) (s s1 : RenderState K), y0 + len ≤ M → s.pixel_count = y0 * N →
      raycast_rows m (.camera w h :: rest) w h N M (List.range' y0 len) s = .ok s1 →
      s1.pixel_buffer ((M - 1 - y) * N + x)
        = if y0 ≤ y ∧ y < y0 + len then
            (spec_pixel m (.camera w h :: rest) N M x y).getD
              (s.pixel_buffer ((M - 1 - y) * N + x))
          else s.pixel_buffer ((M - 1 - y) * N + x) := by
  intro len
  induction len with
  | zero =>
    intro y0 s s1 _ _ hrun
    simp only [List.range'_zero, raycast_rows] at hrun
    injection hrun with hrun
    rw [hrun, if_neg (by omega)]
  | succ len ih =>
    intro y0 s s1 hle hcount hrun
    simp only [List.range'_succ, raycast_rows] at hrun
    split at hrun
    · rename_i s2 h2
      have hc2 := raycast_row_count m _ w h N M y0 _ s s2 h2
      rw [List.length_range] at hc2
      rw [List.range_eq_range'] at h2
      rw [ih (y0 + 1) s2 s1 (by omega) (by rw [hc2, hcount, Nat.add_mul, Nat.one_mul]) hrun,
        raycast_row_slot m w h rest N M x y hx hy y0 (by omega) N 0 s s2 (by omega)
          (by rw [hcount, Nat.add_zero]) h2]
      by_cases hy0 : y0 = y
      · rw [if_neg (by omega), if_pos ⟨hy0, by omega, by omega⟩, if_pos ⟨by omega, by omega⟩]
      · by_cases hin : y0 + 1 ≤ y ∧ y < y0 + 1 + len
        · rw [if_pos hin, if_neg (fun hh => hy0 hh.1), if_pos ⟨by omega, by omega⟩]
        · rw [if_neg hin, if_neg (fun hh => hy0 hh.1), if_neg (by omega)]
    · exact Except.noConfusion hrun

/-- The pixel rendered alone, without any loop state: it has no colour exactly when the
ray has no positive finite distance to a sphere or plane, and otherwise its colour is what
`render_light` returns at the smallest such distance, on the first object that has it. -/
theorem spec_pixel_cases (m : Libm K) (w h : Dbl K) (rest : List (Object K))
    (N M x y : Nat) :
    (spec_pixel m (.camera w h :: rest) N M x y = none
        ∧ ∀ (i : Nat) (o : Object K) (q : K), (Object.camera w h :: rest)[i + 1]? = some o →
            object_t m ⟨fin 0, fin 0, fin 0⟩ (pixel_ray m w h N M x y) o = some (fin q) →
            ¬ 0 < q)
      ∨ (∃ (i : Nat) (o : Object K) (q : K) (color : Vec K),
          (Object.camera w h :: rest)[i + 1]? = some o
          ∧ object_t m ⟨fin 0, fin 0, fin 0⟩ (pixel_ray m w h N M x y) o = some (fin q)
          ∧ 0 < q
          ∧ (∀ (j : Nat) (o1 : Object K) (q1 : K),
              (Object.camera w h :: rest)[j + 1]? = some o1 →
              object_t m ⟨fin 0, fin 0, fin 0⟩ (pixel_ray m w h N M x y) o1 = some (fin q1) →
              0 < q1 → q ≤ q1 ∧ (q1 = q → i ≤ j))
          ∧ render_light m (.camera w h :: rest) (fin q) (i + 1) ⟨fin 0, fin 0, fin 0⟩
              (pixel_ray m w h N M x y) = .ok color
          ∧ spec_pixel m (.camera w h :: rest) N M x y = some color) := by
  rcases nearest_loop_pixel m ⟨fin 0, fin 0, fin 0⟩ (pixel_ray m w h N M x y)
      (.camera w h :: rest) none with ⟨hsame, hnone⟩ | ⟨i, o, q, hget, ht, hq, hres, hmin⟩
  · refine Or.inl ⟨?_, hnone⟩
    have hne : Dbl.ne (pinf : Dbl K) pinf = false := by simp [Dbl.ne, Dbl.eq]
    simp only [spec_pixel, hsame, hne, Bool.and_false, Bool.false_eq_true, if_false]
  · have hkind := object_t_kind m _ _ o (fin q) ht
    obtain ⟨color, hcol⟩ := render_light_ok m (.camera w h :: rest) (fin q) (i + 1)
      ⟨fin 0, fin 0, fin 0⟩ (pixel_ray m w h N M x y) o hget hkind
    have hgt : Dbl.gt (fin q : Dbl K) (fin 0) = true := by
      simp only [gt_fin, decide_eq_true_eq]
      exact hq
    have hne : Dbl.ne (fin q : Dbl K) pinf = true := by simp [Dbl.ne, Dbl.eq]
    refine Or.inr ⟨i, o, q, color, hget, ht, hq, hmin, hcol, ?_⟩
    simp only [spec_pixel, hres, hgt, hne, Bool.and_self, if_true, hcol]

/-- Claim C24. For a scene with the camera at index 0 and a pixel `(x, y)` of the `N`×`M`
image: `raycast_scene` returns, and the slot `(M-1-y)*N + x` of the buffer it leaves holds
the colour of the pixel rendered alone (`spec_pixel`, a function of the scene, `N`, `M`,
`x` and `y` only), or its former content when the pixel has no hit. The body of the loops
gives this colour from every state in which the pixel can be reached, whatever
`best_index` holds from earlier pixels; `best_t`, `t` and `parse_count` are written before
they are read in each pixel and each light, so that they are not part of the state. The
colour of the pixel rendered alone is `render_light` at the smallest positive finite
distance, on the first object that has it. -/
theorem raycast_scene_pixel_alone (m : Libm K) (w h : Dbl K) (rest : List (Object K))
    (pixel_buffer : Nat → Vec K) (N M x y : Nat) (hx : x < N) (hy : y < M) :
    (∃ image : Nat → Vec K,
        raycast_scene m (.camera w h :: rest) pixel_buffer N M = .ok image
          ∧ image ((M - 1 - y) * N + x)
            = (spec_pixel m (.camera w h :: rest) N M x y).getD
                (pixel_buffer ((M - 1 - y) * N + x)))
      ∧ (∀ s : RenderState K, s.pixel_count = y * N + x →
          ∃ bi : Option Nat,
            raycast_pixel m (.camera w h :: rest) w h N M s y x
              = .ok ⟨match spec_pixel m (.camera w h :: rest) N M x y with
                  | some color =>
                    Function.update s.pixel_buffer ((M - 1 - y) * N + x) color
                  | none => s.pixel_buffer,
                s.pixel_count + 1, bi⟩)
      ∧ ((spec_pixel m (.camera w h :: rest) N M x y = none
            ∧ ∀ (i : Nat) (o : Object K) (q : K),
                (Object.camera w h :: rest)[i + 1]? = some o →
                object_t m ⟨fin 0, fin 0, fin 0⟩ (pixel_ray m w h N M x y) o = some (fin q) →
                ¬ 0 < q)
          ∨ (∃ (i : Nat) (o : Object K) (q : K) (color : Vec K),
              (Object.camera w h :: rest)[i + 1]? = some o
              ∧ object_t m ⟨fin 0, fin 0, fin 0⟩ (pixel_ray m w h N M x y) o = some (fin q)
              ∧ 0 < q
              ∧ (∀ (j : Nat) (o1 : Object K) (q1 : K),
                  (Object.camera w h :: rest)[j + 1]? = some o1 →
                  object_t m ⟨fin 0, fin 0, fin 0⟩ (pixel_ray m w h N M x y) o1
                    = some (fin q1) →
                  0 < q1 → q ≤ q1 ∧ (q1 = q → i ≤ j))
              ∧ render_light m (.camera w h :: rest) (fin q) (i + 1) ⟨fin 0, fin 0, fin 0⟩
                  (pixel_ray m w h N M x y) = .ok color
              ∧ spec_pixel m (.camera w h :: rest) N M x y = some color)) := by
  refine ⟨?_, fun s hcount => ?_, spec_pixel_cases m w h rest N M x y⟩
  · obtain ⟨image, himage⟩ := raycast_scene_ok m w h rest pixel_buffer N M
    refine ⟨image, himage, ?_⟩
    simp only [raycast_scene] at himage
    split at himage
    · rename_i s1 hs1
      injection himage with himage
      rw [← himage]
      rw [List.range_eq_range'] at hs1
      rw [raycast_rows_slot m w h rest N M x y hx hy M 0 ⟨pixel_buffer, 0, none⟩ s1 (by omega)
        (by simp) hs1, if_pos ⟨by omega, by omega⟩]
    · exact Except.noConfusion himage
  · have hpc : s.pixel_count < N * M := by
      have h1 : (y + 1) * N ≤ M * N := Nat.mul_le_mul_right N hy
      rw [Nat.add_mul, Nat.one_mul, Nat.mul_comm M N] at h1
      omega
    obtain ⟨bi, hres⟩ := raycast_pixel_alone m w h rest N M s y x hpc
    rw [hcount, buffer_index_eq N M x y hx hy, Int.toNat_natCast] at hres
    rw [← hcount] at hres
    exact ⟨bi, hres⟩

/-- The plane lit from behind the camera, as a 1×1 image: the pixel rendered alone is
white, and so is the slot 0 of the buffer that `raycast_scene` leaves. -/
theorem raycast_scene_pixel_alone_witness :
    spec_pixel exactLibm [camera2, plane5, lightBehind] 1 1 0 0 = some ⟨fin 1, fin 1, fin 1⟩
      ∧ ∃ image : Nat → Vec ℚ,
          raycast_scene exactLibm [camera2, plane5, lightBehind] blackBuffer 1 1 = .ok image
            ∧ image 0 = ⟨fin 1, fin 1, fin 1⟩ := by
  have hn : nearest_loop exactLibm ⟨fin 0, fin 0, fin 0⟩ zAxis
      (Object.camera (fin 2) (fin 2) :: [plane5, lightBehind]).tail 1 (pinf, none)
        = (fin 5, some 1) := by
    have hp := object_t_plane5
    simp only [origin] at hp
    simp only [List.tail_cons, nearest_loop, hp, object_t_lightBehind]
    simp [Dbl.lt, Dbl.gt]
  have hr := render_light_lit_plane
  simp only [origin, camera2] at hr
  have hspec : spec_pixel exactLibm [camera2, plane5, lightBehind] 1 1 0 0
      = some ⟨fin 1, fin 1, fin 1⟩ := by
    simp only [spec_pixel, camera2, pixel_ray_one, hn]
    simp [Dbl.gt, Dbl.lt, Dbl.ne, Dbl.eq, hr]
  obtain ⟨image, himage, hslot⟩ := (raycast_scene_pixel_alone exactLibm (fin 2) (fin 2)
    [plane5, lightBehind] blackBuffer 1 1 0 0 (by decide) (by decide)).1
  have hspec2 : spec_pixel exactLibm (Object.camera (fin 2) (fin 2) :: [plane5, lightBehind])
      1 1 0 0 = some ⟨fin 1, fin 1, fin 1⟩ := hspec
  rw [hspec2] at hslot
  exact ⟨hspec, image, himage, hslot⟩

end Independence

/-! ## The vectors handed to `normalize` -/

section ZeroVector

variable {K : Type} [LinearOrderedField K]

/-- A difference of two `double`s is 0 exactly when both are the same finite value. -/
theorem dbl_sub_eq_zero (a b : Dbl K) : a - b = fin 0 ↔ ∃ q : K, a = fin q ∧ b = fin q := by
  rcases a with x | _ | _ <;> rcases b with y | _ | _ <;>
    try (first
      | exact ⟨fun h => Dbl.noConfusion h, fun h => Dbl.noConfusion h.choose_spec.1⟩
      | exact ⟨fun h => Dbl.noConfusion h, fun h => Dbl.noConfusion h.choose_spec.2⟩)
  simp only [fin_sub, Dbl.fin.injEq, sub_eq_zero]
  constructor
  · intro hxy
    exact ⟨x, rfl, hxy.symm⟩
  · rintro ⟨q, hx, hy⟩
    rw [hx, hy]

/-- The sum of squares that `normalize` takes the root of is 0 exactly for the vector
(0,0,0). -/
theorem sum_sqr_eq_zero (a b c : Dbl K) :
    sqr a + sqr b + sqr c = fin 0 ↔ a = fin 0 ∧ b = fin 0 ∧ c = fin 0 := by
  rcases a with x | _ | _ <;> rcases b with y | _ | _ <;> rcases c with z | _ | _ <;>
    try (first
      | exact ⟨fun h => Dbl.noConfusion h, fun h => Dbl.noConfusion h.1⟩
      | exact ⟨fun h => Dbl.noConfusion h, fun h => Dbl.noConfusion h.2.1⟩
      | exact ⟨fun h => Dbl.noConfusion h, fun h => Dbl.noConfusion h.2.2⟩)
  simp only [sqr_fin, fin_add, Dbl.fin.injEq]
  constructor
  · intro h0
    have hx : x = 0 := by nlinarith [mul_self_nonneg x, mul_self_nonneg y, mul_self_nonneg z]
    have hy : y = 0 := by nlinarith [mul_self_nonneg x, mul_self_nonneg y, mul_self_nonneg z]
    have hz : z = 0 := by nlinarith [mul_self_nonneg x, mul_self_nonneg y, mul_self_nonneg z]
    exact ⟨hx, hy, hz⟩
  · rintro ⟨hx, hy, hz⟩
    subst hx
    subst hy
    subst hz
    simp

/-- A positive result of `sphere_intersection` is a root of `a t^2 + b t + c`, when `sqrt`
returns the non-negative root of a non-negative discriminant. -/
theorem sphere_intersection_root (m : Libm K) (ox oy oz dx dy dz cx cy cz r a b c t : K)
    (ha : dx * dx + dy * dy + dz * dz = a) (hapos : 0 < a)
    (hb : (2 * dx * ox - 2 * dx * cx) + (2 * dy * oy - 2 * dy * cy)
      + (2 * dz * oz - 2 * dz * cz) = b)
    (hc : (ox * ox - 2 * ox * cx + cx * cx) + (oy * oy - 2 * oy * cy + cy * cy)
      + (oz * oz - 2 * oz * cz + cz * cz) - r * r = c)
    (hsqrt : 0 ≤ b * b - 4 * a * c → 0 ≤ m.sqrt (b * b - 4 * a * c)
      ∧ m.sqrt (b * b - 4 * a * c) * m.sqrt (b * b - 4 * a * c) = b * b - 4 * a * c)
    (hval : sphere_intersection m ⟨fin ox, fin oy, fin oz⟩ ⟨fin dx, fin dy, fin dz⟩
      ⟨fin cx, fin cy, fin cz⟩ (fin r) = fin t)
    (hpos : 0 < t) : a * t * t + b * t + c = 0 := by
  have ha0 : a ≠ 0 := hapos.ne'
  rw [sphere_intersection_fin_gen m ox oy oz dx dy dz cx cy cz r a b c ha ha0 hb hc] at hval
  by_cases hdet : b * b - 4 * a * c < 0
  · rw [if_pos hdet] at hval
    injection hval with hval
    exact absurd hval hpos.ne
  · rw [if_neg hdet] at hval
    obtain ⟨hs0, hss⟩ := hsqrt (not_lt.mp hdet)
    generalize m.sqrt (b * b - 4 * a * c) = s at hval hs0 hss
    have hfac := fun u => quadratic_factor a b c s u ha0 hss
    have h2a : 0 < 2 * a := by linarith
    have hle : (-b - s) / (2 * a) ≤ (-b + s) / (2 * a) :=
      div_le_div_of_nonneg_right (by linarith) h2a.le
    generalize (-b - s) / (2 * a) = t0 at hval hfac hle
    generalize (-b + s) / (2 * a) = t1 at hval hfac hle
    have hroot0 : a * t0 * t0 + b * t0 + c = 0 := by rw [hfac]; simp
    have hroot1 : a * t1 * t1 + b * t1 + c = 0 := by rw [hfac]; simp
    by_cases h0 : t0 ≤ 0
    · by_cases h1 : t1 ≤ 0
      · rw [if_pos ⟨h0, h1⟩] at hval
        injection hval with hval
        exact absurd hval hpos.ne
      · rw [if_neg (fun h => h1 h.2), if_pos h0] at hval
        injection hval with hval
        rw [← hval]
        exact hroot1
    · have h1 : ¬ t1 ≤ 0 := by
        intro h
        linarith [not_le.mp h0]
      rw [if_neg (fun h => h0 h.1), if_neg h0, if_neg h1, min_eq_left hle] at hval
      injection hval with hval
      rw [← hval]
      exact hroot0

/-- Claim C23 fails as stated. The scene camera (2×2), `plane5` (unit normal (0,0,-1)),
`lightOnPlane` (unit direction (0,0,-1)) has one camera, at index 0. For the only pixel of
its 1×1 image the nearest hit is at distance 5 on the plane, at the point (0,0,5), which
is the position of the light: the vector from the hit point to the light that
`render_light` hands to `normalize` is (0,0,0), its sum of squares is 0, `normalize`
returns `NaN`s and so does the body of the light loop. A sphere of radius 0 on the ray does
the same to the sphere normal: it is hit at distance 5, at its own centre. -/
theorem light_at_hit_point_zero_vector :
    nearest_loop exactLibm origin (pixel_ray exactLibm (fin 2) (fin 2) 1 1 0 0)
        [camera2, plane5, lightOnPlane].tail 1 (pinf, none) = (fin 5, some 1)
      ∧ (⟨fin 5 * zAxis.c0 + origin.c0, fin 5 * zAxis.c1 + origin.c1,
          fin 5 * zAxis.c2 + origin.c2⟩ : Vec ℚ) = ⟨fin 0, fin 0, fin 5⟩
      ∧ lightOnPlane = .light white ⟨fin 0, fin 0, fin 5⟩ ⟨fin 0, fin 0, fin (-1)⟩ (fin 0)
          (fin 0) (fin 1) (fin 0) (fin 0)
      ∧ sqr (fin 0 - fin 0 : Dbl ℚ) + sqr (fin 0 - fin 0) + sqr (fin 5 - fin 5) = fin 0
      ∧ normalize exactLibm ⟨fin 0 - fin 0, fin 0 - fin 0, fin 5 - fin 5⟩ = ⟨nan, nan, nan⟩
      ∧ render_light_body exactLibm [camera2, plane5, lightOnPlane] (fin 5) 1 zAxis
          ⟨fin 0, fin 0, fin 5⟩ ⟨fin 0, fin 0, fin 0⟩ lightOnPlane = .ok ⟨nan, nan, nan⟩
      ∧ pointSphere = .sphere white white ⟨fin 0, fin 0, fin 5⟩ (fin 0)
      ∧ object_t exactLibm origin zAxis pointSphere = some (fin 5) := by
  have hshadow : ∀ (m : Libm ℚ) (Rdn : Vec ℚ) (d : Dbl ℚ),
      shadow_loop m ⟨fin 0, fin 0, fin 5⟩ Rdn d 1 [plane5, lightOnPlane] 1 (fin 0)
        = fin 0 := by
    intro m Rdn d
    simp [shadow_loop, lightOnPlane, object_t]
  simp only [plane5, lightOnPlane, white] at hshadow
  refine ⟨?_, hit_point_plane5, rfl, ?_, ?_, ?_, rfl, ?_⟩
  · rw [pixel_ray_one]
    exact nearest_loop_plane5
  · norm_num
  · norm_num [normalize, exactLibm_sqrt_zero, Dbl.sqrt, fin_div]
  · norm_num [render_light_body, plane5, lightOnPlane, hshadow, normalize, calculate_distance,
      exactLibm_sqrt_zero, reflect, diffuse, specular, add_light, floor0, frad, fang, clamp,
      white, zAxis]
  · have h := sphere_intersection_fin exactLibm 0 0 0 0 0 1 0 0 5 0 (by norm_num)
    norm_num [exactLibm_sqrt_zero] at h
    simp only [object_t, pointSphere, origin, zAxis, h]

/-- Claim C23, amended. The vectors that rendering hands to `normalize`: the camera ray
has the third component 1, so that its sum of squares is never 0; the vector from the hit
point `P` to the position `L` of a light has the sum of squares 0 exactly when `L` is `P`
(a light at the hit point, which no check excludes); and for a ray with a non-zero
direction that `sphere_intersection` hits at `t > 0`, the sum of squares of the sphere
normal `P - centre` is the square of the radius, so that it is 0 exactly when the radius
is 0. The function `sqrt` is taken to return the non-negative root of a non-negative
discriminant. -/
theorem normalize_zero_vector_cases (m : Libm K) :
    (∀ (w h : Dbl K) (N M x y : Nat), ∃ a b : Dbl K,
        pixel_ray m w h N M x y = normalize m ⟨a, b, fin 1⟩
          ∧ sqr a + sqr b + sqr (fin 1) ≠ fin 0)
      ∧ (∀ P L : Vec K,
          sqr (L.c0 - P.c0) + sqr (L.c1 - P.c1) + sqr (L.c2 - P.c2) = fin 0
            ↔ ∃ p0 p1 p2 : K, P = ⟨fin p0, fin p1, fin p2⟩ ∧ L = P)
      ∧ (∀ ox oy oz dx dy dz cx cy cz r a b c t : K,
          dx * dx + dy * dy + dz * dz = a → 0 < a →
          (2 * dx * ox - 2 * dx * cx) + (2 * dy * oy - 2 * dy * cy)
            + (2 * dz * oz - 2 * dz * cz) = b →
          (ox * ox - 2 * ox * cx + cx * cx) + (oy * oy - 2 * oy * cy + cy * cy)
            + (oz * oz - 2 * oz * cz + cz * cz) - r * r = c →
          (0 ≤ b * b - 4 * a * c → 0 ≤ m.sqrt (b * b - 4 * a * c)
            ∧ m.sqrt (b * b - 4 * a * c) * m.sqrt (b * b - 4 * a * c) = b * b - 4 * a * c) →
          sphere_intersection m ⟨fin ox, fin oy, fin oz⟩ ⟨fin dx, fin dy, fin dz⟩
            ⟨fin cx, fin cy, fin cz⟩ (fin r) = fin t →
          0 < t →
          sqr (fin t * fin dx + fin ox - fin cx) + sqr (fin t * fin dy + fin oy - fin cy)
              + sqr (fin t * fin dz + fin oz - fin cz) = fin (r * r)
            ∧ (sqr (fin t * fin dx + fin ox - fin cx) + sqr (fin t * fin dy + fin oy - fin cy)
              + sqr (fin t * fin dz + fin oz - fin cz) = fin 0 ↔ r = 0)) := by
  refine ⟨fun w h N M x y => ?_, fun P L => ?_, ?_⟩
  · refine ⟨fin 0 - (w / fin 2) + (w / Dbl.ofNat N) * (Dbl.ofNat x + fin (1 / 2)),
      fin 0 - (h / fin 2) + (h / Dbl.ofNat M) * (Dbl.ofNat y + fin (1 / 2)), rfl, ?_⟩
    intro h0
    have h1 := ((sum_sqr_eq_zero _ _ _).mp h0).2.2
    injection h1 with h1
    exact one_ne_zero h1
  · rw [sum_sqr_eq_zero, dbl_sub_eq_zero, dbl_sub_eq_zero, dbl_sub_eq_zero]
    constructor
    · rintro ⟨⟨q0, hl0, hp0⟩, ⟨q1, hl1, hp1⟩, ⟨q2, hl2, hp2⟩⟩
      refine ⟨q0, q1, q2, ?_, ?_⟩
      · cases P
        simp only at hp0 hp1 hp2
        rw [hp0, hp1, hp2]
      · cases P
        cases L
        simp only at hp0 hp1 hp2 hl0 hl1 hl2
        rw [hp0, hp1, hp2, hl0, hl1, hl2]
    · rintro ⟨p0, p1, p2, hP, hL⟩
      rw [hL, hP]
      exact ⟨⟨p0, rfl, rfl⟩, ⟨p1, rfl, rfl⟩, ⟨p2, rfl, rfl⟩⟩
  · intro ox oy oz dx dy dz cx cy cz r a b c t ha hapos hb hc hsqrt hval hpos
    have hroot := sphere_intersection_root m ox oy oz dx dy dz cx cy cz r a b c t ha hapos hb
      hc hsqrt hval hpos
    have hsum : sqr (fin t * fin dx + fin ox - fin cx) + sqr (fin t * fin dy + fin oy - fin cy)
        + sqr (fin t * fin dz + fin oz - fin cz) = (fin (r * r) : Dbl K) := by
      simp only [fin_mul, fin_add, fin_sub, sqr_fin]
      congr 1
      subst ha
      subst hb
      subst hc
      linear_combination hroot
    refine ⟨hsum, ?_⟩
    rw [hsum]
    simp only [Dbl.fin.injEq, mul_self_eq_zero]

/-- The sphere with centre (0,0,5) and radius 1 on the ray along the z axis: it is hit at
distance 4, and the sum of squares of the normal at the hit point is 1, not 0. -/
theorem normalize_zero_vector_cases_witness :
    sphere_intersection exactLibm ⟨fin 0, fin 0, fin 0⟩ ⟨fin 0, fin 0, fin 1⟩
        ⟨fin 0, fin 0, fin 5⟩ (fin 1) = fin 4
      ∧ sqr (fin 4 * fin 0 + fin 0 - fin 0 : Dbl ℚ) + sqr (fin 4 * fin 0 + fin 0 - fin 0)
          + sqr (fin 4 * fin 1 + fin 0 - fin 5) = fin (1 * 1)
      ∧ sqr (fin 4 * fin 0 + fin 0 - fin 0 : Dbl ℚ) + sqr (fin 4 * fin 0 + fin 0 - fin 0)
          + sqr (fin 4 * fin 1 + fin 0 - fin 5) ≠ fin 0 := by
  have hval : sphere_intersection exactLibm ⟨fin 0, fin 0, fin 0⟩ ⟨fin 0, fin 0, fin 1⟩
      ⟨fin 0, fin 0, fin 5⟩ (fin 1) = fin 4 := by
    have h := sphere_intersection_fin exactLibm 0 0 0 0 0 1 0 0 5 1 (by norm_num)
    norm_num [exactLibm_sqrt_four] at h
    exact h
  have h := (normalize_zero_vector_cases exactLibm).2.2 0 0 0 0 0 1 0 0 5 1 1 (-10) 24 4
    (by norm_num) (by norm_num) (by norm_num) (by norm_num)
    (by
      intro _
      have h4 : ((-10 : ℚ) * (-10) - 4 * 1 * 24) = 4 := by norm_num
      rw [h4, exactLibm_sqrt_four]
      norm_num)
    hval (by norm_num)
  exact ⟨hval, h.1, fun h0 => one_ne_zero (h.2.mp h0)⟩

end ZeroVector

/-! ## The slot that a pixel is written to -/

section PixelWritten

variable {K : Type} [LinearOrderedField K]

/-- When the ray has a smallest positive finite distance `q`, first reached at the index
`i + 1`, the scan ends with `best_t = q` and `best_index = i + 1`, whatever `best_index`
held before. -/
theorem nearest_loop_of_hit (m : Libm K) (Ro Rd : Vec K) (object_array : List (Object K))
    (bi0 : Option Nat) (i : Nat) (o : Object K) (q : K)
    (hget : object_array[i + 1]? = some o) (ht : object_t m Ro Rd o = some (fin q))
    (hq : 0 < q)
    (hmin : ∀ (j : Nat) (o1 : Object K) (q1 : K), object_array[j + 1]? = some o1 →
      object_t m Ro Rd o1 = some (fin q1) → 0 < q1 → q ≤ q1 ∧ (q1 = q → i ≤ j)) :
    nearest_loop m Ro Rd object_array.tail 1 (pinf, bi0) = (fin q, some (i + 1)) := by
  rcases nearest_loop_pixel m Ro Rd object_array bi0 with
    ⟨-, hnone⟩ | ⟨i1, o1, q1, hget1, ht1, hq1, hres1, hmin1⟩
  · exact absurd hq (hnone i o q hget ht)
  · have h1 := hmin i1 o1 q1 hget1 ht1 hq1
    have h2 := hmin1 i o q hget ht hq
    have hqq : q1 = q := le_antisymm h2.1 h1.1
    have hii : i1 = i := le_antisymm (h2.2 hqq.symm) (h1.2 hqq)
    rw [hres1, hqq, hii]

/-- C2: for a pixel `(x, y)` with `x < N` and `y < M`, the index computed from
`pixel_count = y * N + x` is `(M-1-y)*N + x`; it lies in `[0, N*M)`; distinct pixels get
distinct indices; the row `y = M-1` goes to the buffer row 0. In `raycast_scene`, after the
rows before `y` and the columns before `x`, `pixel_count` is `y * N + x` and the body of the
loops returns: when the ray of the pixel has a smallest positive finite distance `q`, first
reached on the object `i + 1`, it writes the colour that `render_light` returns for that
hit at the index `(M-1-y)*N + x` and nowhere else, and when the ray has no positive finite
distance it writes nothing. With the camera at index 0, `raycast_scene` returns a buffer
that holds this colour at `(M-1-y)*N + x`, and the former content there for a pixel without
a hit. -/
theorem buffer_index_row_flip (m : Libm K) (object_array : List (Object K)) (w h : Dbl K)
    (N M x y : Nat) (hx : x < N) (hy : y < M) :
    buffer_index N M (y * N + x) = (((M - 1 - y) * N + x : Nat) : Int)
      ∧ (M - 1 - y) * N + x < N * M
      ∧ (∀ x1 y1 : Nat, x1 < N → y1 < M →
          buffer_index N M (y1 * N + x1) = buffer_index N M (y * N + x) → x1 = x ∧ y1 = y)
      ∧ (y = M - 1 → buffer_index N M (y * N + x) = (x : Int))
      ∧ (∀ s0 s1 s2 : RenderState K, s0.pixel_count = 0 →
          raycast_rows m object_array w h N M (List.range y) s0 = .ok s1 →
          raycast_row m object_array w h N M y (List.range x) s1 = .ok s2 →
          s2.pixel_count = y * N + x
            ∧ ∃ s3 : RenderState K, raycast_pixel m object_array w h N M s2 y x = .ok s3
              ∧ s3.pixel_count = y * N + x + 1
              ∧ ((∀ (i : Nat) (o : Object K) (q : K), 1 ≤ i → object_array[i]? = some o →
                    object_t m ⟨fin 0, fin 0, fin 0⟩ (pixel_ray m w h N M x y) o
                      = some (fin q) → ¬ 0 < q) →
                  s3.pixel_buffer = s2.pixel_buffer)
              ∧ (∀ (i : Nat) (o : Object K) (q : K), object_array[i + 1]? = some o →
                  object_t m ⟨fin 0, fin 0, fin 0⟩ (pixel_ray m w h N M x y) o
                    = some (fin q) →
                  0 < q →
                  (∀ (j : Nat) (o1 : Object K) (q1 : K), object_array[j + 1]? = some o1 →
                    object_t m ⟨fin 0, fin 0, fin 0⟩ (pixel_ray m w h N M x y) o1
                      = some (fin q1) →
                    0 < q1 → q ≤ q1 ∧ (q1 = q → i ≤ j)) →
                  ∃ color : Vec K,
                    render_light m object_array (fin q) (i + 1) ⟨fin 0, fin 0, fin 0⟩
                        (pixel_ray m w h N M x y) = .ok color
                      ∧ s3.pixel_buffer
                        = Function.update s2.pixel_buffer ((M - 1 - y) * N + x) color))
      ∧ (∀ (rest : List (Object K)) (pixel_buffer : Nat → Vec K),
          object_array = .camera w h :: rest →
          ∃ image : Nat → Vec K,
            raycast_scene m object_array pixel_buffer N M = .ok image
              ∧ ((∀ (i : Nat) (o : Object K) (q : K), 1 ≤ i → object_array[i]? = some o →
                    object_t m ⟨fin 0, fin 0, fin 0⟩ (pixel_ray m w h N M x y) o
                      = some (fin q) → ¬ 0 < q) →
                  image ((M - 1 - y) * N + x) = pixel_buffer ((M - 1 - y) * N + x))
              ∧ (∀ (i : Nat) (o : Object K) (q : K), object_array[i + 1]? = some o →
                  object_t m ⟨fin 0, fin 0, fin 0⟩ (pixel_ray m w h N M x y) o
                    = some (fin q) →
                  0 < q →
                  (∀ (j : Nat) (o1 : Object K) (q1 : K), object_array[j + 1]? = some o1 →
                    object_t m ⟨fin 0, fin 0, fin 0⟩ (pixel_ray m w h N M x y) o1
                      = some (fin q1) →
                    0 < q1 → q ≤ q1 ∧ (q1 = q → i ≤ j)) →
                  ∃ color : Vec K,
                    render_light m object_array (fin q) (i + 1) ⟨fin 0, fin 0, fin 0⟩
                        (pixel_ray m w h N M x y) = .ok color
                      ∧ image ((M - 1 - y) * N + x) = color)) := by
  have hgt : ∀ q : K, 0 < q → Dbl.gt (fin q : Dbl K) (fin 0) = true := by
    intro q hq
    simp only [gt_fin, decide_eq_true_eq]
    exact hq
  have hne : ∀ q : K, Dbl.ne (fin q : Dbl K) pinf = true := by
    intro q
    simp [Dbl.ne, Dbl.eq]
  refine ⟨buffer_index_eq N M x y hx hy, row_flip_lt N M x y hx hy, ?_, ?_, ?_, ?_⟩
  · intro x1 y1 hx1 hy1 heq
    rw [buffer_index_eq N M x y hx hy, buffer_index_eq N M x1 y1 hx1 hy1] at heq
    have heq1 : (M - 1 - y1) * N + x1 = (M - 1 - y) * N + x := by exact_mod_cast heq
    exact row_flip_inj N M x y x1 y1 hx hy hx1 hy1 heq1
  · intro hlast
    rw [buffer_index_eq N M x y hx hy]
    have h0 : M - 1 - y = 0 := by omega
    rw [h0, Nat.zero_mul, Nat.zero_add]
  · intro s0 s1 s2 h0 hrows hrow
    have hc1 := raycast_rows_count m object_array w h N M _ s0 s1 hrows
    have hc2 := raycast_row_count m object_array w h N M y _ s1 s2 hrow
    rw [List.length_range] at hc1 hc2
    have hcount : s2.pixel_count = y * N + x := by rw [hc2, hc1, h0, Nat.zero_add]
    have hpc : s2.pixel_count < N * M := by
      have h1 : (y + 1) * N ≤ M * N := Nat.mul_le_mul_right N hy
      rw [Nat.add_mul, Nat.one_mul, Nat.mul_comm M N] at h1
      omega
    obtain ⟨s3, hs3⟩ := raycast_pixel_ok m object_array w h N M s2 y x hpc
    have hc3 := (raycast_pixel_ok_cases m object_array w h N M s2 s3 y x hs3).1
    refine ⟨hcount, s3, hs3, by rw [hc3, hcount], fun hno => ?_,
      fun i o q hget ht hq hmin => ?_⟩
    · rw [raycast_pixel_no_hit m object_array w h N M s2 y x hno] at hs3
      injection hs3 with hs3
      rw [← hs3]
    · have hres := nearest_loop_of_hit m ⟨fin 0, fin 0, fin 0⟩ (pixel_ray m w h N M x y)
        object_array s2.best_index i o q hget ht hq hmin
      obtain ⟨color, hcol⟩ := render_light_ok m object_array (fin q) (i + 1)
        ⟨fin 0, fin 0, fin 0⟩ (pixel_ray m w h N M x y) o hget
        (object_t_kind m _ _ o (fin q) ht)
      refine ⟨color, hcol, ?_⟩
      rw [raycast_pixel_hit m object_array w h N M s2 y x q (i + 1) color hq hres hcol hpc]
        at hs3
      injection hs3 with hs3
      rw [← hs3]
      simp only
      rw [hcount, buffer_index_eq N M x y hx hy, Int.toNat_natCast]
  · intro rest pixel_buffer hobj
    subst hobj
    obtain ⟨image, himage⟩ := raycast_scene_ok m w h rest pixel_buffer N M
    have hslot : image ((M - 1 - y) * N + x)
        = (spec_pixel m (.camera w h :: rest) N M x y).getD
            (pixel_buffer ((M - 1 - y) * N + x)) := by
      have hrun := himage
      simp only [raycast_scene] at hrun
      split at hrun
      · rename_i s1 hs1
        injection hrun with hrun
        rw [← hrun]
        rw [List.range_eq_range'] at hs1
        rw [raycast_rows_slot m w h rest N M x y hx hy M 0 ⟨pixel_buffer, 0, none⟩ s1
          (by omega) (by simp) hs1, if_pos ⟨by omega, by omega⟩]
      · exact Except.noConfusion hrun
    refine ⟨image, himage, fun hno => ?_, fun i o q hget ht hq hmin => ?_⟩
    · rcases spec_pixel_cases m w h rest N M x y with
        ⟨hnone, -⟩ | ⟨i, o, q, color, hget, ht, hq, -, -, -⟩
      · rw [hslot, hnone]
        rfl
      · exact absurd hq (hno (i + 1) o q (by omega) hget ht)
    · have hres := nearest_loop_of_hit m ⟨fin 0, fin 0, fin 0⟩ (pixel_ray m w h N M x y)
        (.camera w h :: rest) none i o q hget ht hq hmin
      obtain ⟨color, hcol⟩ := render_light_ok m (.camera w h :: rest) (fin q) (i + 1)
        ⟨fin 0, fin 0, fin 0⟩ (pixel_ray m w h N M x y) o hget
        (object_t_kind m _ _ o (fin q) ht)
      have hspec : spec_pixel m (.camera w h :: rest) N M x y = some color := by
        simp only [spec_pixel, hres, hgt q hq, hne q, Bool.and_self, if_true, hcol]
      refine ⟨color, hcol, ?_⟩
      rw [hslot, hspec]
      rfl

/-- A 2×2 image: the pixel `(1, 0)` of the first row scanned goes to the index 3, in the
last row of the buffer. And the plane lit from behind the camera, as a 1×1 image: the ray
of the pixel hits the plane at distance 5, and the slot 0 of the buffer that
`raycast_scene` returns holds white, the colour of `render_light` for that hit. -/
theorem buffer_index_row_flip_witness :
    (1 < 2) ∧ (0 < 2) ∧ buffer_index 2 2 (0 * 2 + 1) = 3
      ∧ ∃ image : Nat → Vec ℚ,
          raycast_scene exactLibm [camera2, plane5, lightBehind] blackBuffer 1 1 = .ok image
            ∧ image 0 = ⟨fin 1, fin 1, fin 1⟩ := by
  refine ⟨by norm_num, by norm_num, ?_, ?_⟩
  · have h := (buffer_index_row_flip exactLibm [camera2] (fin 2) (fin 2) 2 2 1 0
      (by norm_num) (by norm_num)).1
    rw [h]
    rfl
  · have hp := object_t_plane5
    simp only [origin] at hp
    have hr := render_light_lit_plane
    simp only [origin] at hr
    obtain ⟨image, himage, -, hhit⟩ := (buffer_index_row_flip exactLibm
      [camera2, plane5, lightBehind] (fin 2) (fin 2) 1 1 0 0 (by norm_num)
      (by norm_num)).2.2.2.2.2 [plane5, lightBehind] blackBuffer rfl
    obtain ⟨color, hcol, hslot⟩ := hhit 0 plane5 5 rfl (by rw [pixel_ray_one]; exact hp)
      (by norm_num) (by
        intro j o1 q1 hget1 ht1 _
        rw [pixel_ray_one] at ht1
        match j, hget1 with
        | 0, hget1 =>
          simp only [List.getElem?_cons_succ, List.getElem?_cons_zero,
            Option.some.injEq] at hget1
          subst hget1
          rw [hp] at ht1
          simp only [Option.some.injEq, Dbl.fin.injEq] at ht1
          subst ht1
          exact ⟨le_refl _, fun _ => le_refl _⟩
        | 1, hget1 =>
          simp only [List.getElem?_cons_succ, List.getElem?_cons_zero,
            Option.some.injEq] at hget1
          subst hget1
          rw [object_t_lightBehind] at ht1
          exact Option.noConfusion ht1
        | j + 2, hget1 => simp at hget1)
    rw [pixel_ray_one, hr] at hcol
    injection hcol with hcol
    rw [← hcol] at hslot
    exact ⟨image, himage, hslot⟩

end PixelWritten

end Raycast
